import Mathlib

/-!
Verification of the go-galaxy collection installer.

This file gives a shallow embedding, in Lean 4, of the parts of the
go-galaxy code base that the checked properties talk about:

* the semantic-version engine used by the resolver (the external
  Masterminds semver package: version parsing, precedence ordering and
  constraint checking);
* the resolver's version selection (`selectVersion`), exact-version
  extraction (`exactVersionFromConstraints`) and constraint
  normalization (`normalizeConstraint`);
* the resolved-map / dependency-graph construction of the three resolver
  paths (full resolve, full snapshot reuse, incremental reuse);
* the topological level builder (`buildInstallLevels`);
* the safe archive extractor (path sanitization, symlink-parent checks
  and size caps);
* the HTTP metadata cache (`FetchJSONWithCachePolicy`);
* the installer's skip/download/record logic (`canSkipInstall`,
  `downloadCollectionToCache`, `verifyDownloadSHA`, `resolveArtifactSHA`).

Go maps are embedded as association lists with Go's update semantics,
byte strings as `String`, `time.Time`/`time.Duration` as `Int`
(nanoseconds), and the filesystem / network as explicit function
parameters.  Each definition carries the name of the Go function it
embeds.
-/

namespace GoGalaxy

/-! ## Association lists with Go map semantics -/

/-- Lookup in an association list (Go `m[k]`, comma-ok form). -/
def alookup {α : Type} (m : List (String × α)) (k : String) : Option α :=
  match m with
  | [] => none
  | (k2, v) :: rest => if k2 = k then some v else alookup rest k

/-- Go map assignment `m[k] = v`: replace in place or append. -/
def aset {α : Type} (m : List (String × α)) (k : String) (v : α) : List (String × α) :=
  match m with
  | [] => [(k, v)]
  | (k2, w) :: rest => if k2 = k then (k, v) :: rest else (k2, w) :: aset rest k v

/-- Go `delete(m, k)`. -/
def aerase {α : Type} (m : List (String × α)) (k : String) : List (String × α) :=
  match m with
  | [] => []
  | (k2, w) :: rest => if k2 = k then aerase rest k else (k2, w) :: aerase rest k

/-- The keys of an association list. -/
def akeys {α : Type} (m : List (String × α)) : List String := m.map (·.1)

/-- Key membership (Go `_, ok := m[k]`). -/
def amem {α : Type} (m : List (String × α)) (k : String) : Bool := (alookup m k).isSome

theorem alookup_aset {α : Type} (m : List (String × α)) (k k2 : String) (v : α) :
    alookup (aset m k v) k2 = if k = k2 then some v else alookup m k2 := by
  induction m with
  | nil => simp [aset, alookup]
  | cons hd tl ih =>
    obtain ⟨k3, w⟩ := hd
    by_cases h3 : k3 = k
    · by_cases h2 : k = k2
      · simp [aset, alookup, h3, h2]
      · have hne : ¬ k3 = k2 := by rw [h3]; exact h2
        simp [aset, alookup, h3, h2, hne]
    · by_cases h4 : k3 = k2
      · have hne : ¬ k = k2 := by rw [← h4]; exact fun hh => h3 hh.symm
        have hne2 : ¬ k2 = k := fun hh => hne hh.symm
        simp [aset, alookup, h3, h4, hne, hne2]
      · simp [aset, alookup, h3, h4, ih]

theorem alookup_aerase {α : Type} (m : List (String × α)) (k k2 : String) :
    alookup (aerase m k) k2 = if k = k2 then none else alookup m k2 := by
  induction m with
  | nil => simp [aerase, alookup]
  | cons hd tl ih =>
    obtain ⟨k3, w⟩ := hd
    by_cases h3 : k3 = k
    · by_cases h2 : k = k2
      · have hne : k3 = k2 := h3.trans h2
        have ih2 := ih
        simp only [h2, if_pos rfl] at ih2
        simp [aerase, alookup, h3, h2, hne, ih2]
      · simp [aerase, alookup, h3, h2, ih]
    · by_cases h4 : k3 = k2
      · have hne : ¬ k = k2 := by rw [← h4]; exact fun hh => h3 hh.symm
        have hne2 : ¬ k2 = k := fun hh => hne hh.symm
        simp [aerase, alookup, h3, h4, hne, hne2]
      · simp [aerase, alookup, h3, h4, ih]

theorem akeys_cons {α : Type} (k : String) (v : α) (tl : List (String × α)) :
    akeys ((k, v) :: tl) = k :: akeys tl := rfl

theorem mem_akeys_iff {α : Type} (m : List (String × α)) (n : String) :
    n ∈ akeys m ↔ (alookup m n).isSome := by
  induction m with
  | nil => simp [akeys, alookup]
  | cons hd tl ih =>
    obtain ⟨k2, v⟩ := hd
    rw [akeys_cons]
    by_cases h : k2 = n
    · simp [alookup, h]
    · simp only [alookup, if_neg h, List.mem_cons]
      constructor
      · intro hcase
        rcases hcase with hc | hc
        · exact absurd hc.symm h
        · exact ih.mp hc
      · intro hs
        right
        exact ih.mpr hs

theorem akeys_aset_of_mem {α : Type} (m : List (String × α)) (k : String) (v : α)
    (hmem : (alookup m k).isSome) : akeys (aset m k v) = akeys m := by
  induction m with
  | nil => simp [alookup] at hmem
  | cons hd tl ih =>
    obtain ⟨k2, w⟩ := hd
    by_cases h : k2 = k
    · subst h
      simp [aset, akeys_cons, akeys]
    · simp only [alookup, if_neg h] at hmem
      simp only [aset, if_neg h, akeys_cons, ih hmem]

theorem akeys_aset_of_not_mem {α : Type} (m : List (String × α)) (k : String) (v : α)
    (hmem : alookup m k = none) : akeys (aset m k v) = akeys m ++ [k] := by
  induction m with
  | nil => simp [aset, akeys]
  | cons hd tl ih =>
    obtain ⟨k2, w⟩ := hd
    by_cases h : k2 = k
    · simp [alookup, h] at hmem
    · simp only [alookup, if_neg h] at hmem
      simp only [aset, if_neg h, akeys_cons, ih hmem]
      rfl

theorem akeys_aerase {α : Type} (m : List (String × α)) (k : String) :
    akeys (aerase m k) = (akeys m).filter (fun x => ! decide (x = k)) := by
  induction m with
  | nil => simp [aerase, akeys]
  | cons hd tl ih =>
    obtain ⟨k2, w⟩ := hd
    by_cases h : k2 = k
    · simp only [aerase, if_pos h, akeys_cons, ih, List.filter_cons]
      rw [if_neg (by simp [h])]
    · simp only [aerase, if_neg h, akeys_cons, ih, List.filter_cons]
      rw [if_pos (by simp [h])]

theorem nodup_akeys_aset {α : Type} (m : List (String × α)) (k : String) (v : α)
    (hnd : (akeys m).Nodup) : (akeys (aset m k v)).Nodup := by
  cases hmem : alookup m k with
  | some w =>
    rw [akeys_aset_of_mem m k v (by rw [hmem]; rfl)]
    exact hnd
  | none =>
    rw [akeys_aset_of_not_mem m k v hmem]
    rw [List.nodup_append]
    refine ⟨hnd, List.nodup_singleton k, ?_⟩
    intro a ha hb
    rw [List.mem_singleton] at hb
    subst hb
    rw [mem_akeys_iff, hmem] at ha
    cases ha

theorem nodup_akeys_aerase {α : Type} (m : List (String × α)) (k : String)
    (hnd : (akeys m).Nodup) : (akeys (aerase m k)).Nodup := by
  rw [akeys_aerase]
  exact hnd.filter _

/-! ## Small string helpers shared by the embeddings

All string operations are implemented by structural recursion over the
character list, mirroring the Go `strings` functions the code calls, so
that every definition evaluates on concrete inputs. -/

/-- ASCII whitespace recognized by `strings.TrimSpace`. -/
def isSpaceCh (c : Char) : Bool :=
  c = ' ' || c = '\t' || c = '\n' || c = '\r' || c = '\x0b' || c = '\x0c'

/-- Go `strings.TrimSpace`. -/
def goTrim (s : String) : String :=
  String.mk (((s.data.dropWhile isSpaceCh).reverse.dropWhile isSpaceCh).reverse)

/-- Go `strings.HasPrefix`. -/
def goStartsWith (s pre2 : String) : Bool := pre2.data.isPrefixOf s.data

/-- Go `s[n:]` for an ASCII head of length `n`. -/
def goDrop (s : String) (n : Nat) : String := String.mk (s.data.drop n)

/-- Whether the string is empty. -/
def goIsEmpty (s : String) : Bool := s.data.isEmpty

/-- Fuel-driven splitter: Go `strings.Split` over character lists, for
a non-empty separator.  The fuel is always at least the input length
plus one, so the zero-fuel fallback is unreachable. -/
def splitChFuel (sep : List Char) : Nat → List Char → List Char → List (List Char)
  | 0, rest, acc => [acc.reverse ++ rest]
  | _ + 1, [], acc => [acc.reverse]
  | fuel + 1, x :: xs, acc =>
    if sep.isPrefixOf (x :: xs) then
      acc.reverse :: splitChFuel sep fuel ((x :: xs).drop sep.length) []
    else
      splitChFuel sep fuel xs (x :: acc)

/-- Go `strings.Split(s, sep)` for a non-empty separator. -/
def goSplit (s sep : String) : List String :=
  (splitChFuel sep.data (s.data.length + 1) s.data []).map String.mk

/-- Join with a separator (Go `strings.Join`). -/
def goJoinList (sep : String) : List String → String
  | [] => ""
  | [x] => x
  | x :: rest => String.mk (x.data ++ sep.data ++ (goJoinList sep rest).data)

/-- Split a string at the first occurrence of a separator character,
returning the part before it and, when the separator occurs, the part
after it. -/
def cutFirst (sep : Char) (s : String) : String × Option String :=
  match goSplit s (String.mk [sep]) with
  | [] => (s, none)
  | [x] => (x, none)
  | x :: rest => (x, some (goJoinList (String.mk [sep]) rest))

/-- Go `strings.ContainsAny(s, chars)`. -/
def containsAny (s : String) (chars : List Char) : Bool :=
  s.data.any (fun c => chars.contains c)

/-- Go `strings.Contains(s, needle)` for a single-character needle. -/
def containsChar (s : String) (c : Char) : Bool := s.data.contains c

/-! ## The semver engine

Models the external `github.com/Masterminds/semver` package as used by
the resolver: `semver.NewVersion` (parsing with optional leading `v`,
optional minor/patch defaulting to zero, a dotted prerelease and dotted
build metadata), precedence comparison (major, minor, patch, then
prerelease per the semver rules; build metadata ignored), and
`semver.NewConstraint` / `Constraints.Check` (comma-separated AND
groups joined by `||`, with operators `= != > < >= => <= =< ~ ~> ^`). -/

/-- A prerelease identifier: purely numeric identifiers compare
numerically and are lower than alphanumeric ones. -/
inductive PreId where
  | num : Nat → PreId
  | str : String → PreId
deriving DecidableEq

/-- A parsed semantic version.  Build metadata does not participate in
precedence and is dropped after validation. -/
structure SemVer where
  major : Nat
  minor : Nat
  patch : Nat
  pre : List PreId
deriving DecidableEq

/-- Digit run to number (the engine parses `[0-9]+` with `ParseInt`). -/
def digitsToNat (l : List Char) : Nat :=
  l.foldl (fun acc c => acc * 10 + (c.toNat - 48)) 0

def isDigitCh (c : Char) : Bool := c.isDigit

/-- Characters allowed in prerelease / build identifiers: `[0-9A-Za-z-]`. -/
def isIdentCh (c : Char) : Bool := c.isDigit || c.isAlpha || c = '-'

/-- Parse a numeric version part (`[0-9]+`). -/
def parseNumPart (s : String) : Option Nat :=
  if goIsEmpty s then none
  else if s.data.all isDigitCh then some (digitsToNat s.data) else none

/-- Parse one prerelease or build identifier. -/
def parsePreId (s : String) : Option PreId :=
  if goIsEmpty s then none
  else if ! s.data.all isIdentCh then none
  else if s.data.all isDigitCh then some (.num (digitsToNat s.data))
  else some (.str s)

/-- Parse a dotted identifier list (prerelease or build metadata). -/
def parseDotted (s : String) : Option (List PreId) :=
  (goSplit s ".").mapM parsePreId

/-- Parse the `major(.minor(.patch)?)?` core. -/
def parseCore (s : String) : Option (Nat × Nat × Nat) :=
  match (goSplit s ".").mapM parseNumPart with
  | some [a] => some (a, 0, 0)
  | some [a, b] => some (a, b, 0)
  | some [a, b, c] => some (a, b, c)
  | _ => none

/-- `semver.NewVersion`: optional leading `v`, numeric core, optional
`-prerelease`, optional `+buildmetadata`; `none` when unparseable. -/
def semverNewVersion (s : String) : Option SemVer := do
  let s := if goStartsWith s "v" then goDrop s 1 else s
  let (beforeMeta, metaPart) := cutFirst '+' s
  match metaPart with
  | some m => let _ ← parseDotted m
  | none => pure ()
  let (core, prePart) := cutFirst '-' beforeMeta
  let (a, b, c) ← parseCore core
  let pre ← match prePart with
    | none => pure []
    | some p => parseDotted p
  pure { major := a, minor := b, patch := c, pre := pre }

/-- Lexicographic comparator on lists from an element comparator. -/
def lexList {α : Type} (c : α → α → Ordering) : List α → List α → Ordering
  | [], [] => .eq
  | [], _ :: _ => .lt
  | _ :: _, [] => .gt
  | a :: as, b :: bs => (c a b).then (lexList c as bs)

/-- Byte-wise string comparison (Go `strings.Compare`). -/
def cmpStr (a b : String) : Ordering :=
  lexList (fun x y : Char => compare x.toNat y.toNat) a.data b.data

/-- Prerelease identifier comparison: numeric below alphanumeric. -/
def cmpPreId : PreId → PreId → Ordering
  | .num a, .num b => compare a b
  | .num _, .str _ => .lt
  | .str _, .num _ => .gt
  | .str a, .str b => cmpStr a b

/-- Prerelease list comparison: an empty prerelease (a release) is
higher than any prerelease; otherwise identifier lists compare
lexicographically, a strict prefix being lower. -/
def cmpRelease (a b : List PreId) : Ordering :=
  match a, b with
  | [], [] => .eq
  | [], _ :: _ => .gt
  | _ :: _, [] => .lt
  | _, _ => lexList cmpPreId a b

/-- `semver.Version.Compare`: precedence ordering. -/
def cmpSemVer (a b : SemVer) : Ordering :=
  (compare a.major b.major).then
    ((compare a.minor b.minor).then
      ((compare a.patch b.patch).then (cmpRelease a.pre b.pre)))

/-- `semver.Version.GreaterThan`. -/
def svGreaterThan (a b : SemVer) : Bool := cmpSemVer a b == .gt

/-! ### The comparators are lawful (oriented and transitive) -/

theorem lexList_symm {α : Type} (c : α → α → Ordering) [Batteries.OrientedCmp c] :
    ∀ (x y : List α), lexList c x y = (lexList c y x).swap := by
  intro x
  induction x with
  | nil => intro y; cases y <;> rfl
  | cons a as ih =>
    intro y
    cases y with
    | nil => rfl
    | cons b bs =>
      simp only [lexList, Ordering.swap_then, ← ih bs, ← Batteries.OrientedCmp.symm b a]

instance lexListOriented {α : Type} (c : α → α → Ordering) [Batteries.OrientedCmp c] :
    Batteries.OrientedCmp (lexList c) where
  symm x y := by rw [lexList_symm c x y, Ordering.swap_swap]

theorem lexList_le_trans {α : Type} (c : α → α → Ordering) [Batteries.TransCmp c] :
    ∀ (x y z : List α), lexList c x y ≠ .gt → lexList c y z ≠ .gt → lexList c x z ≠ .gt := by
  intro x
  induction x with
  | nil =>
    intro y z _ _
    cases z with
    | nil =>
      cases y with
      | nil => simp [lexList]
      | cons b bs => simp_all [lexList]
    | cons cc cs => simp [lexList]
  | cons a as ih =>
    intro y z h1 h2
    cases y with
    | nil => simp [lexList] at h1
    | cons b bs =>
      cases z with
      | nil => simp [lexList] at h2
      | cons cc cs =>
        simp only [lexList, ne_eq, Ordering.then_eq_gt, not_or, not_and] at h1 h2 ⊢
        rcases h1 with ⟨hab, hab2⟩
        rcases h2 with ⟨hbc, hbc2⟩
        cases hcab : c a b with
        | gt => exact absurd hcab hab
        | lt =>
          cases hcbc : c b cc with
          | gt => exact absurd hcbc hbc
          | lt =>
            have := Batteries.TransCmp.lt_trans hcab hcbc
            constructor
            · simp [this]
            · intro he; rw [he] at this; cases this
          | eq =>
            have := (Batteries.TransCmp.cmp_congr_right hcbc).symm.trans hcab
            constructor
            · simp [this]
            · intro he; rw [he] at this; cases this
        | eq =>
          have hxz : c a cc = c b cc := Batteries.TransCmp.cmp_congr_left hcab
          cases hcbc : c b cc with
          | gt => exact absurd hcbc hbc
          | lt =>
            rw [hcbc] at hxz
            constructor
            · simp [hxz]
            · intro he; rw [he] at hxz; cases hxz
          | eq =>
            rw [hcbc] at hxz
            refine ⟨by simp [hxz], fun _ => ih bs cs (hab2 hcab) (hbc2 hcbc)⟩

instance lexListTrans {α : Type} (c : α → α → Ordering) [Batteries.TransCmp c] :
    Batteries.TransCmp (lexList c) where
  le_trans h1 h2 := lexList_le_trans c _ _ _ h1 h2

/-- The character comparator used by `cmpStr`. -/
def charCmp (x y : Char) : Ordering := compare x.toNat y.toNat

instance charCmpOriented : Batteries.OrientedCmp charCmp :=
  inferInstanceAs (Batteries.OrientedCmp (compareOn Char.toNat))

instance charCmpTrans : Batteries.TransCmp charCmp :=
  inferInstanceAs (Batteries.TransCmp (compareOn Char.toNat))

theorem cmpStr_eq (a b : String) : cmpStr a b = lexList charCmp a.data b.data := rfl

instance cmpStrOriented : Batteries.OrientedCmp cmpStr where
  symm x y := by
    rw [cmpStr_eq, cmpStr_eq, lexList_symm charCmp x.data y.data, Ordering.swap_swap]

instance cmpStrTrans : Batteries.TransCmp cmpStr where
  le_trans h1 h2 := by
    rw [cmpStr_eq] at h1 h2 ⊢
    exact lexList_le_trans charCmp _ _ _ h1 h2

instance cmpPreIdOriented : Batteries.OrientedCmp cmpPreId where
  symm x y := by
    cases x <;> cases y <;> simp only [cmpPreId]
    · exact Batteries.OrientedCmp.symm _ _
    · rfl
    · rfl
    · exact Batteries.OrientedCmp.symm _ _

instance cmpPreIdTrans : Batteries.TransCmp cmpPreId where
  le_trans h1 h2 := by
    rename_i x y z
    cases x <;> cases y <;> cases z <;>
        simp only [cmpPreId, ne_eq] at h1 h2 ⊢ <;>
      first
        | exact Batteries.TransCmp.le_trans h1 h2
        | exact absurd trivial h1
        | exact absurd trivial h2
        | exact absurd rfl h1
        | exact absurd rfl h2
        | decide
        | simp

theorem cmpRelease_symm (x y : List PreId) : cmpRelease x y = (cmpRelease y x).swap := by
  cases x <;> cases y <;> simp only [cmpRelease] <;> try rfl
  exact lexList_symm cmpPreId _ _

instance cmpReleaseOriented : Batteries.OrientedCmp cmpRelease where
  symm x y := by rw [cmpRelease_symm x y, Ordering.swap_swap]

instance cmpReleaseTrans : Batteries.TransCmp cmpRelease where
  le_trans h1 h2 := by
    rename_i x y z
    cases x <;> cases y <;> cases z <;>
        simp only [cmpRelease, ne_eq] at h1 h2 ⊢ <;>
      first
        | exact lexList_le_trans cmpPreId _ _ _ h1 h2
        | exact absurd trivial h1
        | exact absurd trivial h2
        | exact absurd rfl h1
        | exact absurd rfl h2
        | decide
        | simp

/-- The prerelease projection of `cmpSemVer`, as a comparator on versions. -/
def cmpOnPre (a b : SemVer) : Ordering := cmpRelease a.pre b.pre

instance cmpOnPreOriented : Batteries.OrientedCmp cmpOnPre where
  symm x y := by
    simp only [cmpOnPre]
    rw [cmpRelease_symm x.pre y.pre, Ordering.swap_swap]

instance cmpOnPreTrans : Batteries.TransCmp cmpOnPre where
  le_trans h1 h2 := cmpReleaseTrans.le_trans h1 h2

theorem cmpSemVer_eq_lex : cmpSemVer = compareLex (compareOn SemVer.major)
    (compareLex (compareOn SemVer.minor) (compareLex (compareOn SemVer.patch) cmpOnPre)) := by
  funext a b
  rfl

instance cmpSemVerOriented : Batteries.OrientedCmp cmpSemVer := by
  rw [cmpSemVer_eq_lex]; infer_instance

instance cmpSemVerTrans : Batteries.TransCmp cmpSemVer := by
  rw [cmpSemVer_eq_lex]; infer_instance

/-! ### Constraints -/

/-- The comparison operators of the constraint engine. -/
inductive COp where
  | ceq | cneq | cgt | clt | cge | cle | ctilde | ccaret
deriving DecidableEq

/-- A constraint version: minor and patch may be omitted, which matters
for the upper bound of `~`. -/
structure CVer where
  major : Nat
  minor : Option Nat
  patch : Option Nat
  pre : List PreId
deriving DecidableEq

/-- Parse the version part of a constraint. -/
def parseCVer (s : String) : Option CVer := do
  let s := if goStartsWith s "v" then goDrop s 1 else s
  let (beforeMeta, metaPart) := cutFirst '+' s
  match metaPart with
  | some m => let _ ← parseDotted m
  | none => pure ()
  let (core, prePart) := cutFirst '-' beforeMeta
  let (a, b, c) ← match (goSplit core ".").mapM parseNumPart with
    | some [a] => pure ((a : Nat), (none : Option Nat), (none : Option Nat))
    | some [a, b] => pure (a, some b, none)
    | some [a, b, c] => pure (a, some b, some c)
    | _ => none
  let pre ← match prePart with
    | none => pure []
    | some p => parseDotted p
  pure { major := a, minor := b, patch := c, pre := pre }

/-- The version a constraint compares against (omitted parts are zero). -/
def cverBase (cv : CVer) : SemVer :=
  { major := cv.major, minor := (cv.minor.getD 0), patch := (cv.patch.getD 0), pre := cv.pre }

/-- Exclusive upper bound of a `~` constraint. -/
def cverUpperTilde (cv : CVer) : SemVer :=
  match cv.minor with
  | none => { major := cv.major + 1, minor := 0, patch := 0, pre := [] }
  | some m => { major := cv.major, minor := m + 1, patch := 0, pre := [] }

/-- Exclusive upper bound of a `^` constraint. -/
def cverUpperCaret (cv : CVer) : SemVer :=
  { major := cv.major + 1, minor := 0, patch := 0, pre := [] }

/-- Range operators only admit a prerelease version when the constraint
itself names a prerelease. -/
def preGate (cv : CVer) (v : SemVer) : Bool := v.pre.isEmpty || ! cv.pre.isEmpty

/-- Check one simple constraint against a version. -/
def checkOne (op : COp) (cv : CVer) (v : SemVer) : Bool :=
  let base := cverBase cv
  match op with
  | .ceq => cmpSemVer v base == .eq
  | .cneq => cmpSemVer v base != .eq
  | .cgt => preGate cv v && cmpSemVer v base == .gt
  | .clt => preGate cv v && cmpSemVer v base == .lt
  | .cge => preGate cv v && cmpSemVer v base != .lt
  | .cle => preGate cv v && cmpSemVer v base != .gt
  | .ctilde => preGate cv v && cmpSemVer v base != .lt && cmpSemVer v (cverUpperTilde cv) == .lt
  | .ccaret => preGate cv v && cmpSemVer v base != .lt && cmpSemVer v (cverUpperCaret cv) == .lt

/-- A parsed constraint expression: `||`-separated groups of
comma-separated simple constraints. -/
def SvConstraint : Type := List (List (COp × CVer))

/-- Split the operator from one simple constraint token. -/
def splitOp (s : String) : COp × String :=
  if goStartsWith s ">=" then (.cge, goDrop s 2)
  else if goStartsWith s "=>" then (.cge, goDrop s 2)
  else if goStartsWith s "<=" then (.cle, goDrop s 2)
  else if goStartsWith s "=<" then (.cle, goDrop s 2)
  else if goStartsWith s "!=" then (.cneq, goDrop s 2)
  else if goStartsWith s "~>" then (.ctilde, goDrop s 2)
  else if goStartsWith s ">" then (.cgt, goDrop s 1)
  else if goStartsWith s "<" then (.clt, goDrop s 1)
  else if goStartsWith s "=" then (.ceq, goDrop s 1)
  else if goStartsWith s "~" then (.ctilde, goDrop s 1)
  else if goStartsWith s "^" then (.ccaret, goDrop s 1)
  else (.ceq, s)

/-- Parse one simple constraint (optional operator, then a version). -/
def parseSimpleConstraint (s : String) : Option (COp × CVer) := do
  let (op, rest) := splitOp (goTrim s)
  let cv ← parseCVer (goTrim rest)
  pure (op, cv)

/-- `semver.NewConstraint`. -/
def semverNewConstraint (s : String) : Option SvConstraint :=
  (goSplit s "||").mapM (fun group => (goSplit group ",").mapM parseSimpleConstraint)

/-- `Constraints.Check`. -/
def constraintCheck (c : SvConstraint) (v : SemVer) : Bool :=
  c.any (fun g => g.all (fun oc => checkOne oc.1 oc.2 v))

/-! ## Resolver: constraint normalization and version selection
(`src/unnamed/part_018`) -/

/-- Errors surfaced by the resolver paths modelled here. -/
inductive ResolveErr where
  | noSemverCandidates
  | noVersionSatisfiesConstraints
  | invalidConstraint
  | invalidVersion (v : String)
  | conflictingExactVersions (a b : String)
  | dependencyGraphHasACycle
  | missingResolvedParent (fqdn : String)
  | missingResolvedDependency (fqdn : String)
  | invalidCollectionKey (key : String)
deriving DecidableEq

/-- `normalizeConstraint`: trim; `""` and `"*"` become `""`. -/
def normalizeConstraint (value : String) : String :=
  let trimmed := goTrim value
  if trimmed = "" || trimmed = "*" then "" else trimmed

/-- `parseConstraints`: normalize each entry, drop empties, parse the
rest; the first parse failure aborts. -/
def parseConstraintList : List String → Option (List SvConstraint)
  | [] => some []
  | raw :: rest =>
    let n := normalizeConstraint raw
    if n = "" then parseConstraintList rest
    else do
      let c ← semverNewConstraint n
      let cs ← parseConstraintList rest
      pure (c :: cs)

/-- A version satisfies a parsed constraint list when every constraint
checks. -/
def satisfiesAll (pcs : List SvConstraint) (v : SemVer) : Bool :=
  pcs.all (fun pc => constraintCheck pc v)

/-- Descending order on candidates, as produced by sorting with
`GreaterThan` as the less-function. -/
def descRel (a b : String × SemVer) : Prop := cmpSemVer a.2 b.2 ≠ .lt

instance descRelDecidable : DecidableRel descRel := fun a b =>
  inferInstanceAs (Decidable (cmpSemVer a.2 b.2 ≠ .lt))

instance descRelTotal : IsTotal (String × SemVer) descRel where
  total a b := by
    by_cases h : cmpSemVer a.2 b.2 = .lt
    · right
      have hsym := @Batteries.OrientedCmp.symm _ cmpSemVer _ a.2 b.2
      rw [h] at hsym
      simp only [descRel]
      rw [← hsym]
      decide
    · left; exact h

instance descRelTrans : IsTrans (String × SemVer) descRel where
  trans a b c h1 h2 := Batteries.TransCmp.ge_trans h1 h2

/-- The semver-parseable versions of a list, paired with their parses
(the candidate set built at the top of `selectVersion`). -/
def svCandidates (versions : List String) : List (String × SemVer) :=
  versions.filterMap (fun v => (semverNewVersion v).map (fun sv => (v, sv)))

/-- `selectVersion`: keep the semver-parseable versions, sort them in
descending precedence order, and return the first that satisfies every
parsed constraint.  An empty candidate set is `NoSemverCandidates`; an
exhausted candidate set is `NoVersionSatisfiesConstraints`. -/
def selectVersion (versions constraints : List String) : Except ResolveErr String :=
  let candidates := svCandidates versions
  if candidates.isEmpty then .error .noSemverCandidates
  else
    let sorted := candidates.insertionSort descRel
    match parseConstraintList constraints with
    | none => .error .invalidConstraint
    | some pcs =>
      match sorted.find? (fun cand => satisfiesAll pcs cand.2) with
      | some cand => .ok cand.1
      | none => .error .noVersionSatisfiesConstraints

/-- Loop body of `exactVersionFromConstraints`. -/
def exactVersionLoop (exact : String) : List String → Except ResolveErr (String × Bool)
  | [] => if exact = "" then .ok ("", false) else .ok (exact, true)
  | raw :: rest =>
    let normalized := normalizeConstraint raw
    if normalized = "" then exactVersionLoop exact rest
    else
      let normalized :=
        if goStartsWith normalized "=" then goTrim (goDrop normalized 1) else normalized
      if containsAny normalized ['<', '>', '~', '^', '!', '*', '|'] ||
          containsChar normalized ' ' then .ok ("", false)
      else
        match semverNewVersion normalized with
        | none => .error (.invalidVersion normalized)
        | some _ =>
          if exact = "" then exactVersionLoop normalized rest
          else if exact ≠ normalized then
            .error (.conflictingExactVersions exact normalized)
          else exactVersionLoop exact rest

/-- `exactVersionFromConstraints`: returns a single exact version when
every non-empty constraint is the same bare semver literal. -/
def exactVersionFromConstraints (constraints : List String) : Except ResolveErr (String × Bool) :=
  exactVersionLoop "" constraints

/-- The form of a constraint after normalization and `=`-stripping, as
inspected by `exactVersionFromConstraints`. -/
def strippedOf (c : String) : String :=
  let n := normalizeConstraint c
  if goStartsWith n "=" then goTrim (goDrop n 1) else n

/-- Whether a constraint still shows an operator character or a space
after normalization and `=`-stripping. -/
def hasOperatorOrSpace (c : String) : Bool :=
  containsAny (strippedOf c) ['<', '>', '~', '^', '!', '*', '|'] ||
    containsChar (strippedOf c) ' '

theorem exactVersionLoop_op_false (cs : List String)
    (h : ∃ c ∈ cs, normalizeConstraint c ≠ "" ∧ hasOperatorOrSpace c = true) :
    ∀ exact r, exactVersionLoop exact cs ≠ .ok (r, true) := by
  induction cs with
  | nil => simp at h
  | cons c rest ih =>
    intro exact r
    obtain ⟨w, hw, hwnorm, hwop⟩ := h
    by_cases hcn : normalizeConstraint c = ""
    · simp only [exactVersionLoop, hcn, if_pos rfl]
      rcases List.mem_cons.mp hw with hwc | hwrest
      · rw [hwc] at hwnorm; exact absurd hcn hwnorm
      · exact ih ⟨w, hwrest, hwnorm, hwop⟩ exact r
    · simp only [exactVersionLoop, if_neg hcn]
      by_cases hcop : containsAny (if goStartsWith (normalizeConstraint c) "=" then
            goTrim (goDrop (normalizeConstraint c) 1) else normalizeConstraint c)
          ['<', '>', '~', '^', '!', '*', '|'] = true ∨
          containsChar (if goStartsWith (normalizeConstraint c) "=" then
            goTrim (goDrop (normalizeConstraint c) 1) else normalizeConstraint c) ' ' = true
      · have : (containsAny (if goStartsWith (normalizeConstraint c) "=" then
              goTrim (goDrop (normalizeConstraint c) 1) else normalizeConstraint c)
            ['<', '>', '~', '^', '!', '*', '|'] ||
            containsChar (if goStartsWith (normalizeConstraint c) "=" then
              goTrim (goDrop (normalizeConstraint c) 1) else normalizeConstraint c) ' ') = true := by
          rcases hcop with h1 | h1 <;> simp [h1]
        rw [if_pos this]
        intro hcontra
        cases hcontra
      · have hrest : ∃ w2 ∈ rest, normalizeConstraint w2 ≠ "" ∧ hasOperatorOrSpace w2 = true := by
          rcases List.mem_cons.mp hw with hwc | hwrest
          · exfalso
            apply hcop
            rw [hwc] at hwop
            simp only [hasOperatorOrSpace, strippedOf, Bool.or_eq_true] at hwop
            exact hwop
          · exact ⟨w, hwrest, hwnorm, hwop⟩
        have hA : containsAny (if goStartsWith (normalizeConstraint c) "=" then
            goTrim (goDrop (normalizeConstraint c) 1) else normalizeConstraint c)
            ['<', '>', '~', '^', '!', '*', '|'] = false := by
          cases hx : containsAny (if goStartsWith (normalizeConstraint c) "=" then
              goTrim (goDrop (normalizeConstraint c) 1) else normalizeConstraint c)
              ['<', '>', '~', '^', '!', '*', '|'] with
          | false => rfl
          | true => exact absurd (Or.inl hx) hcop
        have hB : containsChar (if goStartsWith (normalizeConstraint c) "=" then
            goTrim (goDrop (normalizeConstraint c) 1) else normalizeConstraint c) ' ' = false := by
          cases hx : containsChar (if goStartsWith (normalizeConstraint c) "=" then
              goTrim (goDrop (normalizeConstraint c) 1) else normalizeConstraint c) ' ' with
          | false => rfl
          | true => exact absurd (Or.inr hx) hcop
        have hfalse : (containsAny (if goStartsWith (normalizeConstraint c) "=" then
              goTrim (goDrop (normalizeConstraint c) 1) else normalizeConstraint c)
            ['<', '>', '~', '^', '!', '*', '|'] ||
            containsChar (if goStartsWith (normalizeConstraint c) "=" then
              goTrim (goDrop (normalizeConstraint c) 1) else normalizeConstraint c) ' ') = false := by
          simp [hA, hB]
        rw [hfalse]
        simp only [Bool.false_eq_true, if_false]
        cases hp : semverNewVersion (if goStartsWith (normalizeConstraint c) "=" then
            goTrim (goDrop (normalizeConstraint c) 1) else normalizeConstraint c) with
        | none => intro hcontra; cases hcontra
        | some sv =>
          by_cases hex : exact = ""
          · rw [if_pos hex]; exact ih hrest _ r
          · rw [if_neg hex]
            by_cases heq : exact ≠ (if goStartsWith (normalizeConstraint c) "=" then
                goTrim (goDrop (normalizeConstraint c) 1) else normalizeConstraint c)
            · rw [if_pos heq]; intro hcontra; cases hcontra
            · rw [if_neg heq]; exact ih hrest exact r

/-- **C4** For every list of constraint strings,
`exactVersionFromConstraints` treats trimming, dropping `""` and `"*"`,
and stripping a leading `=` as normalization: the constraints
`"= 1.2.3"`, `"1.2.3"` and `"=1.2.3"` all yield `exact == true` with the
same version `"1.2.3"`; a constraint list containing an entry that,
after normalization and `=`-stripping, still shows an operator
character (`<>~^!*|`) or a space never yields `exact == true`; and two
differing bare semver literals fail with `ConflictingExactVersions`. -/
theorem exactVersionFromConstraints_spec
    (cs : List String)
    (hcs : ∃ c ∈ cs, normalizeConstraint c ≠ "" ∧ hasOperatorOrSpace c = true)
    (v1 v2 : String)
    (h1trim : goTrim v1 = v1) (h1eq : goStartsWith v1 "=" = false)
    (h1op : hasOperatorOrSpace v1 = false) (h1parse : (semverNewVersion v1).isSome = true)
    (h2trim : goTrim v2 = v2) (h2eq : goStartsWith v2 "=" = false)
    (h2op : hasOperatorOrSpace v2 = false) (h2parse : (semverNewVersion v2).isSome = true)
    (hne : v1 ≠ v2) :
    (exactVersionFromConstraints ["= 1.2.3"] = .ok ("1.2.3", true) ∧
      exactVersionFromConstraints ["=1.2.3"] = .ok ("1.2.3", true) ∧
      exactVersionFromConstraints ["1.2.3"] = .ok ("1.2.3", true)) ∧
    (∀ r, exactVersionFromConstraints cs ≠ .ok (r, true)) ∧
    exactVersionFromConstraints [v1, v2] = .error (.conflictingExactVersions v1 v2) := by
  refine ⟨⟨by rfl, by rfl, by rfl⟩, ?_, ?_⟩
  · intro r
    exact exactVersionLoop_op_false cs hcs "" r
  · have hv1empty : ¬ v1 = "" := by
      intro hc
      rw [hc] at h1parse
      exact absurd h1parse (by decide)
    have hv1star : ¬ v1 = "*" := by
      intro hc
      rw [hc] at h1parse
      exact absurd h1parse (by decide)
    have hv2empty : ¬ v2 = "" := by
      intro hc
      rw [hc] at h2parse
      exact absurd h2parse (by decide)
    have hv2star : ¬ v2 = "*" := by
      intro hc
      rw [hc] at h2parse
      exact absurd h2parse (by decide)
    have hn1 : normalizeConstraint v1 = v1 := by
      unfold normalizeConstraint
      rw [h1trim]
      simp [hv1empty, hv1star]
    have hn2 : normalizeConstraint v2 = v2 := by
      unfold normalizeConstraint
      rw [h2trim]
      simp [hv2empty, hv2star]
    have hop1 : (containsAny v1 ['<', '>', '~', '^', '!', '*', '|'] ||
        containsChar v1 ' ') = false := by
      have := h1op
      simp only [hasOperatorOrSpace, strippedOf] at this
      rw [hn1, h1eq] at this
      simpa using this
    have hop2 : (containsAny v2 ['<', '>', '~', '^', '!', '*', '|'] ||
        containsChar v2 ' ') = false := by
      have := h2op
      simp only [hasOperatorOrSpace, strippedOf] at this
      rw [hn2, h2eq] at this
      simpa using this
    obtain ⟨sv1, hsv1⟩ := Option.isSome_iff_exists.mp h1parse
    obtain ⟨sv2, hsv2⟩ := Option.isSome_iff_exists.mp h2parse
    unfold exactVersionFromConstraints
    simp only [exactVersionLoop, hn1, hn2, h1eq, h2eq, Bool.false_eq_true, if_false,
      hv1empty, hv1star, hv2empty, hv2star, if_neg hv1empty, if_neg hv2empty,
      hop1, hop2, hsv1, hsv2]
    simp [hne]

/-! ### C1: version selection -/

theorem find_first_max {α : Type} (p : α → Bool) (r : α → α → Prop) (res : α) :
    ∀ l : List α, l.Pairwise r → l.find? p = some res →
      ∀ x ∈ l, p x = true → x = res ∨ r res x := by
  intro l
  induction l with
  | nil => intro _ h; cases h
  | cons a t ih =>
    intro hp hf x hx hpx
    have hpair := List.pairwise_cons.mp hp
    by_cases hpa : p a = true
    · rw [List.find?_cons_of_pos _ hpa] at hf
      have hres : a = res := by injection hf
      rcases List.mem_cons.mp hx with hxh | hxt
      · left; rw [hxh, ← hres]
      · right; rw [← hres]; exact hpair.1 x hxt
    · rw [List.find?_cons_of_neg _ hpa] at hf
      rcases List.mem_cons.mp hx with hxh | hxt
      · exfalso; rw [hxh] at hpx; exact hpa hpx
      · exact ih hpair.2 hf x hxt hpx

theorem mem_svCandidates (versions : List String) (q : String × SemVer) :
    q ∈ svCandidates versions ↔ q.1 ∈ versions ∧ semverNewVersion q.1 = some q.2 := by
  unfold svCandidates
  rw [List.mem_filterMap]
  constructor
  · rintro ⟨w, hwmem, hfw⟩
    obtain ⟨sv, hsv, hq⟩ := Option.map_eq_some'.mp hfw
    cases hq
    exact ⟨hwmem, hsv⟩
  · rintro ⟨hmem1, hsv⟩
    refine ⟨q.1, hmem1, ?_⟩
    rw [hsv]
    rfl

/-- **C1** For every list of version strings and constraint strings
(whose constraints parse to `pcs`), `selectVersion` returns a
semver-parseable version from the list that satisfies every parsed
constraint and is greatest in semver precedence among all satisfying
parseable versions (so the choice is deterministic, tie-broken by
semver ordering); it fails with `NoSemverCandidates` exactly when no
version parses, and with `NoVersionSatisfiesConstraints` exactly when
parseable candidates exist but none satisfies every constraint. -/
theorem selectVersion_spec (versions constraints : List String)
    (pcs : List SvConstraint) (hpcs : parseConstraintList constraints = some pcs) :
    (∀ v, selectVersion versions constraints = .ok v →
      v ∈ versions ∧ ∃ sv, semverNewVersion v = some sv ∧ satisfiesAll pcs sv = true ∧
        ∀ w ∈ versions, ∀ sw, semverNewVersion w = some sw → satisfiesAll pcs sw = true →
          svGreaterThan sw sv = false) ∧
    (selectVersion versions constraints = .error .noSemverCandidates ↔
      ∀ v ∈ versions, semverNewVersion v = none) ∧
    (selectVersion versions constraints = .error .noVersionSatisfiesConstraints ↔
      ((∃ v ∈ versions, (semverNewVersion v).isSome = true) ∧
        ∀ v ∈ versions, ∀ sv, semverNewVersion v = some sv → satisfiesAll pcs sv = false)) := by
  by_cases he : (svCandidates versions).isEmpty = true
  · have hnil : svCandidates versions = [] := List.isEmpty_iff.mp he
    have hallnone : ∀ v ∈ versions, semverNewVersion v = none := by
      intro v hv
      cases hsv : semverNewVersion v with
      | none => rfl
      | some sv =>
        exfalso
        have : (v, sv) ∈ svCandidates versions := (mem_svCandidates versions (v, sv)).mpr ⟨hv, hsv⟩
        rw [hnil] at this
        cases this
    have hsel : selectVersion versions constraints = .error .noSemverCandidates := by
      simp [selectVersion, he]
    refine ⟨?_, ?_, ?_⟩
    · intro v hv
      rw [hsel] at hv
      cases hv
    · exact ⟨fun _ => hallnone, fun _ => hsel⟩
    · constructor
      · intro h
        rw [hsel] at h
        exact absurd (Except.error.inj h) (by intro hq; cases hq)
      · rintro ⟨⟨v, hv, hsome⟩, _⟩
        rw [hallnone v hv] at hsome
        cases hsome
  · have hsel : selectVersion versions constraints =
        match (svCandidates versions |>.insertionSort descRel).find?
            (fun cand => satisfiesAll pcs cand.2) with
        | some cand => .ok cand.1
        | none => .error .noVersionSatisfiesConstraints := by
      simp [selectVersion, he, hpcs]
    obtain ⟨q0, hq0⟩ : ∃ q, q ∈ svCandidates versions := by
      have hne2 : svCandidates versions ≠ [] := by
        intro h
        apply he
        rw [h]
        rfl
      exact List.exists_mem_of_ne_nil _ hne2
    have hq0m := (mem_svCandidates versions q0).mp hq0
    cases hfind : (svCandidates versions |>.insertionSort descRel).find?
        (fun cand => satisfiesAll pcs cand.2) with
    | some cand =>
      have hres : selectVersion versions constraints = .ok cand.1 := by rw [hsel, hfind]
      have hcand_mem : cand ∈ (svCandidates versions).insertionSort descRel :=
        List.mem_of_find?_eq_some hfind
      have hcand_mem2 : cand ∈ svCandidates versions :=
        (List.mem_insertionSort descRel).mp hcand_mem
      have hcand := (mem_svCandidates versions cand).mp hcand_mem2
      have hcand_sat : satisfiesAll pcs cand.2 = true := by
        have h2 := List.find?_some hfind
        simpa using h2
      refine ⟨?_, ?_, ?_⟩
      · intro v hv
        rw [hres] at hv
        have hveq : cand.1 = v := Except.ok.inj hv
        subst hveq
        refine ⟨hcand.1, cand.2, hcand.2, hcand_sat, ?_⟩
        intro w hw sw hsw hsat
        have hwmem : (w, sw) ∈ (svCandidates versions).insertionSort descRel := by
          rw [List.mem_insertionSort]
          exact (mem_svCandidates versions (w, sw)).mpr ⟨hw, hsw⟩
        have := find_first_max (fun cand => satisfiesAll pcs cand.2) descRel cand
          ((svCandidates versions).insertionSort descRel)
          (List.sorted_insertionSort descRel (svCandidates versions))
          hfind (w, sw) hwmem hsat
        rcases this with heq | hdesc
        · have : sw = cand.2 := congrArg Prod.snd heq
          rw [this]
          unfold svGreaterThan
          have hrefl : cmpSemVer cand.2 cand.2 = .eq :=
            @Batteries.OrientedCmp.cmp_refl _ cmpSemVer cand.2 cmpSemVerOriented
          rw [hrefl]
          rfl
        · have hne : cmpSemVer sw cand.2 ≠ .gt := by
            have := hdesc
            unfold descRel at this
            exact (Batteries.OrientedCmp.cmp_ne_gt).mpr this
          unfold svGreaterThan
          cases hc : cmpSemVer sw cand.2 with
          | gt => exact absurd hc hne
          | lt => rfl
          | eq => rfl
      · constructor
        · intro h
          rw [hres] at h
          cases h
        · intro hall
          rw [hall cand.1 hcand.1] at hcand
          cases hcand.2
      · constructor
        · intro h
          rw [hres] at h
          cases h
        · rintro ⟨_, hnone⟩
          rw [hnone cand.1 hcand.1 cand.2 hcand.2] at hcand_sat
          cases hcand_sat
    | none =>
      have hres : selectVersion versions constraints = .error .noVersionSatisfiesConstraints := by
        rw [hsel, hfind]
      have hnosat : ∀ v ∈ versions, ∀ sv, semverNewVersion v = some sv →
          satisfiesAll pcs sv = false := by
        intro v hv sv hsv
        have hmem : (v, sv) ∈ (svCandidates versions).insertionSort descRel := by
          rw [List.mem_insertionSort]
          exact (mem_svCandidates versions (v, sv)).mpr ⟨hv, hsv⟩
        have := List.find?_eq_none.mp hfind (v, sv) hmem
        simpa using this
      refine ⟨?_, ?_, ?_⟩
      · intro v hv
        rw [hres] at hv
        cases hv
      · constructor
        · intro h
          rw [hres] at h
          exact absurd (Except.error.inj h) (by intro hq; cases hq)
        · intro hall
          rw [hall q0.1 hq0m.1] at hq0m
          cases hq0m.2
      · exact ⟨fun _ => ⟨⟨q0.1, hq0m.1, by rw [hq0m.2]; rfl⟩, hnosat⟩, fun _ => hres⟩

/-! ## Archive extractor (`src/internal/galaxy/archive/archive.go`)

The filesystem is embedded as an association list from paths to nodes;
`os.Lstat` is a lookup.  Paths use the unix separator, so
`filepath.FromSlash` is the identity. -/

/-- Errors of the archive extractor. -/
inductive ArchiveErr where
  | entryHasEmptyName
  | entryIsAbsolutePath (name : String)
  | entryEscapesDestination (name : String)
  | pathContainsSymlinkComponent (path : String)
  | entryHasNegativeSize (name : String)
  | entryIsTooLarge (name : String) (size : Int)
  | exceedsMaxSize
  | hardlinkTargetIsEmpty (name : String)
  | hardlinkTargetMissing (path : String)
  | symlinkTargetIsEmpty (path : String)
  | symlinkTargetIsAbsolute (link : String)
  | symlinkTargetInvalid (link : String)
  | symlinkTargetResolvesToRoot (link : String)
  | symlinkTargetEscapesDestination (link : String)
  | symlinkTargetResolvesToSelf (link : String)
deriving DecidableEq

/-- One step of Go `path/filepath.Clean`'s element processing. -/
def cleanStep (rooted : Bool) (acc : List String) (part : String) : List String :=
  if part = "" ∨ part = "." then acc
  else if part = ".." then
    if acc ≠ [] ∧ acc.getLast? ≠ some ".." then acc.dropLast
    else if rooted then acc
    else acc ++ [".."]
  else acc ++ [part]

/-- Go `path/filepath.Clean` on unix paths. -/
def goClean (path : String) : String :=
  if path = "" then "."
  else
    let rooted := goStartsWith path "/"
    let comps := (goSplit path "/").foldl (cleanStep rooted) []
    if comps = [] then (if rooted then "/" else ".")
    else if rooted then String.mk ('/' :: (goJoinList "/" comps).data)
    else goJoinList "/" comps

/-- Go `filepath.IsAbs` on unix. -/
def goIsAbs (p : String) : Bool := goStartsWith p "/"

/-- Go `filepath.Join` of two elements: empty elements are skipped and
the result is cleaned. -/
def goJoin2 (a b : String) : String :=
  if a = "" then goClean b
  else if b = "" then goClean a
  else goClean (String.mk (a.data ++ '/' :: b.data))

/-- Go `filepath.Dir`, for the relative cleaned paths handled here. -/
def goDir (p : String) : String :=
  goClean (goJoinList "/" (goSplit p "/").dropLast)

/-- Go `filepath.Rel` for cleaned relative paths: strip the common
component run, then climb with `..` and descend into the target. -/
def goRel (base target : String) : String :=
  let bparts := if base = "." then [] else goSplit base "/"
  let tparts := if target = "." then [] else goSplit target "/"
  let rec strip : List String → List String → List String × List String
    | b :: bs, t :: ts => if b = t then strip bs ts else (b :: bs, t :: ts)
    | bs, ts => (bs, ts)
  let (brest, trest) := strip bparts tparts
  let parts := brest.map (fun _ => "..") ++ trest
  if parts = [] then "." else goJoinList "/" parts

/-- `sanitizeArchivePath`: validates and normalizes a tar entry path.
`ok ""` means the entry normalized to `.` and is skipped. -/
def sanitizeArchivePath (name : String) : Except ArchiveErr String :=
  if name = "" then .error .entryHasEmptyName
  else
    let cleaned := goClean name
    if cleaned = "." then .ok ""
    else if goIsAbs cleaned then .error (.entryIsAbsolutePath name)
    else if cleaned = ".." ∨ goStartsWith cleaned "../" then
      .error (.entryEscapesDestination name)
    else .ok cleaned

/-- A filesystem node, as far as the extractor observes it. -/
inductive FsNode where
  | dirNode
  | fileNode
  | symlinkNode
deriving DecidableEq

/-- The scan loop of `ensureNoSymlinkParents`: walk the components,
`Lstat` each accumulated path, reject symlinks (a missing path just
continues). -/
def symlinkScan (fs : List (String × FsNode)) (current : String) :
    List String → Except ArchiveErr Unit
  | [] => .ok ()
  | part :: rest =>
    if part = "" ∨ part = "." then symlinkScan fs current rest
    else
      let next := goJoin2 current part
      match alookup fs next with
      | none => symlinkScan fs next rest
      | some node =>
        if node = .symlinkNode then .error (.pathContainsSymlinkComponent next)
        else symlinkScan fs next rest

/-- `ensureNoSymlinkParents`: rejects paths that traverse symlink
parents on disk. -/
def ensureNoSymlinkParents (fs : List (String × FsNode)) (baseDir relPath : String) :
    Except ArchiveErr Unit :=
  if relPath = "" ∨ relPath = "." then .ok ()
  else symlinkScan fs baseDir (goSplit relPath "/")

/-- `helpers.ArchiveMaxEntrySize` = 512 MiB. -/
def ArchiveMaxEntrySize : Int := 536870912

/-- `helpers.ArchiveMaxTotalSize` = 4 GiB. -/
def ArchiveMaxTotalSize : Int := 4294967296

/-- Extraction state: the observed filesystem and the running total of
extracted bytes. -/
structure ExtractState where
  fs : List (String × FsNode)
  extracted : Int
deriving DecidableEq

/-- Go `os.MkdirAll`: create directory nodes along every prefix of the
path (existing nodes are left in place). -/
def mkdirAll (fs : List (String × FsNode)) (path : String) : List (String × FsNode) :=
  let rec go (fs : List (String × FsNode)) (current : String) :
      List String → List (String × FsNode)
    | [] => fs
    | part :: rest =>
      if part = "" ∨ part = "." then go fs current rest
      else
        let next := goJoin2 current part
        let fs2 := if amem fs next then fs else aset fs next .dirNode
        go fs2 next rest
  go fs "" (goSplit path "/")

/-- The tar entry types the extractor distinguishes. -/
inductive TarType where
  | dir
  | reg
  | symlink
  | hardlink
  | other
deriving DecidableEq

/-- A tar header, as far as the extractor reads it. -/
structure TarHeader where
  name : String
  typeflag : TarType
  size : Int
  linkname : String
deriving DecidableEq

/-- `extractRegularFile`: size checks, then write the file and add its
size to the running total (the copy transfers exactly `size` bytes). -/
def extractRegularFile (st : ExtractState) (header : TarHeader) (targetPath : String) :
    Except ArchiveErr ExtractState :=
  if header.size < 0 then .error (.entryHasNegativeSize header.name)
  else if header.size > ArchiveMaxEntrySize then
    .error (.entryIsTooLarge header.name header.size)
  else if st.extracted + header.size > ArchiveMaxTotalSize then .error .exceedsMaxSize
  else
    let fs2 := mkdirAll st.fs (goDir targetPath)
    .ok { fs := aset fs2 targetPath .fileNode, extracted := st.extracted + header.size }

/-- `safeSymlinkTarget`: validates a symlink target within the archive
and returns the stored link value relative to the entry's parent. -/
def safeSymlinkTarget (relPath linkName : String) : Except ArchiveErr String :=
  if linkName = "" then .error (.symlinkTargetIsEmpty relPath)
  else if goIsAbs linkName then .error (.symlinkTargetIsAbsolute linkName)
  else
    let cleaned := goClean linkName
    if cleaned = "." then .error (.symlinkTargetInvalid linkName)
    else
      let baseDir := goDir relPath
      let resolved := goJoin2 baseDir cleaned
      if resolved = "." then .error (.symlinkTargetResolvesToRoot linkName)
      else if resolved = ".." ∨ goStartsWith resolved "../" then
        .error (.symlinkTargetEscapesDestination linkName)
      else
        let relTarget := goRel baseDir resolved
        if relTarget = "." then .error (.symlinkTargetResolvesToSelf linkName)
        else .ok relTarget

/-- `extractSymlink`. -/
def extractSymlink (st : ExtractState) (relPath targetPath : String) (header : TarHeader) :
    Except ArchiveErr ExtractState :=
  match safeSymlinkTarget relPath header.linkname with
  | .error e => .error e
  | .ok _ =>
    let fs2 := mkdirAll st.fs (goDir targetPath)
    .ok { st with fs := aset fs2 targetPath .symlinkNode }

/-- `extractHardlink`. -/
def extractHardlink (st : ExtractState) (dstDir targetPath : String) (header : TarHeader) :
    Except ArchiveErr ExtractState :=
  match sanitizeArchivePath header.linkname with
  | .error e => .error e
  | .ok linkRel =>
    if linkRel = "" then .error (.hardlinkTargetIsEmpty header.name)
    else
      match ensureNoSymlinkParents st.fs dstDir linkRel with
      | .error e => .error e
      | .ok _ =>
        let target := goJoin2 dstDir linkRel
        if amem st.fs target then
          let fs2 := mkdirAll st.fs (goDir targetPath)
          .ok { st with fs := aset fs2 targetPath .fileNode }
        else .error (.hardlinkTargetMissing target)

/-- `handleTarEntry`: sanitize the name, reject symlink-parented paths,
then dispatch on the entry type (unknown types are skipped). -/
def handleTarEntry (dstDir : String) (st : ExtractState) (header : TarHeader) :
    Except ArchiveErr ExtractState :=
  match sanitizeArchivePath header.name with
  | .error e => .error e
  | .ok relPath =>
    if relPath = "" then .ok st
    else
      let targetPath := goJoin2 dstDir relPath
      match ensureNoSymlinkParents st.fs dstDir relPath with
      | .error e => .error e
      | .ok _ =>
        match header.typeflag with
        | .dir => .ok { st with fs := mkdirAll st.fs targetPath }
        | .reg => extractRegularFile st header targetPath
        | .symlink => extractSymlink st relPath targetPath header
        | .hardlink => extractHardlink st dstDir targetPath header
        | .other => .ok st

/-- `extractTarEntries`: process headers in order; the first error
terminates the archive. -/
def extractTarEntries (dstDir : String) (st : ExtractState) :
    List TarHeader → Except ArchiveErr ExtractState
  | [] => .ok st
  | h :: rest =>
    match handleTarEntry dstDir st h with
    | .error e => .error e
    | .ok st2 => extractTarEntries dstDir st2 rest

/-! ### C6: path and symlink safety -/

/-- The on-disk paths `ensureNoSymlinkParents` probes while walking the
components of a relative path. -/
def scanPaths (current : String) : List String → List String
  | [] => []
  | part :: rest =>
    if part = "" ∨ part = "." then scanPaths current rest
    else
      let next := goJoin2 current part
      next :: scanPaths next rest

theorem symlinkScan_err (fs : List (String × FsNode)) :
    ∀ (parts : List String) (current : String),
      (∃ q ∈ scanPaths current parts, alookup fs q = some .symlinkNode) →
      ∃ q2, symlinkScan fs current parts = .error (.pathContainsSymlinkComponent q2) ∧
        alookup fs q2 = some .symlinkNode := by
  intro parts
  induction parts with
  | nil => intro current h; simp [scanPaths] at h
  | cons part rest ih =>
    intro current h
    by_cases hskip : part = "" ∨ part = "."
    · simp only [scanPaths, if_pos hskip] at h
      simp only [symlinkScan, if_pos hskip]
      exact ih current h
    · simp only [scanPaths, if_neg hskip] at h
      simp only [symlinkScan, if_neg hskip]
      obtain ⟨q, hq, hqs⟩ := h
      rcases List.mem_cons.mp hq with hqh | hqt
      · rw [hqh] at hqs
        refine ⟨goJoin2 current part, ?_, hqs⟩
        simp [hqs]
      · cases hl : alookup fs (goJoin2 current part) with
        | none => simpa [hl] using ih _ ⟨q, hqt, hqs⟩
        | some node =>
          by_cases hsym : node = .symlinkNode
          · refine ⟨goJoin2 current part, ?_, by rw [hl, hsym]⟩
            simp [hl, hsym]
          · obtain ⟨q2, hq2, hq2s⟩ := ih _ ⟨q, hqt, hqs⟩
            refine ⟨q2, ?_, hq2s⟩
            simp [hl, hsym, hq2]

theorem sanitize_ok_inv (name r : String) (hok : sanitizeArchivePath name = .ok r) :
    r = "" ∨ (r = goClean name ∧ goClean name ≠ ".") := by
  simp only [sanitizeArchivePath] at hok
  by_cases h0 : name = ""
  · rw [if_pos h0] at hok; cases hok
  · rw [if_neg h0] at hok
    by_cases h1 : goClean name = "."
    · rw [if_pos h1] at hok
      left; exact (Except.ok.inj hok).symm
    · rw [if_neg h1] at hok
      by_cases h2 : goIsAbs (goClean name) = true
      · rw [if_pos h2] at hok; cases hok
      · rw [if_neg h2] at hok
        by_cases h3 : goClean name = ".." ∨ goStartsWith (goClean name) "../" = true
        · rw [if_pos h3] at hok; cases hok
        · rw [if_neg h3] at hok
          right; exact ⟨(Except.ok.inj hok).symm, h1⟩

/-- **C6** Every tar entry with an empty name, an absolute normalized
path, or a normalized path that is `..` or starts with `../` is
rejected with the corresponding typed error and the error terminates
the archive; an entry normalizing to `.` is skipped, not extracted; and
an entry (or a hardlink target) one of whose path components already
exists on disk as a symlink is rejected with
`ArchivePathContainsSymlinkComponent`. -/
theorem handleTarEntry_spec (dstDir : String) (st : ExtractState) (h : TarHeader)
    (rest : List TarHeader) :
    (h.name = "" → handleTarEntry dstDir st h = .error .entryHasEmptyName) ∧
    (h.name ≠ "" → goClean h.name ≠ "." → goIsAbs (goClean h.name) = true →
      handleTarEntry dstDir st h = .error (.entryIsAbsolutePath h.name)) ∧
    (h.name ≠ "" → goClean h.name ≠ "." → goIsAbs (goClean h.name) = false →
      (goClean h.name = ".." ∨ goStartsWith (goClean h.name) "../" = true) →
      handleTarEntry dstDir st h = .error (.entryEscapesDestination h.name)) ∧
    (h.name ≠ "" → goClean h.name = "." → handleTarEntry dstDir st h = .ok st) ∧
    (∀ relPath, sanitizeArchivePath h.name = .ok relPath → relPath ≠ "" →
      (∃ q ∈ scanPaths dstDir (goSplit relPath "/"), alookup st.fs q = some .symlinkNode) →
      ∃ q2, handleTarEntry dstDir st h = .error (.pathContainsSymlinkComponent q2) ∧
        alookup st.fs q2 = some .symlinkNode) ∧
    (h.typeflag = .hardlink → ∀ relPath linkRel,
      sanitizeArchivePath h.name = .ok relPath → relPath ≠ "" →
      ensureNoSymlinkParents st.fs dstDir relPath = .ok () →
      sanitizeArchivePath h.linkname = .ok linkRel → linkRel ≠ "" →
      (∃ q ∈ scanPaths dstDir (goSplit linkRel "/"), alookup st.fs q = some .symlinkNode) →
      ∃ q2, handleTarEntry dstDir st h = .error (.pathContainsSymlinkComponent q2) ∧
        alookup st.fs q2 = some .symlinkNode) ∧
    (∀ e, handleTarEntry dstDir st h = .error e →
      extractTarEntries dstDir st (h :: rest) = .error e) := by
  refine ⟨?_, ?_, ?_, ?_, ?_, ?_, ?_⟩
  · intro h0
    simp [handleTarEntry, sanitizeArchivePath, h0]
  · intro h0 h1 h2
    simp [handleTarEntry, sanitizeArchivePath, h0, h1, h2]
  · intro h0 h1 h2 h3
    simp [handleTarEntry, sanitizeArchivePath, h0, h1, h2, h3]
  · intro h0 h1
    simp [handleTarEntry, sanitizeArchivePath, h0, h1]
  · intro relPath hok hne hsym
    have hdot : relPath ≠ "." := by
      rcases sanitize_ok_inv h.name relPath hok with hr | ⟨hr, hr2⟩
      · exact absurd hr hne
      · rw [hr]; exact hr2
    obtain ⟨q2, hq2, hq2s⟩ := symlinkScan_err st.fs (goSplit relPath "/") dstDir hsym
    refine ⟨q2, ?_, hq2s⟩
    have hens : ensureNoSymlinkParents st.fs dstDir relPath =
        .error (.pathContainsSymlinkComponent q2) := by
      unfold ensureNoSymlinkParents
      rw [if_neg (by simp [hne, hdot])]
      exact hq2
    simp only [handleTarEntry, hok, hens]
    rw [if_neg hne]
  · intro htype relPath linkRel hok hne hens hok2 hne2 hsym
    have hdot2 : linkRel ≠ "." := by
      rcases sanitize_ok_inv h.linkname linkRel hok2 with hr | ⟨hr, hr2⟩
      · exact absurd hr hne2
      · rw [hr]; exact hr2
    obtain ⟨q2, hq2, hq2s⟩ := symlinkScan_err st.fs (goSplit linkRel "/") dstDir hsym
    refine ⟨q2, ?_, hq2s⟩
    have hens2 : ensureNoSymlinkParents st.fs dstDir linkRel =
        .error (.pathContainsSymlinkComponent q2) := by
      unfold ensureNoSymlinkParents
      rw [if_neg (by simp [hne2, hdot2])]
      exact hq2
    simp only [handleTarEntry, hok, if_neg hne, hens, htype, extractHardlink, hok2,
      if_neg hne2, hens2]
  · intro e he
    simp only [extractTarEntries, he]

/-! ### C7: size caps -/

/-- **C7** A regular-file entry fails with a typed error when its size
is negative; given a non-negative size it fails with
`ArchiveEntryIsTooLarge` exactly when the size exceeds 512 MiB (an
entry of exactly 512 MiB passes the per-entry check); given an
in-bounds size it fails with `ArchiveExceedsMaxSize` exactly when the
running total plus this entry would exceed 4 GiB, and otherwise
succeeds, adding the entry size to the running total; the first entry
crossing either cap terminates the whole archive. -/
theorem extractRegularFile_spec (st : ExtractState) (h : TarHeader) (targetPath : String)
    (dstDir : String) (rest : List TarHeader) :
    (h.size < 0 → extractRegularFile st h targetPath = .error (.entryHasNegativeSize h.name)) ∧
    (0 ≤ h.size → (extractRegularFile st h targetPath = .error (.entryIsTooLarge h.name h.size)
      ↔ h.size > ArchiveMaxEntrySize)) ∧
    (0 ≤ h.size → h.size ≤ ArchiveMaxEntrySize →
      (extractRegularFile st h targetPath = .error .exceedsMaxSize
        ↔ st.extracted + h.size > ArchiveMaxTotalSize)) ∧
    (0 ≤ h.size → h.size ≤ ArchiveMaxEntrySize →
      st.extracted + h.size ≤ ArchiveMaxTotalSize →
      extractRegularFile st h targetPath =
        .ok { fs := aset (mkdirAll st.fs (goDir targetPath)) targetPath .fileNode,
              extracted := st.extracted + h.size }) ∧
    (∀ e, handleTarEntry dstDir st h = .error e →
      extractTarEntries dstDir st (h :: rest) = .error e) := by
  refine ⟨?_, ?_, ?_, ?_, ?_⟩
  · intro h0
    simp [extractRegularFile, h0]
  · intro h0
    constructor
    · intro hres
      by_contra hgt
      have hle : h.size ≤ ArchiveMaxEntrySize := by omega
      unfold extractRegularFile at hres
      rw [if_neg (by omega), if_neg (by omega)] at hres
      split_ifs at hres <;> cases hres
    · intro hgt
      unfold extractRegularFile
      rw [if_neg (by omega), if_pos (by omega)]
  · intro h0 h1
    constructor
    · intro hres
      by_contra hgt
      unfold extractRegularFile at hres
      rw [if_neg (by omega), if_neg (by omega), if_neg (by omega)] at hres
      cases hres
    · intro hgt
      unfold extractRegularFile
      rw [if_neg (by omega), if_neg (by omega), if_pos (by omega)]
  · intro h0 h1 h2
    unfold extractRegularFile
    rw [if_neg (by omega), if_neg (by omega), if_neg (by omega)]
  · intro e he
    simp only [extractTarEntries, he]

/-! ## Installer (`src/internal/galaxy/collections/install.go`)

The store, filesystem, network and artifact cache are oracles supplied
in an `InstallEnv`; the side effects the claims talk about (temp-file
cleanup, cache commit, extraction, marker writing, install recording)
are tracked in an `InstallEffects` record. -/

/-- A collection identity (`collection` in part_015; `ns` stands for
the Go `Namespace` field, which is a Lean keyword). -/
structure Collection where
  ns : String
  name : String
  version : String
  source : String
deriving DecidableEq

/-- `collection.key()`: `"<namespace>.<name>@<version>"`. -/
def Collection.key (c : Collection) : String :=
  String.mk (c.ns.data ++ '.' :: c.name.data ++ '@' :: c.version.data)

/-- `store.InstalledEntry` (the fields the installer reads). -/
structure InstalledEntry where
  installPath : String
  source : String
  artifactSHA256 : String
  installedAt : Int
  deps : List String
deriving DecidableEq

/-- The fields of `types.GalaxyCollectionVersionInfo` the download path
reads: `DownloadURL` and `Artifact.Sha256`. -/
structure VersionMeta where
  downloadURL : String
  artifactSha256 : String
deriving DecidableEq

/-- Errors of the installer paths modelled here. -/
inductive InstallErr where
  | metadataIsNil
  | missingDownloadURL
  | downloadFailed (url : String)
  | sha256Mismatch (expected actual : String)
  | metadataUnavailable
  | metadataLoadFailed
  | fetchFailed
  | extractFailed
  | fileHashFailed
deriving DecidableEq

/-- The `.extract-done.<sha>` marker path under an install path. -/
def extractDoneMarker (installPath sha : String) : String :=
  goJoin2 installPath (String.mk (".extract-done.".data ++ sha.data))

/-- The `GALAXY.yml` sidecar path checked by `canSkipInstall`. -/
def galaxyInfoYml (downloadPath : String) (col : Collection) : String :=
  goJoin2 (goJoin2 downloadPath (goJoin2 "ansible_collections"
    (String.mk (col.ns.data ++ '.' :: col.name.data ++ '-' :: col.version.data ++ ".info".data))))
    "GALAXY.yml"

/-- `canSkipInstall`: a collection is skipped when its installed entry
matches the computed destination, records a non-empty artifact hash,
and both the extract-done marker and the `GALAXY.yml` sidecar exist. -/
def canSkipInstall (downloadPath : String) (col : Collection) (installPath : String)
    (installed : List (String × InstalledEntry)) (statExists : String → Bool) : Bool :=
  match alookup installed col.key with
  | none => false
  | some entry =>
    if entry.installPath = "" ∨ entry.installPath ≠ installPath then false
    else if entry.artifactSHA256 = "" then false
    else if statExists (extractDoneMarker installPath entry.artifactSHA256) = false then false
    else if statExists (galaxyInfoYml downloadPath col) = false then false
    else true

/-- `verifyDownloadSHA`: compare the declared hash (trimmed) with the
computed one; an empty declaration accepts anything. -/
def verifyDownloadSHA (meta : VersionMeta) (sha : String) : Except InstallErr Unit :=
  let expected := goTrim meta.artifactSha256
  if expected = "" ∨ expected = sha then .ok ()
  else .error (.sha256Mismatch expected sha)

/-- `resolveArtifactSHA`: fall back, in order, to the streaming hash,
the declared metadata hash, the artifact store's `sha256` metadata, and
finally a fresh hash of the file on disk. -/
def resolveArtifactSHA (fileHash : String → Except InstallErr String) (path : String)
    (meta : Option VersionMeta) (artifactMeta : Option (List (String × String)))
    (artifactSHA : String) : Except InstallErr String :=
  let sha := goTrim artifactSHA
  let sha := if sha = "" then
      match meta with
      | some m => if m.artifactSha256 ≠ "" then goTrim m.artifactSha256 else ""
      | none => ""
    else sha
  let sha := if sha = "" then
      match artifactMeta with
      | some am => goTrim ((alookup am "sha256").getD "")
      | none => ""
    else sha
  if sha ≠ "" then .ok sha else fileHash path

/-- `validateDownloadInputs` (the config and artifact store are present
in the runs modelled here, so only the metadata checks remain). -/
def validateDownloadInputs (meta : Option VersionMeta) : Except InstallErr VersionMeta :=
  match meta with
  | none => .error .metadataIsNil
  | some m => if m.downloadURL = "" then .error .missingDownloadURL else .ok m

/-- Observable side effects of one `installCollection` run. -/
structure InstallEffects where
  downloadAttempted : Bool
  tempCleaned : Bool
  committed : Bool
  extractAttempted : Bool
  markerWritten : Bool
  recorded : Bool
deriving DecidableEq

/-- No side effects. -/
def noInstallEffects : InstallEffects :=
  { downloadAttempted := false, tempCleaned := false, committed := false,
    extractAttempted := false, markerWritten := false, recorded := false }

/-- The oracles an install run consults. -/
structure InstallEnv where
  downloadPath : String
  noCache : Bool
  statExists : String → Bool
  installed : List (String × InstalledEntry)
  artifactHas : Bool
  metaLoad : Option VersionMeta
  downloadOK : Bool
  streamSHA : String
  tmpPath : String
  commitPath : String
  fetchPath : String
  fetchMeta : List (String × String)
  fetchOK : Bool
  extractOK : Bool
  fileHash : String → Except InstallErr String

/-- `artifactKey`: the cache key of a collection tarball. -/
def artifactKey (col : Collection) : String :=
  String.mk (col.ns.data ++ '-' :: col.name.data ++ '-' :: col.version.data ++ ".tar.gz".data)

/-- The result of `downloadCollectionToCache`. -/
structure DownloadResultM where
  path : String
  sha : String
deriving DecidableEq

/-- `downloadCollectionToCache`: validate, download, stream to a temp
file while hashing, verify the declared hash, then commit to the cache
(when `useCache`) or hand back the temp file.  The second component
records whether the temp cleanup ran and whether a commit happened. -/
def downloadCollectionToCache (env : InstallEnv) (meta : Option VersionMeta)
    (useCache : Bool) : Except InstallErr DownloadResultM × (Bool × Bool) :=
  match validateDownloadInputs meta with
  | .error e => (.error e, (false, false))
  | .ok m =>
    if env.downloadOK = false then (.error (.downloadFailed m.downloadURL), (false, false))
    else
      match verifyDownloadSHA m env.streamSHA with
      | .error e => (.error e, (true, false))
      | .ok _ =>
        if useCache then (.ok { path := env.commitPath, sha := env.streamSHA }, (false, true))
        else (.ok { path := env.tmpPath, sha := env.streamSHA }, (false, false))

/-- `resolveMetadata`: prefer the override, then the loaded metadata; a
load failure is `MetadataUnavailable` on a cache hit (tolerated by the
caller) and fatal otherwise. -/
def resolveMetadata (env : InstallEnv) (metaOverride : Option VersionMeta) (cacheHit : Bool) :
    Except InstallErr (Option VersionMeta) :=
  match metaOverride with
  | some m => .ok (some m)
  | none =>
    match env.metaLoad with
    | some m => .ok (some m)
    | none => if cacheHit then .error .metadataUnavailable else .error .metadataLoadFailed

/-- The payload `prepareInstall` returns. -/
structure InstallPayload where
  meta : Option VersionMeta
  artifactPath : String
  artifactSHA : String
deriving DecidableEq

/-- The artifact-acquisition half of `prepareInstall` once the metadata
is settled: download (cache miss) or fetch from the artifact cache
(cache hit), then resolve the recorded artifact hash. -/
def prepareArtifact (env : InstallEnv) (col : Collection) (meta : Option VersionMeta)
    (cacheHit useCache : Bool) : Except InstallErr InstallPayload × InstallEffects :=
  if cacheHit = false then
    match downloadCollectionToCache env meta useCache with
    | (.error e, dls) =>
      (.error e, { noInstallEffects with
        downloadAttempted := true, tempCleaned := dls.1, committed := dls.2 })
    | (.ok dr, dls) =>
      match resolveArtifactSHA env.fileHash dr.path meta none dr.sha with
      | .error e =>
        (.error e, { noInstallEffects with
          downloadAttempted := true, tempCleaned := true, committed := dls.2 })
      | .ok sha =>
        (.ok { meta := meta, artifactPath := dr.path, artifactSHA := sha },
          { noInstallEffects with downloadAttempted := true, committed := dls.2 })
  else
    if env.fetchOK = false then (.error .fetchFailed, noInstallEffects)
    else
      match resolveArtifactSHA env.fileHash env.fetchPath meta (some env.fetchMeta) "" with
      | .error e => (.error e, { noInstallEffects with tempCleaned := true })
      | .ok sha =>
        (.ok { meta := meta, artifactPath := env.fetchPath, artifactSHA := sha },
          noInstallEffects)

/-- `prepareInstall`. -/
def prepareInstall (env : InstallEnv) (col : Collection) (metaOverride : Option VersionMeta) :
    Except InstallErr InstallPayload × InstallEffects :=
  let useCache := ! env.noCache
  let cacheHit := useCache && env.artifactHas
  match resolveMetadata env metaOverride cacheHit with
  | .error e =>
    if e = .metadataUnavailable then prepareArtifact env col none cacheHit useCache
    else (.error e, noInstallEffects)
  | .ok meta => prepareArtifact env col meta cacheHit useCache

/-- The computed destination of a collection install. -/
def installPathOf (downloadPath : String) (col : Collection) : String :=
  goJoin2 downloadPath (goJoin2 "ansible_collections" (goJoin2 col.ns col.name))

/-- `installCollection`: skip when `canSkipInstall` allows it; otherwise
prepare (metadata + artifact), extract (writing the marker on success)
and record the install. -/
def installCollection (env : InstallEnv) (col : Collection)
    (metaOverride : Option VersionMeta) : Except InstallErr Unit × InstallEffects :=
  let installPath := installPathOf env.downloadPath col
  if canSkipInstall env.downloadPath col installPath env.installed env.statExists then
    (.ok (), noInstallEffects)
  else
    match prepareInstall env col metaOverride with
    | (.error e, eff) => (.error e, eff)
    | (.ok _, eff) =>
      if env.extractOK then
        (.ok (), { eff with extractAttempted := true, markerWritten := true, recorded := true })
      else
        (.error .extractFailed, { eff with extractAttempted := true })

/-! ### C9: skip-install -/

/-- **C9** `canSkipInstall` answers true exactly when the installed
entry exists with the computed destination as its install path, a
non-empty artifact hash, an existing `.extract-done.<sha>` marker and
an existing `GALAXY.yml` sidecar; and `installCollection` does no work
at all (returns success with no effects) exactly when `canSkipInstall`
answers true. -/
theorem canSkipInstall_spec (downloadPath : String) (col : Collection) (installPath : String)
    (installed : List (String × InstalledEntry)) (statExists : String → Bool)
    (hip : installPath ≠ "") (env : InstallEnv) (metaOverride : Option VersionMeta) :
    (canSkipInstall downloadPath col installPath installed statExists = true ↔
      ∃ entry, alookup installed col.key = some entry ∧
        entry.installPath = installPath ∧
        entry.artifactSHA256 ≠ "" ∧
        statExists (extractDoneMarker installPath entry.artifactSHA256) = true ∧
        statExists (galaxyInfoYml downloadPath col) = true) ∧
    (installCollection env col metaOverride = (.ok (), noInstallEffects) ↔
      canSkipInstall env.downloadPath col (installPathOf env.downloadPath col)
        env.installed env.statExists = true) := by
  constructor
  · constructor
    · intro hskip
      cases hl : alookup installed col.key with
      | none => simp [canSkipInstall, hl] at hskip
      | some entry =>
        simp only [canSkipInstall, hl] at hskip
        split_ifs at hskip with h1 h2 h3 h4 <;>
          first
            | exact absurd hskip Bool.false_ne_true
            | (push_neg at h1
               refine ⟨entry, rfl, h1.2, h2, ?_, ?_⟩
               · cases hx : statExists (extractDoneMarker installPath entry.artifactSHA256) with
                 | true => rfl
                 | false => exact absurd hx h3
               · cases hx : statExists (galaxyInfoYml downloadPath col) with
                 | true => rfl
                 | false => exact absurd hx h4)
    · rintro ⟨entry, hl, hpath, hsha, hm, hy⟩
      simp only [canSkipInstall, hl]
      have h1 : ¬(entry.installPath = "" ∨ entry.installPath ≠ installPath) := by
        push_neg
        exact ⟨by rw [hpath]; exact hip, hpath⟩
      rw [if_neg h1, if_neg hsha, if_neg (by rw [hm]; simp), if_neg (by rw [hy]; simp)]
  · by_cases hcs : canSkipInstall env.downloadPath col (installPathOf env.downloadPath col)
        env.installed env.statExists = true
    · simp [installCollection, hcs]
    · constructor
      · intro hres
        exfalso
        apply hcs
        simp only [installCollection] at hres
        rw [if_neg hcs] at hres
        rcases hp : prepareInstall env col metaOverride with ⟨res, eff⟩
        rw [hp] at hres
        cases res with
        | error e => simp at hres
        | ok payload =>
          by_cases hex : env.extractOK = true <;>
            simp [hex, noInstallEffects] at hres
      · intro hcs2
        exact absurd hcs2 hcs

/-! ### C10: hash fallback chain -/

theorem finalShaStep_ne {fh : String → Except InstallErr String}
    (hfh : ∀ q s, fh q = .ok s → s ≠ "") (p s r : String)
    (hok : (if s ≠ "" then Except.ok s else fh p) = .ok r) : r ≠ "" := by
  split at hok
  · rename_i hc
    intro hr0
    apply hc
    rw [Except.ok.inj hok, hr0]
  · exact hfh p r hok

/-- **C10** When the declared metadata hash is empty after trimming,
`verifyDownloadSHA` accepts any computed hash (no comparison); the
recorded artifact hash falls back, in order, to the streaming hash, the
declared metadata hash, the artifact store's `sha256` metadata, and a
fresh hash of the file on disk (also when the metadata is absent
entirely); and whenever `resolveArtifactSHA` succeeds, the hash it
returns is non-empty, provided the file hasher returns non-empty
hashes. -/
theorem resolveArtifactSHA_spec
    (fh : String → Except InstallErr String) (p : String) (m : VersionMeta)
    (am : List (String × String)) (artifactSHA : String)
    (hfh : ∀ q s, fh q = .ok s → s ≠ "") :
    (∀ sha, goTrim m.artifactSha256 = "" → verifyDownloadSHA m sha = .ok ()) ∧
    (goTrim artifactSHA ≠ "" →
      resolveArtifactSHA fh p (some m) (some am) artifactSHA = .ok (goTrim artifactSHA)) ∧
    (goTrim artifactSHA = "" → m.artifactSha256 ≠ "" → goTrim m.artifactSha256 ≠ "" →
      resolveArtifactSHA fh p (some m) (some am) artifactSHA = .ok (goTrim m.artifactSha256)) ∧
    (goTrim artifactSHA = "" →
      (m.artifactSha256 = "" ∨ goTrim m.artifactSha256 = "") →
      goTrim ((alookup am "sha256").getD "") ≠ "" →
      resolveArtifactSHA fh p (some m) (some am) artifactSHA =
        .ok (goTrim ((alookup am "sha256").getD ""))) ∧
    (goTrim artifactSHA = "" →
      (m.artifactSha256 = "" ∨ goTrim m.artifactSha256 = "") →
      goTrim ((alookup am "sha256").getD "") = "" →
      resolveArtifactSHA fh p (some m) (some am) artifactSHA = fh p) ∧
    (goTrim artifactSHA = "" → goTrim ((alookup am "sha256").getD "") = "" →
      resolveArtifactSHA fh p none (some am) artifactSHA = fh p) ∧
    (∀ (mo : Option VersionMeta) (amo : Option (List (String × String))) (a r : String),
      resolveArtifactSHA fh p mo amo a = .ok r → r ≠ "") := by
  refine ⟨?_, ?_, ?_, ?_, ?_, ?_, ?_⟩
  · intro sha hempty
    simp [verifyDownloadSHA, hempty]
  · intro hne
    simp [resolveArtifactSHA, hne]
  · intro h0 h1 h2
    simp [resolveArtifactSHA, h0, h1, h2]
  · intro h0 h1 h2
    rcases h1 with h1 | h1 <;> simp [resolveArtifactSHA, h0, h1, h2]
  · intro h0 h1 h2
    rcases h1 with h1 | h1 <;> simp [resolveArtifactSHA, h0, h1, h2]
  · intro h0 h1
    simp [resolveArtifactSHA, h0, h1]
  · intro mo amo a r hok
    simp only [resolveArtifactSHA] at hok
    exact finalShaStep_ne hfh p _ r hok

/-! ### C8: SHA-256 mismatch -/

/-- **C8** When the declared metadata hash is present (non-empty after
trimming) and differs from the hash computed over the downloaded
stream, `verifyDownloadSHA` reports `SHA256Mismatch`;
`downloadCollectionToCache` fails with that error, runs the temp-file
cleanup and does not commit; and `installCollection` (not skippable, on
the download path) fails with that error with nothing extracted, no
marker written, and no install recorded. -/
theorem sha256Mismatch_spec (env : InstallEnv) (col : Collection) (m : VersionMeta)
    (hdecl : goTrim m.artifactSha256 ≠ "")
    (hdiff : goTrim m.artifactSha256 ≠ env.streamSHA)
    (hurl : m.downloadURL ≠ "")
    (hdl : env.downloadOK = true)
    (hmiss : (! env.noCache && env.artifactHas) = false)
    (hskip : canSkipInstall env.downloadPath col (installPathOf env.downloadPath col)
      env.installed env.statExists = false) :
    verifyDownloadSHA m env.streamSHA =
      .error (.sha256Mismatch (goTrim m.artifactSha256) env.streamSHA) ∧
    (∀ useCache, downloadCollectionToCache env (some m) useCache =
      (.error (.sha256Mismatch (goTrim m.artifactSha256) env.streamSHA), (true, false))) ∧
    installCollection env col (some m) =
      (.error (.sha256Mismatch (goTrim m.artifactSha256) env.streamSHA),
        { noInstallEffects with downloadAttempted := true, tempCleaned := true }) := by
  have hver : verifyDownloadSHA m env.streamSHA =
      .error (.sha256Mismatch (goTrim m.artifactSha256) env.streamSHA) := by
    simp [verifyDownloadSHA, hdecl, hdiff]
  have hdlc : ∀ useCache, downloadCollectionToCache env (some m) useCache =
      (.error (.sha256Mismatch (goTrim m.artifactSha256) env.streamSHA), (true, false)) := by
    intro useCache
    simp [downloadCollectionToCache, validateDownloadInputs, hurl, hdl, hver]
  refine ⟨hver, hdlc, ?_⟩
  simp only [installCollection]
  rw [if_neg (by rw [hskip]; simp)]
  have hprep : prepareInstall env col (some m) =
      (.error (.sha256Mismatch (goTrim m.artifactSha256) env.streamSHA),
        { noInstallEffects with downloadAttempted := true, tempCleaned := true }) := by
    simp only [prepareInstall, resolveMetadata]
    rw [hmiss]
    simp only [prepareArtifact, if_true]
    rw [hdlc (! env.noCache)]
    simp [noInstallEffects]
  rw [hprep]

/-! ## HTTP metadata cache (`src/unnamed/part_007`, package cache)

Time is `Int` nanoseconds (`now` replaces `time.Now`), the network is a
function from requests to responses, `json.Unmarshal` into the caller's
`out` is a `decode` parameter that may fail, and `apiCacheKey`
(`sha256_hex(url)`) is an `apiKey` parameter — the claims only rely on
the entry stored under the computed key, never on hash structure. -/

/-- `cache.Policy`. -/
structure CachePolicy where
  read : Bool
  write : Bool
  ttl : Int
deriving DecidableEq

/-- `store.APICacheEntry`. -/
structure APICacheEntry where
  url : String
  etag : String
  lastModified : String
  fetchedAt : Int
  ttl : Int
  body : String
deriving DecidableEq

/-- An outgoing GET request with its conditional headers. -/
structure HttpReq where
  url : String
  ifNoneMatch : Option String
  ifModifiedSince : Option String
deriving DecidableEq

/-- The parts of an HTTP response the cache reads. -/
structure HttpResp where
  status : Nat
  body : String
  etag : String
  lastModified : String
deriving DecidableEq

/-- Errors of the fetch path. -/
inductive FetchErr where
  | httpStatus (url : String) (code : Nat)
  | unmarshal
deriving DecidableEq

/-- `json.Unmarshal` into the caller's value, as an `Except`. -/
def decodeExcept {V : Type} (decode : String → Option V) (body : String) : Except FetchErr V :=
  match decode body with
  | some v => .ok v
  | none => .error .unmarshal

/-- The conditional request `fetchJSONBody` sends for a cached entry:
`If-None-Match` / `If-Modified-Since` are set from the entry's
non-empty validators. -/
def condReqOf (url : String) (entry : APICacheEntry) : HttpReq :=
  { url := url
    ifNoneMatch := if entry.etag ≠ "" then some entry.etag else none
    ifModifiedSince := if entry.lastModified ≠ "" then some entry.lastModified else none }

/-- `fetchJSONBody`: one GET, carrying the conditional headers from the
cached entry when present; 304 reports not-modified with the response
validators, non-200 is a typed status error. -/
def fetchJSONBody (net : HttpReq → HttpResp) (url : String) (entry : Option APICacheEntry) :
    HttpReq × Except FetchErr (String × String × String × Bool) :=
  let req : HttpReq :=
    match entry with
    | some e => condReqOf url e
    | none => { url := url, ifNoneMatch := none, ifModifiedSince := none }
  let resp := net req
  if resp.status = 304 then (req, .ok ("", resp.etag, resp.lastModified, true))
  else if resp.status ≠ 200 then (req, .error (.httpStatus url resp.status))
  else (req, .ok (resp.body, resp.etag, resp.lastModified, false))

/-- `newAPICacheEntry`. -/
def newAPICacheEntry (url body etag lastModified : String) (ttl now : Int) : APICacheEntry :=
  { url := url, fetchedAt := now, ttl := ttl, body := body,
    etag := etag, lastModified := lastModified }

/-- `refreshAPICacheEntry`: bump `fetchedAt`, keep old validators when
the response carries none. -/
def refreshAPICacheEntry (entry : APICacheEntry) (etag lastModified : String) (now : Int) :
    APICacheEntry :=
  { entry with
    fetchedAt := now
    etag := if etag ≠ "" then etag else entry.etag
    lastModified := if lastModified ≠ "" then lastModified else entry.lastModified }

/-- `isValidCacheEntry`. -/
def isValidCacheEntry (entry : Option APICacheEntry) (url : String) : Bool :=
  match entry with
  | none => false
  | some e => decide (e.url = url) && ! decide (e.body = "")

/-- `serveFreshCache`: the decoded cached body when the entry is fresh
under the policy TTL and decodes; `none` otherwise. -/
def serveFreshCache {V : Type} (decode : String → Option V) (now : Int)
    (entry : APICacheEntry) (policy : CachePolicy) : Option V :=
  if policy.ttl ≠ 0 ∧ now - entry.fetchedAt > policy.ttl then none
  else decode entry.body

/-- `revalidateCache`: conditional GET; 304 refreshes the entry (when
writing) and serves the cached body; 200 replaces the entry (when
writing) and serves the new body. -/
def revalidateCache {V : Type} (decode : String → Option V) (now : Int)
    (net : HttpReq → HttpResp) (url : String) (st : List (String × APICacheEntry))
    (key : String) (entry : APICacheEntry) (policy : CachePolicy) :
    Except FetchErr V × List (String × APICacheEntry) × List HttpReq :=
  let (req, res) := fetchJSONBody net url (some entry)
  match res with
  | .error e => (.error e, st, [req])
  | .ok (body, etag, lastModified, notModified) =>
    if notModified then
      let st2 := if policy.write then
          aset st key (refreshAPICacheEntry entry etag lastModified now)
        else st
      (decodeExcept decode entry.body, st2, [req])
    else
      let st2 := if policy.write then
          aset st key (newAPICacheEntry url body etag lastModified policy.ttl now)
        else st
      (decodeExcept decode body, st2, [req])

/-- `tryServeFromCache`: `none` in the first component means the cache
could not handle the request and the caller falls through to a plain
fetch. -/
def tryServeFromCache {V : Type} (decode : String → Option V) (now : Int)
    (net : HttpReq → HttpResp) (url : String) (st : List (String × APICacheEntry))
    (key : String) (policy : CachePolicy) :
    Option (Except FetchErr V) × List (String × APICacheEntry) × List HttpReq :=
  match alookup st key with
  | none => (none, st, [])
  | some entry =>
    if isValidCacheEntry (some entry) url = false then (none, st, [])
    else
      match serveFreshCache decode now entry policy with
      | some v => (some (.ok v), st, [])
      | none =>
        let (res, st2, reqs) := revalidateCache decode now net url st key entry policy
        (some res, st2, reqs)

/-- `fetchAndStore`: plain GET, store on 200 when writing. -/
def fetchAndStore {V : Type} (decode : String → Option V) (now : Int)
    (net : HttpReq → HttpResp) (url : String) (st : List (String × APICacheEntry))
    (key : String) (policy : CachePolicy) :
    Except FetchErr V × List (String × APICacheEntry) × List HttpReq :=
  let (req, res) := fetchJSONBody net url none
  match res with
  | .error e => (.error e, st, [req])
  | .ok (body, etag, lastModified, _) =>
    let st2 := if policy.write then
        aset st key (newAPICacheEntry url body etag lastModified policy.ttl now)
      else st
    (decodeExcept decode body, st2, [req])

/-- `FetchJSONWithCachePolicy`: the third component lists the HTTP
requests sent during the call (in order). -/
def FetchJSONWithCachePolicy {V : Type} (decode : String → Option V) (now : Int)
    (net : HttpReq → HttpResp) (apiKey : String → String) (url : String)
    (store : Option (List (String × APICacheEntry))) (policy : CachePolicy) :
    Except FetchErr V × Option (List (String × APICacheEntry)) × List HttpReq :=
  match store with
  | none =>
    let (req, res) := fetchJSONBody net url none
    match res with
    | .error e => (.error e, none, [req])
    | .ok (body, _, _, _) => (decodeExcept decode body, none, [req])
  | some st =>
    if policy.read = false ∧ policy.write = false then
      let (req, res) := fetchJSONBody net url none
      match res with
      | .error e => (.error e, some st, [req])
      | .ok (body, _, _, _) => (decodeExcept decode body, some st, [req])
    else
      let key := apiKey url
      if policy.read then
        match tryServeFromCache decode now net url st key policy with
        | (some res, st2, reqs) => (res, some st2, reqs)
        | (none, _, _) =>
          let (res, st2, reqs) := fetchAndStore decode now net url st key policy
          (res, some st2, reqs)
      else
        let (res, st2, reqs) := fetchAndStore decode now net url st key policy
        (res, some st2, reqs)

/-! ### C5: cache policy semantics

The claim as frozen asserts that a 304 response always refreshes
`fetched_at` in the cache entry; the code only writes the refreshed
entry when `policy.write` is set.  The counterexample below runs the
stale path with `read=true, write=false`: the server answers 304, yet
the store still holds the entry with its old `fetched_at`.  The
amended theorem conditions the 304/200 store updates on `policy.write`
and the fresh-path short-circuit on the cached body decoding. -/

/-- Counterexample scenario: the cached entry (stale under TTL 5 at
time 100). -/
def c5Entry : APICacheEntry :=
  { url := "u", etag := "E", lastModified := "", fetchedAt := 0, ttl := 0, body := "7" }

/-- Counterexample scenario: the server always answers 304 with no
validators. -/
def c5Net : HttpReq → HttpResp :=
  fun _ => { status := 304, body := "", etag := "", lastModified := "" }

/-- Counterexample scenario: unmarshalling that accepts the cached
body. -/
def c5Dec : String → Option Nat := fun s => if s = "7" then some 7 else none

/-- Counterexample scenario: read-only cache policy with TTL 5. -/
def c5Policy : CachePolicy := { read := true, write := false, ttl := 5 }

/-- **C5 counterexample** With `read=true, write=false`, a stale valid
entry and a 304 response, the call serves the cached body but returns
the store unchanged: `fetched_at` is still 0, not the current time 100,
contradicting the claim that a 304 refreshes `fetched_at` whenever
reads are enabled. -/
theorem fetchJSON_304_noWrite_counterexample :
    c5Policy.read = true ∧
    isValidCacheEntry (some c5Entry) "u" = true ∧
    (c5Policy.ttl ≠ 0 ∧ (100 : Int) - c5Entry.fetchedAt > c5Policy.ttl) ∧
    (c5Net (condReqOf "u" c5Entry)).status = 304 ∧
    FetchJSONWithCachePolicy c5Dec 100 c5Net (fun u => u) "u"
        (some [("u", c5Entry)]) c5Policy =
      (.ok 7, some [("u", c5Entry)], [condReqOf "u" c5Entry]) ∧
    c5Entry.fetchedAt ≠ (100 : Int) := by
  refine ⟨rfl, rfl, ⟨by decide, by decide⟩, rfl, by rfl, by decide⟩

/-- **C5 (amended)** With a non-nil store, `policy.read` enabled, and a
valid cache entry under the computed key (matching URL, non-empty
body): when the entry is fresh (zero TTL or within TTL) and its body
unmarshals, the cached value is served and no HTTP request is sent;
when the entry is stale, exactly one conditional GET carrying the
cached ETag and/or Last-Modified is sent, a 304 serves the cached body
and refreshes `fetched_at` and validators **only when `policy.write`**,
and a 200 serves the new body, replacing the entry only when
`policy.write`. -/
theorem fetchJSONWithCachePolicy_spec {V : Type} (decode : String → Option V) (now : Int)
    (net : HttpReq → HttpResp) (apiKey : String → String) (url : String)
    (st : List (String × APICacheEntry)) (policy : CachePolicy) (entry : APICacheEntry)
    (hread : policy.read = true)
    (hentry : alookup st (apiKey url) = some entry)
    (hurl : entry.url = url) (hbody : entry.body ≠ "") :
    (∀ v, (policy.ttl = 0 ∨ now - entry.fetchedAt ≤ policy.ttl) →
      decode entry.body = some v →
      FetchJSONWithCachePolicy decode now net apiKey url (some st) policy =
        (.ok v, some st, [])) ∧
    ((policy.ttl ≠ 0 ∧ now - entry.fetchedAt > policy.ttl) →
      ((net (condReqOf url entry)).status = 304 →
        FetchJSONWithCachePolicy decode now net apiKey url (some st) policy =
          (decodeExcept decode entry.body,
            some (if policy.write then
              aset st (apiKey url) (refreshAPICacheEntry entry
                (net (condReqOf url entry)).etag (net (condReqOf url entry)).lastModified now)
              else st),
            [condReqOf url entry])) ∧
      ((net (condReqOf url entry)).status = 200 →
        FetchJSONWithCachePolicy decode now net apiKey url (some st) policy =
          (decodeExcept decode (net (condReqOf url entry)).body,
            some (if policy.write then
              aset st (apiKey url) (newAPICacheEntry url (net (condReqOf url entry)).body
                (net (condReqOf url entry)).etag (net (condReqOf url entry)).lastModified
                policy.ttl now)
              else st),
            [condReqOf url entry]))) := by
  have hnp : ¬(policy.read = false ∧ policy.write = false) := by
    intro hc
    rw [hread] at hc
    cases hc.1
  have hvalid : isValidCacheEntry (some entry) url = true := by
    simp [isValidCacheEntry, hurl, hbody]
  have hbodySome : ∀ (net2 : HttpReq → HttpResp),
      fetchJSONBody net2 url (some entry) =
        if (net2 (condReqOf url entry)).status = 304 then
          (condReqOf url entry, .ok ("", (net2 (condReqOf url entry)).etag,
            (net2 (condReqOf url entry)).lastModified, true))
        else if (net2 (condReqOf url entry)).status ≠ 200 then
          (condReqOf url entry, .error (.httpStatus url (net2 (condReqOf url entry)).status))
        else
          (condReqOf url entry,
            .ok ((net2 (condReqOf url entry)).body, (net2 (condReqOf url entry)).etag,
              (net2 (condReqOf url entry)).lastModified, false)) :=
    fun _ => rfl
  constructor
  · intro v hfresh hdec
    have hnotstale : ¬(policy.ttl ≠ 0 ∧ now - entry.fetchedAt > policy.ttl) := by
      rcases hfresh with h | h
      · intro hc; exact hc.1 h
      · intro hc; omega
    have hserve : serveFreshCache decode now entry policy = some v := by
      simp only [serveFreshCache]
      rw [if_neg hnotstale]
      exact hdec
    simp only [FetchJSONWithCachePolicy]
    rw [if_neg hnp, hread]
    simp only [if_true, tryServeFromCache, hentry, hvalid, hserve]
    rfl
  · intro hstale
    have hserve : serveFreshCache decode now entry policy = none := by
      simp only [serveFreshCache]
      rw [if_pos hstale]
    constructor
    · intro h304
      simp only [FetchJSONWithCachePolicy]
      rw [if_neg hnp, hread]
      simp only [if_true, tryServeFromCache, hentry, hvalid, hserve]
      simp [revalidateCache, hbodySome net, h304]
    · intro h200
      simp only [FetchJSONWithCachePolicy]
      rw [if_neg hnp, hread]
      simp only [if_true, tryServeFromCache, hentry, hvalid, hserve]
      simp [revalidateCache, hbodySome net, h200]

/-! ## Topological install levels (`buildInstallLevels`, part_018)

Graphs are association lists `key → dependency keys` with unique keys
(they embed Go maps).  `buildDependencyIndex` computes, per node, the
number of its dependency occurrences (called indegree in the source)
and the reverse adjacency; `topologicalLevels` repeatedly emits all
zero-count nodes and decrements their dependents.  The loop is embedded
with fuel one more than the node count; the size strictly decreases
each round, so the fallback default is unreachable (this is proved, not
assumed, in the C3 theorem below). -/

/-- The dependencies of a node (`graph[node]`; absent nodes have
none). -/
def depsOf (G : List (String × List String)) (n : String) : List String :=
  (alookup G n).getD []

/-- Membership in the node set of the graph: a key, or a dependency of
some key. -/
def isNodeOf (G : List (String × List String)) (n : String) : Prop :=
  n ∈ akeys G ∨ ∃ e ∈ G, n ∈ e.2

instance isNodeOfDecidable (G : List (String × List String)) (n : String) :
    Decidable (isNodeOf G n) := by
  unfold isNodeOf
  infer_instance

/-- The body of `buildDependencyIndex`'s inner loop for one dependency
of `node`: bump the node's count, append the node to the dependency's
reverse adjacency, and register the dependency with count 0 when new. -/
def bdiInner (node : String)
    (acc2 : List (String × Int) × List (String × List String)) (dep : String) :
    List (String × Int) × List (String × List String) :=
  let ind := aset acc2.1 node (((alookup acc2.1 node).getD 0) + 1)
  let rev := aset acc2.2 dep (((alookup acc2.2 dep).getD []) ++ [node])
  let ind2 := if amem ind dep then ind else aset ind dep 0
  (ind2, rev)

/-- The body of `buildDependencyIndex`'s loop for one graph entry. -/
def bdiStep (acc : List (String × Int) × List (String × List String))
    (entry : String × List String) : List (String × Int) × List (String × List String) :=
  let node := entry.1
  let ind0 := if amem acc.1 node then acc.1 else aset acc.1 node 0
  entry.2.foldl (bdiInner node) (ind0, acc.2)

/-- `buildDependencyIndex`. -/
def buildDependencyIndex (G : List (String × List String)) :
    List (String × Int) × List (String × List String) :=
  G.foldl bdiStep ([], [])

/-- `nextLevel`: all zero-count nodes. -/
def nextLevel (indegree : List (String × Int)) : List String :=
  indegree.filterMap (fun nd => if nd.2 = 0 then some nd.1 else none)

/-- `applyLevel`: delete the level's nodes and decrement each of their
dependents once per edge. -/
def applyLevel (indegree : List (String × Int)) (reverse : List (String × List String))
    (level : List String) : List (String × Int) :=
  level.foldl
    (fun ind node =>
      ((alookup reverse node).getD []).foldl
        (fun ind2 child => aset ind2 child (((alookup ind2 child).getD 0) - 1))
        (aerase ind node))
    indegree

/-- `topologicalLevels`, with fuel. -/
def topoFuel (reverse : List (String × List String)) :
    Nat → List (String × Int) → Option (Except ResolveErr (List (List String)))
  | 0, _ => none
  | fuel + 1, indegree =>
    if indegree.isEmpty then some (.ok [])
    else
      let level := nextLevel indegree
      if level.isEmpty then some (.error .dependencyGraphHasACycle)
      else
        match topoFuel reverse fuel (applyLevel indegree reverse level) with
        | none => none
        | some (.error e) => some (.error e)
        | some (.ok levels) => some (.ok (level :: levels))

/-- `buildInstallLevels`: build the dependency index, then the
topological levels.  The fuel `|indegree| + 1` always suffices. -/
def buildInstallLevels (G : List (String × List String)) :
    Except ResolveErr (List (List String)) :=
  let (indegree, reverse) := buildDependencyIndex G
  (topoFuel reverse (indegree.length + 1) indegree).getD (.error .dependencyGraphHasACycle)

/-! ### Counting infrastructure for the topological-sort proof -/

/-- Occurrences of a string in a list. -/
def countS (x : String) (l : List String) : Nat :=
  (l.filter (fun y => decide (y = x))).length

/-- Occurrences of elements of `xs` that lie in `keys`. -/
def countIn (xs keys : List String) : Nat :=
  (xs.filter (fun x => decide (x ∈ keys))).length

theorem countS_nil (x : String) : countS x [] = 0 := rfl

theorem countS_cons (x y : String) (l : List String) :
    countS x (y :: l) = (if y = x then 1 else 0) + countS x l := by
  by_cases h : y = x
  · simp [countS, List.filter_cons, h, Nat.add_comm]
  · simp [countS, List.filter_cons, h]

theorem countS_append (x : String) (l1 l2 : List String) :
    countS x (l1 ++ l2) = countS x l1 + countS x l2 := by
  simp [countS, List.filter_append]

theorem countS_pos_iff_mem (x : String) (l : List String) : 0 < countS x l ↔ x ∈ l := by
  induction l with
  | nil => simp [countS_nil]
  | cons y ys ih =>
    rw [countS_cons, List.mem_cons]
    by_cases h : y = x
    · simp [h]
    · have h2 : ¬ x = y := fun hh => h hh.symm
      simp [h, h2, ih]

theorem countIn_cons (x : String) (rest keys : List String) :
    countIn (x :: rest) keys = (if x ∈ keys then 1 else 0) + countIn rest keys := by
  by_cases h : x ∈ keys
  · simp [countIn, List.filter_cons, h, Nat.add_comm]
  · simp [countIn, List.filter_cons, h]

theorem countIn_erase_one (xs keys : List String) (m : String) (hm : m ∈ keys) :
    countIn xs keys = countIn xs (keys.filter (fun x => ! decide (x = m))) + countS m xs := by
  induction xs with
  | nil => simp [countIn, countS_nil]
  | cons x rest ih =>
    rw [countIn_cons, countIn_cons, countS_cons]
    by_cases hx : x = m
    · subst hx
      have h2 : ¬ x ∈ keys.filter (fun y => ! decide (y = x)) := by
        intro hc
        have := List.of_mem_filter hc
        simp at this
      rw [if_pos hm, if_neg h2, if_pos rfl]
      omega
    · have hxm : ¬ (x = m) := hx
      have hiff : x ∈ keys ↔ x ∈ keys.filter (fun y => ! decide (y = m)) := by
        constructor
        · intro hin
          exact List.mem_filter.mpr ⟨hin, by simpa using hx⟩
        · intro hin
          exact (List.mem_filter.mp hin).1
      rw [if_neg hxm]
      by_cases hin : x ∈ keys
      · rw [if_pos hin, if_pos (hiff.mp hin)]
        omega
      · rw [if_neg hin, if_neg (fun hc => hin (hiff.mpr hc))]
        omega

theorem countIn_mono_filter (xs keys : List String) (p : String → Bool) :
    countIn xs (keys.filter p) ≤ countIn xs keys := by
  induction xs with
  | nil => simp [countIn]
  | cons x rest ih =>
    rw [countIn_cons, countIn_cons]
    by_cases hin : x ∈ keys.filter p
    · rw [if_pos hin, if_pos (List.mem_filter.mp hin).1]
      omega
    · rw [if_neg hin]
      by_cases hin2 : x ∈ keys
      · rw [if_pos hin2]
        omega
      · rw [if_neg hin2]
        omega

theorem countIn_eq_zero_iff (xs keys : List String) :
    countIn xs keys = 0 ↔ ∀ d ∈ xs, ¬ d ∈ keys := by
  simp only [countIn, List.length_eq_zero, List.filter_eq_nil_iff]
  constructor
  · intro h d hd
    have := h d hd
    simpa using this
  · intro h d hd
    simpa using h d hd

theorem alookup_of_mem_nodup {α : Type} (m : List (String × α)) (k : String) (v : α)
    (hmem : (k, v) ∈ m) (hnd : (akeys m).Nodup) : alookup m k = some v := by
  induction m with
  | nil => cases hmem
  | cons hd tl ih =>
    obtain ⟨k2, w⟩ := hd
    rw [akeys_cons] at hnd
    rcases List.mem_cons.mp hmem with hc | hc
    · injection hc with h1 h2
      rw [alookup, if_pos h1.symm, h2]
    · by_cases h : k2 = k
      · exfalso
        subst h
        have hk : k2 ∈ akeys tl := by
          have := List.mem_map_of_mem (fun x => x.1) hc
          simpa [akeys] using this
        exact (List.nodup_cons.mp hnd).1 hk
      · simp only [alookup, if_neg h]
        exact ih hc hnd.of_cons

theorem mem_of_alookup {α : Type} (m : List (String × α)) (k : String) (v : α)
    (h : alookup m k = some v) : (k, v) ∈ m := by
  induction m with
  | nil => cases h
  | cons hd tl ih =>
    obtain ⟨k2, w⟩ := hd
    by_cases h2 : k2 = k
    · simp only [alookup, if_pos h2] at h
      subst h2
      rw [Option.some.inj h]
      exact List.mem_cons_self _ _
    · simp only [alookup, if_neg h2] at h
      exact List.mem_cons_of_mem _ (ih h)

theorem countIn_pos (xs keys : List String) (x : String) (h1 : x ∈ xs) (h2 : x ∈ keys) :
    0 < countIn xs keys := by
  unfold countIn
  have : x ∈ xs.filter (fun y => decide (y ∈ keys)) := List.mem_filter.mpr ⟨h1, by simpa⟩
  exact List.length_pos.mpr (List.ne_nil_of_mem this)

/-- The reverse index is exact: `reverse[m]` holds each dependent of
`m` once per edge. -/
def RevOK (G : List (String × List String)) (rev : List (String × List String)) : Prop :=
  ∀ m c, countS c ((alookup rev m).getD []) = countS m (depsOf G c)

/-- The loop invariant of `topologicalLevels`: keys are unique, every
count equals the node's dependency occurrences among the remaining
keys, and a graph key with a remaining dependency is itself
remaining. -/
def TopoInv (G : List (String × List String)) (ind : List (String × Int)) : Prop :=
  (akeys ind).Nodup ∧
  (∀ n d, alookup ind n = some d → d = (countIn (depsOf G n) (akeys ind) : Int)) ∧
  (∀ c, c ∈ akeys G → 0 < countIn (depsOf G c) (akeys ind) → (alookup ind c).isSome)

theorem foldDecr_spec : ∀ (cs : List String) (s : List (String × Int)),
    (∀ c ∈ cs, (alookup s c).isSome = true) →
    akeys (cs.foldl (fun s2 c => aset s2 c (((alookup s2 c).getD 0) - 1)) s) = akeys s ∧
    ∀ n, alookup (cs.foldl (fun s2 c => aset s2 c (((alookup s2 c).getD 0) - 1)) s) n =
      (alookup s n).map (fun d => d - (countS n cs : Int)) := by
  intro cs
  induction cs with
  | nil =>
    intro s _
    refine ⟨rfl, fun n => ?_⟩
    cases h : alookup s n <;> simp [h, countS_nil]
  | cons c rest ih =>
    intro s hpres
    obtain ⟨d0, hd0⟩ := Option.isSome_iff_exists.mp (hpres c (List.mem_cons_self c rest))
    have hpres2 : ∀ c2 ∈ rest, (alookup (aset s c (((alookup s c).getD 0) - 1)) c2).isSome = true := by
      intro c2 hc2
      rw [alookup_aset]
      by_cases hc : c = c2
      · simp [hc]
      · rw [if_neg hc]
        exact hpres c2 (List.mem_cons_of_mem c hc2)
    obtain ⟨ihk, ihv⟩ := ih (aset s c (((alookup s c).getD 0) - 1)) hpres2
    refine ⟨?_, ?_⟩
    · simp only [List.foldl_cons] at *
      rw [ihk, akeys_aset_of_mem]
      rw [hd0]
      rfl
    · intro n
      simp only [List.foldl_cons] at *
      rw [ihv n, alookup_aset]
      by_cases hc : c = n
      · subst hc
        rw [if_pos rfl, hd0]
        simp only [Option.getD_some, Option.map_some', countS_cons, if_pos rfl,
          Option.some.injEq]
        push_cast
        ring
      · rw [if_neg hc]
        cases hn : alookup s n with
        | none => simp
        | some dv =>
          simp only [Option.map_some', countS_cons, if_neg hc, Option.some.injEq]
          push_cast
          ring

theorem stepNode_spec (G rev : List (String × List String)) (hrev : RevOK G rev)
    (ind : List (String × Int)) (m : String) (hinv : TopoInv G ind)
    (hm0 : alookup ind m = some 0) :
    akeys (((alookup rev m).getD []).foldl
        (fun s2 c => aset s2 c (((alookup s2 c).getD 0) - 1)) (aerase ind m)) =
      (akeys ind).filter (fun x => ! decide (x = m)) ∧
    TopoInv G (((alookup rev m).getD []).foldl
        (fun s2 c => aset s2 c (((alookup s2 c).getD 0) - 1)) (aerase ind m)) ∧
    ∀ n, alookup (((alookup rev m).getD []).foldl
        (fun s2 c => aset s2 c (((alookup s2 c).getD 0) - 1)) (aerase ind m)) n =
      (alookup (aerase ind m) n).map (fun d => d - (countS m (depsOf G n) : Int)) := by
  obtain ⟨hnd, hval, hclosed⟩ := hinv
  have hmmem : m ∈ akeys ind := by
    rw [mem_akeys_iff, hm0]
    rfl
  have hm_count : countIn (depsOf G m) (akeys ind) = 0 := by
    have := hval m 0 hm0
    omega
  have hchild : ∀ c ∈ (alookup rev m).getD [], (alookup (aerase ind m) c).isSome = true := by
    intro c hc
    have hcount : 0 < countS m (depsOf G c) := by
      rw [← hrev m c]
      exact (countS_pos_iff_mem c _).mpr hc
    have hmdep : m ∈ depsOf G c := (countS_pos_iff_mem m _).mp hcount
    have hckey : c ∈ akeys G := by
      rw [mem_akeys_iff]
      cases hg : alookup G c with
      | none => simp [depsOf, hg] at hmdep
      | some l => rfl
    have hpos : 0 < countIn (depsOf G c) (akeys ind) := countIn_pos _ _ m hmdep hmmem
    have hcin := hclosed c hckey hpos
    have hcne : ¬ m = c := by
      intro he
      subst he
      rw [hm_count] at hpos
      omega
    rw [alookup_aerase, if_neg hcne]
    exact hcin
  obtain ⟨hkeys, hlook⟩ := foldDecr_spec ((alookup rev m).getD []) (aerase ind m) hchild
  have hkeys2 : akeys (((alookup rev m).getD []).foldl
      (fun s2 c => aset s2 c (((alookup s2 c).getD 0) - 1)) (aerase ind m)) =
      (akeys ind).filter (fun x => ! decide (x = m)) := by
    rw [hkeys, akeys_aerase]
  have hlook2 : ∀ n, alookup (((alookup rev m).getD []).foldl
      (fun s2 c => aset s2 c (((alookup s2 c).getD 0) - 1)) (aerase ind m)) n =
      (alookup (aerase ind m) n).map (fun d => d - (countS m (depsOf G n) : Int)) := by
    intro n
    rw [hlook n, hrev m n]
  refine ⟨hkeys2, ⟨?_, ?_, ?_⟩, hlook2⟩
  · rw [hkeys2]
    exact hnd.filter _
  · intro n d hd
    rw [hlook2 n] at hd
    rw [alookup_aerase] at hd
    by_cases hmn : m = n
    · rw [if_pos hmn] at hd
      cases hd
    · rw [if_neg hmn] at hd
      cases hn : alookup ind n with
      | none => rw [hn] at hd; cases hd
      | some d0 =>
        rw [hn] at hd
        simp only [Option.map_some', Option.some.injEq] at hd
        have hd0 := hval n d0 hn
        rw [hkeys2]
        have herase := countIn_erase_one (depsOf G n) (akeys ind) m hmmem
        omega
  · intro c hckey hpos
    rw [hkeys2] at hpos
    have hpos0 : 0 < countIn (depsOf G c) (akeys ind) :=
      lt_of_lt_of_le hpos (countIn_mono_filter _ _ _)
    have hcin := hclosed c hckey hpos0
    have hcne : ¬ m = c := by
      intro he
      subst he
      have : countIn (depsOf G m) ((akeys ind).filter (fun x => ! decide (x = m))) ≤
          countIn (depsOf G m) (akeys ind) := countIn_mono_filter _ _ _
      omega
    rw [hlook2 c, alookup_aerase, if_neg hcne]
    obtain ⟨dv, hdv⟩ := Option.isSome_iff_exists.mp hcin
    rw [hdv]
    rfl

theorem countIn_keys_cons (xs : List String) (m : String) (rest : List String)
    (hm : m ∉ rest) : countIn xs (m :: rest) = countS m xs + countIn xs rest := by
  induction xs with
  | nil => simp [countIn, countS_nil]
  | cons x tl ih =>
    rw [countIn_cons, countIn_cons, countS_cons]
    by_cases hx : x = m
    · subst hx
      rw [if_pos (List.mem_cons_self x rest), if_pos rfl, if_neg hm]
      omega
    · have hiff : x ∈ m :: rest ↔ x ∈ rest := by
        simp [List.mem_cons, hx]
      by_cases hr : x ∈ rest
      · rw [if_pos (hiff.mpr hr), if_pos hr, if_neg hx]
        omega
      · rw [if_neg (fun hc => hr (hiff.mp hc)), if_neg hr, if_neg hx]
        omega

theorem filter_ne_filter_notmem (l : List String) (m : String) (rest : List String) :
    (l.filter (fun x => ! decide (x = m))).filter (fun x => ! decide (x ∈ rest)) =
      l.filter (fun x => ! decide (x ∈ m :: rest)) := by
  induction l with
  | nil => rfl
  | cons x tl ih =>
    by_cases hx : x = m
    · simp [List.filter_cons, hx, ih]
    · by_cases hr : x ∈ rest
      · simp [List.filter_cons, hx, hr, ih]
      · simp [List.filter_cons, hx, hr, ih]

theorem applyLevel_spec (G rev : List (String × List String)) (hrev : RevOK G rev) :
    ∀ (level : List String) (ind : List (String × Int)), TopoInv G ind → level.Nodup →
    (∀ n ∈ level, alookup ind n = some 0) →
    akeys (applyLevel ind rev level) =
      (akeys ind).filter (fun x => ! decide (x ∈ level)) ∧
    TopoInv G (applyLevel ind rev level) ∧
    ∀ n, alookup (applyLevel ind rev level) n =
      if n ∈ level then none
      else (alookup ind n).map (fun d => d - (countIn (depsOf G n) level : Int)) := by
  intro level
  induction level with
  | nil =>
    intro ind hinv _ _
    refine ⟨?_, hinv, fun n => ?_⟩
    · simp [applyLevel]
    · simp only [applyLevel, List.foldl_nil, List.not_mem_nil, if_false]
      cases h : alookup ind n <;> simp [h, countIn]
  | cons m rest ih =>
    intro ind hinv hnd hzero
    have hm0 : alookup ind m = some 0 := hzero m (List.mem_cons_self m rest)
    have hmkeys : m ∈ akeys ind := by
      rw [mem_akeys_iff, hm0]
      rfl
    have hmnr : m ∉ rest := (List.nodup_cons.mp hnd).1
    obtain ⟨hkeys1, hinv1, hlook1⟩ := stepNode_spec G rev hrev ind m hinv hm0
    have hstep : applyLevel ind rev (m :: rest) =
        applyLevel (((alookup rev m).getD []).foldl
          (fun s2 c => aset s2 c (((alookup s2 c).getD 0) - 1)) (aerase ind m)) rev rest := rfl
    have hrzero : ∀ n ∈ rest, alookup (((alookup rev m).getD []).foldl
        (fun s2 c => aset s2 c (((alookup s2 c).getD 0) - 1)) (aerase ind m)) n = some 0 := by
      intro n hn
      have hne : ¬ m = n := fun he => hmnr (he ▸ hn)
      have h0 : alookup ind n = some 0 := hzero n (List.mem_cons_of_mem m hn)
      obtain ⟨hndk, hval, hclosed⟩ := hinv
      have hv := hval n 0 h0
      have hc0 : countIn (depsOf G n) (akeys ind) = 0 := by omega
      have hcS : countS m (depsOf G n) = 0 := by
        by_cases hmem : m ∈ depsOf G n
        · have := countIn_pos (depsOf G n) (akeys ind) m hmem hmkeys
          omega
        · have hnpos : ¬ 0 < countS m (depsOf G n) :=
            fun hp => hmem ((countS_pos_iff_mem _ _).mp hp)
          omega
      rw [hlook1 n, alookup_aerase, if_neg hne, h0]
      simp [hcS]
    obtain ⟨hkeys2, hinv2, hlook2⟩ :=
      ih (((alookup rev m).getD []).foldl
        (fun s2 c => aset s2 c (((alookup s2 c).getD 0) - 1)) (aerase ind m))
        hinv1 (List.nodup_cons.mp hnd).2 hrzero
    refine ⟨?_, ?_, fun n => ?_⟩
    · rw [hstep, hkeys2, hkeys1, filter_ne_filter_notmem]
    · rw [hstep]
      exact hinv2
    · rw [hstep, hlook2 n]
      by_cases hninl : n ∈ m :: rest
      · rw [if_pos hninl]
        rcases List.mem_cons.mp hninl with hc | hc
        · subst hc
          rw [if_neg (fun hc2 => hmnr hc2), hlook1 n, alookup_aerase, if_pos rfl]
          rfl
        · rw [if_pos hc]
      · have hnm : ¬ m = n := fun he => hninl (he ▸ List.mem_cons_self m rest)
        have hnr : n ∉ rest := fun hc => hninl (List.mem_cons_of_mem m hc)
        rw [if_neg hnr, if_neg hninl, hlook1 n, alookup_aerase, if_neg hnm]
        cases hl : alookup ind n with
        | none => rfl
        | some d =>
          simp only [Option.map_some', Option.some.injEq,
            countIn_keys_cons (depsOf G n) m rest hmnr]
          push_cast
          ring

theorem nextLevel_subset_akeys (ind : List (String × Int)) (n : String)
    (h : n ∈ nextLevel ind) : n ∈ akeys ind := by
  obtain ⟨⟨k, v⟩, hmem, hf⟩ := List.mem_filterMap.mp h
  by_cases hv : v = 0
  · subst hv
    rw [if_pos rfl] at hf
    have hk := Option.some.inj hf
    subst hk
    exact List.mem_map_of_mem (fun x => x.1) hmem
  · simp [hv] at hf

theorem mem_nextLevel (ind : List (String × Int)) (hnd : (akeys ind).Nodup) (n : String) :
    n ∈ nextLevel ind ↔ alookup ind n = some 0 := by
  constructor
  · intro h
    obtain ⟨⟨k, v⟩, hmem, hf⟩ := List.mem_filterMap.mp h
    by_cases hv : v = 0
    · subst hv
      rw [if_pos rfl] at hf
      have hk := Option.some.inj hf
      subst hk
      exact alookup_of_mem_nodup ind k 0 hmem hnd
    · simp [hv] at hf
  · intro h
    exact List.mem_filterMap.mpr ⟨(n, 0), mem_of_alookup ind n 0 h, by simp⟩

theorem nextLevel_nodup (ind : List (String × Int)) (hnd : (akeys ind).Nodup) :
    (nextLevel ind).Nodup := by
  induction ind with
  | nil => simp [nextLevel]
  | cons hd tl ih =>
    obtain ⟨k, v⟩ := hd
    rw [akeys_cons, List.nodup_cons] at hnd
    have htl : (nextLevel tl).Nodup := ih hnd.2
    by_cases hv : v = 0
    · have : nextLevel ((k, v) :: tl) = k :: nextLevel tl := by
        simp [nextLevel, List.filterMap_cons, hv]
      rw [this, List.nodup_cons]
      exact ⟨fun hc => hnd.1 (nextLevel_subset_akeys tl k hc), htl⟩
    · have : nextLevel ((k, v) :: tl) = nextLevel tl := by
        simp [nextLevel, List.filterMap_cons, hv]
      rw [this]
      exact htl

theorem filter_length_lt (l : List String) (p : String → Bool) (x : String)
    (hx : x ∈ l) (hpx : p x = false) : (l.filter p).length < l.length := by
  induction l with
  | nil => cases hx
  | cons y ys ih =>
    rcases List.mem_cons.mp hx with hc | hc
    · subst hc
      rw [List.filter_cons, hpx]
      have := List.length_filter_le p ys
      simp only [List.length_cons, Bool.false_eq_true, if_false]
      omega
    · by_cases hy : p y
      · rw [List.filter_cons, if_pos (by simpa using hy)]
        have := ih hc
        simp only [List.length_cons]
        omega
      · rw [List.filter_cons, if_neg (by simpa using hy)]
        have := ih hc
        simp only [List.length_cons]
        omega

/-- Levels with the "all dependencies already emitted" property cover no
non-empty dependency-closed set: the core acyclicity argument. -/
theorem levels_acyclic (G : List (String × List String)) :
    ∀ (levels : List (List String)) (keys : List String),
    (∀ n ∈ keys, n ∈ levels.flatten) →
    (∀ i (hi : i < levels.length) n, n ∈ levels.get ⟨i, hi⟩ →
       ∀ d ∈ depsOf G n, d ∈ keys → d ∈ (levels.take i).flatten) →
    ∀ S : List String, S ≠ [] → (∀ n ∈ S, n ∈ keys) →
    ¬ (∀ n ∈ S, ∃ d ∈ depsOf G n, d ∈ S) := by
  intro levels
  induction levels with
  | nil =>
    intro keys hjoin _ S hS hSk _
    obtain ⟨s, hs⟩ := List.exists_mem_of_ne_nil S hS
    have := hjoin s (hSk s hs)
    simp at this
  | cons lvl rest ih =>
    intro keys hjoin hlev S hS hSk hclosed
    have hSnl : ∀ s ∈ S, s ∉ lvl := by
      intro s hs hsl
      obtain ⟨d, hd, hdS⟩ := hclosed s hs
      have h0 := hlev 0 (by simp) s hsl d hd (hSk d hdS)
      simp at h0
    refine ih (keys.filter (fun x => ! decide (x ∈ lvl))) ?_ ?_ S hS ?_ hclosed
    · intro n hn
      obtain ⟨hnk, hnl⟩ := List.mem_filter.mp hn
      have hnl2 : n ∉ lvl := by simpa using hnl
      have := hjoin n hnk
      simp only [List.flatten_cons, List.mem_append] at this
      rcases this with hc | hc
      · exact absurd hc hnl2
      · exact hc
    · intro i hi n hn d hd hdk
      obtain ⟨hdk2, hdl⟩ := List.mem_filter.mp hdk
      have hdl2 : d ∉ lvl := by simpa using hdl
      have := hlev (i + 1) (by simpa using Nat.succ_lt_succ hi) n (by simpa using hn) d hd hdk2
      simp only [List.take_succ_cons, List.flatten_cons, List.mem_append] at this
      rcases this with hc | hc
      · exact absurd hc hdl2
      · exact hc
    · intro n hn
      exact List.mem_filter.mpr ⟨hSk n hn, by simpa using hSnl n hn⟩

/-- Full characterisation of `topologicalLevels` (with fuel): with enough
fuel it always yields a result; a success partitions the remaining keys
into levels whose dependencies are all emitted earlier, and an error is
exactly the existence of a non-empty dependency-closed set. -/
theorem topoFuel_spec (G rev : List (String × List String)) (hrev : RevOK G rev) :
    ∀ (fuel : Nat) (ind : List (String × Int)), TopoInv G ind → ind.length < fuel →
    ∃ r, topoFuel rev fuel ind = some r ∧
      (∀ e, r = Except.error e → e = ResolveErr.dependencyGraphHasACycle) ∧
      (∀ levels, r = Except.ok levels →
        levels.flatten.Nodup ∧
        (∀ n, n ∈ levels.flatten ↔ n ∈ akeys ind) ∧
        (∀ lvl ∈ levels, lvl ≠ []) ∧
        (∀ i (hi : i < levels.length) n,
          n ∈ levels.get ⟨i, hi⟩ ↔
            n ∈ akeys ind ∧ n ∉ (levels.take i).flatten ∧
            ∀ d ∈ depsOf G n, d ∈ akeys ind → d ∈ (levels.take i).flatten)) ∧
      ((∃ e, r = Except.error e) ↔
        ∃ S : List String, S ≠ [] ∧ (∀ n ∈ S, n ∈ akeys ind) ∧
          ∀ n ∈ S, ∃ d ∈ depsOf G n, d ∈ S) := by
  intro fuel
  induction fuel with
  | zero =>
    intro ind _ h
    omega
  | succ fuel ih =>
    intro ind hinv hlen
    by_cases hempty : ind.isEmpty
    · have hnil : ind = [] := by
        cases ind with
        | nil => rfl
        | cons a b => simp [List.isEmpty] at hempty
      subst hnil
      refine ⟨.ok [], by simp [topoFuel], ?_, ?_, ?_⟩
      · intro e he
        exact Except.noConfusion he
      · intro levels hl
        have hl2 := Except.ok.inj hl
        subst hl2
        refine ⟨by simp, by simp [akeys], by simp, ?_⟩
        intro i hi
        simp at hi
      · constructor
        · rintro ⟨e, he⟩
          exact Except.noConfusion he
        · rintro ⟨S, hS, hSk, _⟩
          obtain ⟨s, hs⟩ := List.exists_mem_of_ne_nil S hS
          have := hSk s hs
          simp [akeys] at this
    · have hindne : ind ≠ [] := by
        intro h
        subst h
        simp at hempty
      have hnd := hinv.1
      have hlevmem : ∀ n, n ∈ nextLevel ind ↔ alookup ind n = some 0 := mem_nextLevel ind hnd
      by_cases hle : (nextLevel ind).isEmpty
      · have hnl : nextLevel ind = [] := by
          cases hxx : nextLevel ind with
          | nil => rfl
          | cons a b => rw [hxx] at hle; simp [List.isEmpty] at hle
        refine ⟨.error .dependencyGraphHasACycle, ?_, ?_, ?_, ?_⟩
        · simp only [topoFuel]
          rw [if_neg hempty, if_pos hle]
        · intro e he
          exact (Except.error.inj he).symm
        · intro levels hl
          exact Except.noConfusion hl
        · constructor
          · intro _
            refine ⟨akeys ind, ?_, fun n hn => hn, ?_⟩
            · intro hk
              apply hindne
              cases ind with
              | nil => rfl
              | cons a b => simp [akeys] at hk
            · intro n hn
              obtain ⟨d, hd⟩ := Option.isSome_iff_exists.mp ((mem_akeys_iff ind n).mp hn)
              have hv := hinv.2.1 n d hd
              have hne0 : d ≠ 0 := by
                intro h0
                subst h0
                have hmem0 : n ∈ nextLevel ind := (hlevmem n).mpr hd
                rw [hnl] at hmem0
                cases hmem0
              by_contra hno
              push_neg at hno
              have h0 : countIn (depsOf G n) (akeys ind) = 0 :=
                (countIn_eq_zero_iff _ _).mpr hno
              omega
          · intro _
            exact ⟨_, rfl⟩
      · have hlevne : nextLevel ind ≠ [] := by
          intro h
          rw [h] at hle
          simp at hle
        have hlevnd := nextLevel_nodup ind hnd
        have hlevzero : ∀ n ∈ nextLevel ind, alookup ind n = some 0 :=
          fun n hn => (hlevmem n).mp hn
        have hlevsub : ∀ n ∈ nextLevel ind, n ∈ akeys ind :=
          fun n hn => nextLevel_subset_akeys ind n hn
        obtain ⟨hkeysA, hinvA, hlookA⟩ :=
          applyLevel_spec G rev hrev (nextLevel ind) ind hinv hlevnd hlevzero
        have hlenA : (applyLevel ind rev (nextLevel ind)).length < ind.length := by
          have h1 : (akeys (applyLevel ind rev (nextLevel ind))).length <
              (akeys ind).length := by
            rw [hkeysA]
            obtain ⟨m, hm⟩ := List.exists_mem_of_ne_nil _ hlevne
            exact filter_length_lt (akeys ind) _ m (hlevsub m hm) (by simp [hm])
          simpa [akeys] using h1
        obtain ⟨r1, hr1eq, hr1err, hr1ok, hr1iff⟩ :=
          ih (applyLevel ind rev (nextLevel ind)) hinvA (by omega)
        have hstep : topoFuel rev (fuel + 1) ind =
            match topoFuel rev fuel (applyLevel ind rev (nextLevel ind)) with
            | none => none
            | some (.error e) => some (.error e)
            | some (.ok levels) => some (.ok (nextLevel ind :: levels)) := by
          simp only [topoFuel]
          rw [if_neg hempty, if_neg hle]
        have hmemA : ∀ n, n ∈ akeys (applyLevel ind rev (nextLevel ind)) ↔
            (n ∈ akeys ind ∧ n ∉ nextLevel ind) := by
          intro n
          rw [hkeysA]
          simp [List.mem_filter]
        cases r1 with
        | error e =>
          have he := hr1err e rfl
          subst he
          refine ⟨.error .dependencyGraphHasACycle, ?_, ?_, ?_, ?_⟩
          · rw [hstep, hr1eq]
          · intro e2 he2
            exact (Except.error.inj he2).symm
          · intro levels hl
            exact Except.noConfusion hl
          · constructor
            · intro _
              obtain ⟨S, hS, hSk, hSc⟩ := hr1iff.mp ⟨_, rfl⟩
              refine ⟨S, hS, ?_, hSc⟩
              intro n hn
              exact ((hmemA n).mp (hSk n hn)).1
            · intro _
              exact ⟨_, rfl⟩
        | ok levels1 =>
          obtain ⟨hnd1, hmem1, hne1, hidx1⟩ := hr1ok levels1 rfl
          have hOKnd : (nextLevel ind :: levels1).flatten.Nodup := by
            rw [List.flatten_cons]
            refine List.Nodup.append hlevnd hnd1 ?_
            intro a ha hb
            exact ((hmemA a).mp ((hmem1 a).mp hb)).2 ha
          have hOKmem : ∀ n, n ∈ (nextLevel ind :: levels1).flatten ↔ n ∈ akeys ind := by
            intro n
            rw [List.flatten_cons, List.mem_append, hmem1 n, hmemA n]
            constructor
            · rintro (h | h)
              · exact hlevsub n h
              · exact h.1
            · intro h
              by_cases hnl2 : n ∈ nextLevel ind
              · exact Or.inl hnl2
              · exact Or.inr ⟨h, hnl2⟩
          have hOKne : ∀ lvl ∈ (nextLevel ind :: levels1), lvl ≠ [] := by
            intro lvl hl
            rcases List.mem_cons.mp hl with hc | hc
            · rw [hc]
              exact hlevne
            · exact hne1 lvl hc
          have hOKidx : ∀ i (hi : i < (nextLevel ind :: levels1).length) n,
              n ∈ (nextLevel ind :: levels1).get ⟨i, hi⟩ ↔
                n ∈ akeys ind ∧ n ∉ ((nextLevel ind :: levels1).take i).flatten ∧
                ∀ d ∈ depsOf G n, d ∈ akeys ind →
                  d ∈ ((nextLevel ind :: levels1).take i).flatten := by
            intro i hi n
            cases i with
            | zero =>
              show n ∈ nextLevel ind ↔ _
              rw [hlevmem n]
              constructor
              · intro h0
                have hmemn : n ∈ akeys ind := by
                  rw [mem_akeys_iff, h0]
                  rfl
                refine ⟨hmemn, by simp, ?_⟩
                intro d hd hdk
                exfalso
                have hv := hinv.2.1 n 0 h0
                have hc0 : countIn (depsOf G n) (akeys ind) = 0 := by omega
                exact ((countIn_eq_zero_iff _ _).mp hc0) d hd hdk
              · rintro ⟨hk, _, hdeps⟩
                have hc0 : countIn (depsOf G n) (akeys ind) = 0 := by
                  refine (countIn_eq_zero_iff _ _).mpr ?_
                  intro d hd hdk
                  have := hdeps d hd hdk
                  simp at this
                obtain ⟨v, hv⟩ := Option.isSome_iff_exists.mp ((mem_akeys_iff ind n).mp hk)
                have hveq := hinv.2.1 n v hv
                have hv0 : v = 0 := by omega
                rw [hv0] at hv
                exact hv
            | succ j =>
              have hj : j < levels1.length := by
                simp only [List.length_cons] at hi
                omega
              have hget : (nextLevel ind :: levels1).get ⟨j + 1, hi⟩ =
                  levels1.get ⟨j, hj⟩ := rfl
              have htake : (nextLevel ind :: levels1).take (j + 1) =
                  nextLevel ind :: levels1.take j := rfl
              rw [hget, htake, List.flatten_cons, hidx1 j hj n]
              constructor
              · rintro ⟨hk1, hnJ, hdeps⟩
                obtain ⟨hka, hnl2⟩ := (hmemA n).mp hk1
                refine ⟨hka, ?_, ?_⟩
                · intro hc
                  rcases List.mem_append.mp hc with h | h
                  · exact hnl2 h
                  · exact hnJ h
                · intro d hd hdk
                  rw [List.mem_append]
                  by_cases hdl : d ∈ nextLevel ind
                  · exact Or.inl hdl
                  · exact Or.inr (hdeps d hd ((hmemA d).mpr ⟨hdk, hdl⟩))
              · rintro ⟨hka, hnlvlJ, hdeps⟩
                have hnl2 : n ∉ nextLevel ind :=
                  fun hc => hnlvlJ (List.mem_append.mpr (Or.inl hc))
                have hnJ : n ∉ (levels1.take j).flatten :=
                  fun hc => hnlvlJ (List.mem_append.mpr (Or.inr hc))
                refine ⟨(hmemA n).mpr ⟨hka, hnl2⟩, hnJ, ?_⟩
                intro d hd hdk1
                obtain ⟨hdka, hdl⟩ := (hmemA d).mp hdk1
                rcases List.mem_append.mp (hdeps d hd hdka) with h | h
                · exact absurd h hdl
                · exact h
          refine ⟨.ok (nextLevel ind :: levels1), ?_, ?_, ?_, ?_⟩
          · rw [hstep, hr1eq]
          · intro e he
            exact Except.noConfusion he
          · intro levels hl
            have hl2 := Except.ok.inj hl
            subst hl2
            exact ⟨hOKnd, hOKmem, hOKne, hOKidx⟩
          · constructor
            · rintro ⟨e, he⟩
              exact Except.noConfusion he
            · rintro ⟨S, hS, hSk, hSc⟩
              exact absurd hSc
                (levels_acyclic G (nextLevel ind :: levels1) (akeys ind)
                  (fun n hn => (hOKmem n).mpr hn)
                  (fun i hi n hn d hd hdk => ((hOKidx i hi n).mp hn).2.2 d hd hdk)
                  S hS hSk)

theorem akeys_append {α : Type} (xs ys : List (String × α)) :
    akeys (xs ++ ys) = akeys xs ++ akeys ys := List.map_append _ xs ys

theorem alookup_append_of_some {α : Type} (xs ys : List (String × α)) (k : String)
    (v : α) (h : alookup xs k = some v) : alookup (xs ++ ys) k = some v := by
  induction xs with
  | nil => cases h
  | cons hd tl ih =>
    obtain ⟨k2, w⟩ := hd
    by_cases hk : k2 = k
    · simp only [alookup, if_pos hk] at h
      simp only [List.cons_append, alookup, if_pos hk]
      exact h
    · simp only [alookup, if_neg hk] at h
      simp only [List.cons_append, alookup, if_neg hk]
      exact ih h

theorem alookup_append_of_none {α : Type} (xs ys : List (String × α)) (k : String)
    (h : alookup xs k = none) : alookup (xs ++ ys) k = alookup ys k := by
  induction xs with
  | nil => rfl
  | cons hd tl ih =>
    obtain ⟨k2, w⟩ := hd
    by_cases hk : k2 = k
    · simp only [alookup, if_pos hk] at h
      cases h
    · simp only [alookup, if_neg hk] at h
      simp only [List.cons_append, alookup, if_neg hk]
      exact ih h

theorem countS_replicate (c x : String) (k : Nat) :
    countS c (List.replicate k x) = if x = c then k else 0 := by
  induction k with
  | zero => simp [countS_nil]
  | succ k ih =>
    rw [List.replicate_succ, countS_cons, ih]
    by_cases h : x = c
    · subst h
      rw [if_pos rfl, if_pos rfl, if_pos rfl]
      omega
    · simp [h]

/-- Effect of the inner `buildDependencyIndex` loop over one node's
dependency list: the node's count grows by the number of dependencies,
new dependencies are registered with count 0, other entries are
untouched, and the node is appended to each dependency's reverse
adjacency once per occurrence. -/
theorem bdiInner_fold_spec (node : String) :
    ∀ (ds : List String) (ind : List (String × Int)) (rev : List (String × List String)),
    node ∈ akeys ind → (akeys ind).Nodup →
    (akeys (ds.foldl (bdiInner node) (ind, rev)).1).Nodup ∧
    (∀ n, n ∈ akeys (ds.foldl (bdiInner node) (ind, rev)).1 ↔ n ∈ akeys ind ∨ n ∈ ds) ∧
    (alookup (ds.foldl (bdiInner node) (ind, rev)).1 node =
      (alookup ind node).map (fun d => d + (ds.length : Int))) ∧
    (∀ n, n ≠ node → alookup (ds.foldl (bdiInner node) (ind, rev)).1 n =
      if n ∈ akeys ind then alookup ind n else if n ∈ ds then some 0 else none) ∧
    (∀ m, (alookup (ds.foldl (bdiInner node) (ind, rev)).2 m).getD [] =
      ((alookup rev m).getD []) ++ List.replicate (countS m ds) node) := by
  intro ds
  induction ds with
  | nil =>
    intro ind rev hmem hnd
    refine ⟨hnd, by simp, ?_, ?_, ?_⟩
    · cases h : alookup ind node <;> simp [h]
    · intro n hne
      have hfold0 : (List.foldl (bdiInner node) (ind, rev) []).1 = ind := rfl
      rw [hfold0]
      by_cases hn : n ∈ akeys ind
      · rw [if_pos hn]
      · rw [if_neg hn]
        simp only [List.not_mem_nil, if_false]
        cases h : alookup ind n with
        | none => rfl
        | some v => exact absurd ((mem_akeys_iff ind n).mpr (by rw [h]; rfl)) hn
    · intro m
      simp [countS_nil]
  | cons d ds2 ih =>
    intro ind rev hmem hnd
    obtain ⟨v0, hv0⟩ := Option.isSome_iff_exists.mp ((mem_akeys_iff ind node).mp hmem)
    have hfold : ((d :: ds2).foldl (bdiInner node) (ind, rev)) =
        ds2.foldl (bdiInner node) (bdiInner node (ind, rev) d) := rfl
    set ia := aset ind node (((alookup ind node).getD 0) + 1) with hia
    have hstep0 : bdiInner node (ind, rev) d =
        (if amem ia d then ia else aset ia d 0,
         aset rev d (((alookup rev d).getD []) ++ [node])) := rfl
    have hgA : (alookup ind node).getD 0 = v0 := by rw [hv0]; rfl
    have hkeysA : akeys ia = akeys ind :=
      akeys_aset_of_mem ind node _ (by rw [hv0]; rfl)
    have hndA : (akeys ia).Nodup := by rw [hkeysA]; exact hnd
    have hmemA2 : node ∈ akeys ia := by rw [hkeysA]; exact hmem
    have hlookA_node : alookup ia node = some (v0 + 1) := by
      rw [hia, alookup_aset, if_pos rfl, hgA]
    have hlookA_other : ∀ n, n ≠ node → alookup ia n = alookup ind n := by
      intro n hne
      rw [hia, alookup_aset, if_neg (fun h => hne h.symm)]
    by_cases hd2 : amem ia d
    · have hdmem : d ∈ akeys ind := by
        rw [← hkeysA]
        exact (mem_akeys_iff ia d).mpr hd2
      have hstep : bdiInner node (ind, rev) d =
          (ia, aset rev d (((alookup rev d).getD []) ++ [node])) := by
        rw [hstep0, if_pos hd2]
      obtain ⟨ih1, ih2, ih3, ih4, ih5⟩ :=
        ih ia (aset rev d (((alookup rev d).getD []) ++ [node])) hmemA2 hndA
      rw [hfold, hstep]
      refine ⟨ih1, ?_, ?_, ?_, ?_⟩
      · intro n
        rw [ih2 n, hkeysA, List.mem_cons]
        constructor
        · rintro (h | h)
          · exact Or.inl h
          · exact Or.inr (Or.inr h)
        · rintro (h | h | h)
          · exact Or.inl h
          · exact Or.inl (h ▸ hdmem)
          · exact Or.inr h
      · rw [ih3, hlookA_node, hv0]
        simp only [Option.map_some', Option.some.injEq, List.length_cons]
        push_cast
        ring
      · intro n hne
        rw [ih4 n hne, hkeysA, hlookA_other n hne]
        by_cases hn : n ∈ akeys ind
        · rw [if_pos hn, if_pos hn]
        · rw [if_neg hn, if_neg hn]
          have hnd3 : n ≠ d := fun he => hn (he ▸ hdmem)
          by_cases hns : n ∈ ds2
          · rw [if_pos hns, if_pos (List.mem_cons_of_mem d hns)]
          · rw [if_neg hns, if_neg (by simp [List.mem_cons, hnd3, hns])]
      · intro m
        rw [ih5 m, alookup_aset]
        by_cases hdm : d = m
        · subst hdm
          rw [if_pos rfl, countS_cons, if_pos rfl]
          simp only [Option.getD_some]
          rw [List.replicate_add, List.replicate_one, List.append_assoc]
        · rw [if_neg hdm, countS_cons, if_neg hdm]
          simp only [Nat.zero_add]
    · have hdnot : d ∉ akeys ind := by
        rw [← hkeysA]
        intro hc
        exact hd2 ((mem_akeys_iff ia d).mp hc)
      have hdnode : d ≠ node := fun he => hdnot (he ▸ hmem)
      have hlook_ia_d : alookup ia d = none := by
        cases h : alookup ia d with
        | none => rfl
        | some v =>
          exact absurd ((mem_akeys_iff ia d).mpr (by rw [h]; rfl))
            (by rw [hkeysA]; exact hdnot)
      have hstep : bdiInner node (ind, rev) d =
          (aset ia d 0, aset rev d (((alookup rev d).getD []) ++ [node])) := by
        rw [hstep0, if_neg hd2]
      have hkeys2 : akeys (aset ia d 0) = akeys ind ++ [d] := by
        rw [akeys_aset_of_not_mem ia d 0 hlook_ia_d, hkeysA]
      have hnd2 : (akeys (aset ia d 0)).Nodup := nodup_akeys_aset ia d 0 hndA
      have hmem2 : node ∈ akeys (aset ia d 0) := by
        rw [hkeys2]
        exact List.mem_append.mpr (Or.inl hmem)
      have hlook2_node : alookup (aset ia d 0) node = some (v0 + 1) := by
        rw [alookup_aset, if_neg hdnode, hlookA_node]
      have hlook2 : ∀ n, n ≠ node →
          alookup (aset ia d 0) n = if d = n then some 0 else alookup ind n := by
        intro n hne
        rw [alookup_aset]
        by_cases h : d = n
        · rw [if_pos h, if_pos h]
        · rw [if_neg h, if_neg h, hlookA_other n hne]
      obtain ⟨ih1, ih2, ih3, ih4, ih5⟩ :=
        ih (aset ia d 0) (aset rev d (((alookup rev d).getD []) ++ [node])) hmem2 hnd2
      rw [hfold, hstep]
      refine ⟨ih1, ?_, ?_, ?_, ?_⟩
      · intro n
        rw [ih2 n, hkeys2, List.mem_append, List.mem_singleton, List.mem_cons]
        constructor
        · rintro ((h | h) | h)
          · exact Or.inl h
          · exact Or.inr (Or.inl h)
          · exact Or.inr (Or.inr h)
        · rintro (h | h | h)
          · exact Or.inl (Or.inl h)
          · exact Or.inl (Or.inr h)
          · exact Or.inr h
      · rw [ih3, hlook2_node, hv0]
        simp only [Option.map_some', Option.some.injEq, List.length_cons]
        push_cast
        ring
      · intro n hne
        rw [ih4 n hne, hkeys2, hlook2 n hne]
        by_cases hn : n ∈ akeys ind
        · have hnd3 : ¬ d = n := fun he => hdnot (he ▸ hn)
          rw [if_neg hnd3, if_pos (List.mem_append.mpr (Or.inl hn)), if_pos hn]
        · rw [if_neg hn]
          by_cases hnd3 : d = n
          · rw [if_pos hnd3,
              if_pos (List.mem_append.mpr (Or.inr (List.mem_singleton.mpr hnd3.symm))),
              if_pos (hnd3 ▸ List.mem_cons_self d ds2)]
          · have hnotapp : n ∉ akeys ind ++ [d] := by
              intro hc
              rcases List.mem_append.mp hc with h | h
              · exact hn h
              · exact hnd3 (List.mem_singleton.mp h).symm
            rw [if_neg hnd3, if_neg hnotapp]
            by_cases hns : n ∈ ds2
            · rw [if_pos hns, if_pos (List.mem_cons_of_mem d hns)]
            · have hncons2 : n ∉ d :: ds2 := by
                intro hc
                rcases List.mem_cons.mp hc with h | h
                · exact hnd3 h.symm
                · exact hns h
              rw [if_neg hns, if_neg hncons2]
      · intro m
        rw [ih5 m, alookup_aset]
        by_cases hdm : d = m
        · subst hdm
          rw [if_pos rfl, countS_cons, if_pos rfl]
          simp only [Option.getD_some]
          rw [List.replicate_add, List.replicate_one, List.append_assoc]
        · rw [if_neg hdm, countS_cons, if_neg hdm]
          simp only [Nat.zero_add]

theorem isNodeOf_append_single (P : List (String × List String)) (node : String)
    (ds : List String) (n : String) :
    isNodeOf (P ++ [(node, ds)]) n ↔ isNodeOf P n ∨ n = node ∨ n ∈ ds := by
  unfold isNodeOf
  rw [akeys_append, List.mem_append]
  constructor
  · rintro ((h | h) | ⟨e, he, hn⟩)
    · exact Or.inl (Or.inl h)
    · exact Or.inr (Or.inl (List.mem_singleton.mp h))
    · rcases List.mem_append.mp he with he2 | he2
      · exact Or.inl (Or.inr ⟨e, he2, hn⟩)
      · have he3 : e = (node, ds) := List.mem_singleton.mp he2
        subst he3
        exact Or.inr (Or.inr hn)
  · rintro ((h | ⟨e, he, hn⟩) | h | h)
    · exact Or.inl (Or.inl h)
    · exact Or.inr ⟨e, List.mem_append.mpr (Or.inl he), hn⟩
    · exact Or.inl (Or.inr (by rw [h]; exact List.mem_singleton.mpr rfl))
    · exact Or.inr ⟨(node, ds), List.mem_append.mpr (Or.inr (List.mem_singleton.mpr rfl)), h⟩

theorem depsOf_append_single (P : List (String × List String)) (node : String)
    (ds : List String) (hnode : node ∉ akeys P) :
    depsOf (P ++ [(node, ds)]) node = ds ∧
    ∀ n, n ≠ node → depsOf (P ++ [(node, ds)]) n = depsOf P n := by
  have hnone : alookup P node = none := by
    cases h : alookup P node with
    | none => rfl
    | some l => exact absurd ((mem_akeys_iff P node).mpr (by rw [h]; rfl)) hnode
  constructor
  · unfold depsOf
    rw [alookup_append_of_none P _ node hnone]
    simp [alookup]
  · intro n hne
    unfold depsOf
    cases h : alookup P n with
    | some l => rw [alookup_append_of_some P _ n l h]
    | none =>
      rw [alookup_append_of_none P _ n h]
      have hne2 : ¬ node = n := fun h2 => hne h2.symm
      simp [alookup, hne2]

/-- The loop invariant of `buildDependencyIndex` after processing the
graph entries in `P`: the index keys are exactly the nodes of `P`, each
count is the node's dependency-list length, and the reverse adjacency
holds each dependent once per edge. -/
def BdiInv (P : List (String × List String))
    (acc : List (String × Int) × List (String × List String)) : Prop :=
  (akeys acc.1).Nodup ∧
  (∀ n, n ∈ akeys acc.1 ↔ isNodeOf P n) ∧
  (∀ n, n ∈ akeys acc.1 → alookup acc.1 n = some ((depsOf P n).length : Int)) ∧
  RevOK P acc.2

theorem bdiStep_one (P : List (String × List String))
    (acc : List (String × Int) × List (String × List String))
    (node : String) (ds : List String) (hnode : node ∉ akeys P)
    (hinv : BdiInv P acc) :
    BdiInv (P ++ [(node, ds)]) (bdiStep acc (node, ds)) := by
  obtain ⟨hnd, hmem, hval, hrev⟩ := hinv
  have hstep : bdiStep acc (node, ds) =
      ds.foldl (bdiInner node)
        (if amem acc.1 node then acc.1 else aset acc.1 node 0, acc.2) := rfl
  set ind0 := if amem acc.1 node then acc.1 else aset acc.1 node 0 with hind0
  have hdepsPnode : depsOf P node = [] := by
    unfold depsOf
    cases h : alookup P node with
    | none => rfl
    | some l => exact absurd ((mem_akeys_iff P node).mpr (by rw [h]; rfl)) hnode
  have hfacts : (akeys ind0).Nodup ∧ node ∈ akeys ind0 ∧
      (∀ n, n ∈ akeys ind0 ↔ n ∈ akeys acc.1 ∨ n = node) ∧
      alookup ind0 node = some 0 ∧
      (∀ n, n ≠ node → alookup ind0 n = alookup acc.1 n) := by
    by_cases h : amem acc.1 node
    · rw [hind0, if_pos h]
      have hmemn : node ∈ akeys acc.1 := (mem_akeys_iff acc.1 node).mpr h
      refine ⟨hnd, hmemn, ?_, ?_, fun n hne => rfl⟩
      · intro n
        constructor
        · exact Or.inl
        · rintro (hh | hh)
          · exact hh
          · rw [hh]
            exact hmemn
      · rw [hval node hmemn]
        simp [hdepsPnode]
    · have hnone : alookup acc.1 node = none := by
        cases hx : alookup acc.1 node with
        | none => rfl
        | some v => exact absurd (show amem acc.1 node = true by rw [amem, hx]; rfl) h
      rw [hind0, if_neg h]
      refine ⟨nodup_akeys_aset acc.1 node 0 hnd, ?_, ?_, ?_, ?_⟩
      · rw [akeys_aset_of_not_mem acc.1 node 0 hnone]
        exact List.mem_append.mpr (Or.inr (List.mem_singleton.mpr rfl))
      · intro n
        rw [akeys_aset_of_not_mem acc.1 node 0 hnone, List.mem_append, List.mem_singleton]
      · rw [alookup_aset, if_pos rfl]
      · intro n hne
        rw [alookup_aset, if_neg (fun hh => hne hh.symm)]
  obtain ⟨hnd0, hmem0, hkeys0, hlook0_node, hlook0_other⟩ := hfacts
  obtain ⟨hI1, hI2, hI3, hI4, hI5⟩ := bdiInner_fold_spec node ds ind0 acc.2 hmem0 hnd0
  rw [hstep]
  refine ⟨hI1, ?_, ?_, ?_⟩
  · intro n
    rw [hI2 n, isNodeOf_append_single, ← hmem n, hkeys0 n]
    tauto
  · intro n hn
    by_cases hne : n = node
    · subst hne
      rw [hI3, hlook0_node, (depsOf_append_single P n ds hnode).1]
      simp
    · rw [hI4 n hne]
      have hn2 := (hI2 n).mp hn
      rw [(depsOf_append_single P node ds hnode).2 n hne]
      by_cases hna : n ∈ akeys ind0
      · rw [if_pos hna]
        have hnacc : n ∈ akeys acc.1 := by
          rcases (hkeys0 n).mp hna with h | h
          · exact h
          · exact absurd h hne
        rw [hlook0_other n hne]
        exact hval n hnacc
      · rw [if_neg hna]
        have hnds : n ∈ ds := by
          rcases hn2 with h | h
          · exact absurd h hna
          · exact h
        rw [if_pos hnds]
        have hnacc : n ∉ akeys acc.1 := fun hc => hna ((hkeys0 n).mpr (Or.inl hc))
        have hnP : ¬ isNodeOf P n := fun hc => hnacc ((hmem n).mpr hc)
        have hdeps : depsOf P n = [] := by
          unfold depsOf
          cases h : alookup P n with
          | none => rfl
          | some l =>
            exact absurd (Or.inl ((mem_akeys_iff P n).mpr (by rw [h]; rfl))) hnP
        rw [hdeps]
        simp
  · intro m c
    rw [hI5 m, countS_append, countS_replicate]
    by_cases hc : c = node
    · subst hc
      rw [if_pos rfl, (depsOf_append_single P c ds hnode).1, hrev m c, hdepsPnode]
      simp [countS_nil]
    · rw [if_neg (fun h => hc h.symm), hrev m c,
        (depsOf_append_single P node ds hnode).2 c hc]
      omega

theorem bdiFold_spec :
    ∀ (rest P : List (String × List String))
      (acc : List (String × Int) × List (String × List String)),
    (akeys (P ++ rest)).Nodup → BdiInv P acc →
    BdiInv (P ++ rest) (rest.foldl bdiStep acc) := by
  intro rest
  induction rest with
  | nil =>
    intro P acc hnd hinv
    simpa using hinv
  | cons e rest2 ih =>
    intro P acc hnd hinv
    obtain ⟨node, ds⟩ := e
    have hassoc : P ++ (node, ds) :: rest2 = (P ++ [(node, ds)]) ++ rest2 := by
      simp
    have hnode : node ∉ akeys P := by
      have h2 := hnd
      rw [akeys_append, akeys_cons] at h2
      obtain ⟨hp, hq, hdisj⟩ := List.nodup_append.mp h2
      intro hc
      exact hdisj hc (List.mem_cons_self node (akeys rest2))
    rw [hassoc]
    apply ih (P ++ [(node, ds)]) (bdiStep acc (node, ds))
    · rw [← hassoc]
      exact hnd
    · exact bdiStep_one P acc node ds hnode hinv

theorem buildDependencyIndex_spec (G : List (String × List String))
    (hnd : (akeys G).Nodup) : BdiInv G (buildDependencyIndex G) := by
  have h0 : BdiInv [] (([] : List (String × Int)), ([] : List (String × List String))) := by
    refine ⟨List.nodup_nil, ?_, ?_, ?_⟩
    · intro n
      simp [akeys, isNodeOf]
    · intro n hn
      simp [akeys] at hn
    · intro m c
      simp [alookup, depsOf, countS_nil]
  have h1 := bdiFold_spec G [] ([], []) (by simpa using hnd) h0
  simpa [buildDependencyIndex] using h1

/-- Every dependency occurring in the graph is a node of the graph. -/
theorem depsOf_isNodeOf (G : List (String × List String)) (n d : String)
    (hd : d ∈ depsOf G n) : isNodeOf G d := by
  unfold depsOf at hd
  cases hg : alookup G n with
  | none => rw [hg] at hd; cases hd
  | some l =>
    rw [hg] at hd
    exact Or.inr ⟨(n, l), mem_of_alookup G n l hg, hd⟩

theorem countIn_eq_length (xs keys : List String) (h : ∀ x ∈ xs, x ∈ keys) :
    countIn xs keys = xs.length := by
  unfold countIn
  rw [List.filter_eq_self.mpr (fun a ha => by simpa using h a ha)]

/-- **C3.** For every dependency graph with unique keys,
`buildInstallLevels` visits each node (key or dependency) exactly once
and partitions the nodes into levels: the first level is exactly the
nodes with no dependencies, each level `i` is exactly the remaining
nodes all of whose dependencies were emitted in levels before `i`, and
the run fails — always with `dependencyGraphHasACycle` — exactly when
the graph contains a non-empty dependency-closed (cyclic) set of
nodes. -/
theorem buildInstallLevels_spec (G : List (String × List String))
    (hnd : (akeys G).Nodup) :
    (∀ levels, buildInstallLevels G = .ok levels →
      levels.flatten.Nodup ∧
      (∀ n, n ∈ levels.flatten ↔ isNodeOf G n) ∧
      (∀ lvl ∈ levels, lvl ≠ []) ∧
      (∀ n, n ∈ levels.headD [] ↔ isNodeOf G n ∧ depsOf G n = []) ∧
      (∀ i (hi : i < levels.length) n,
        n ∈ levels.get ⟨i, hi⟩ ↔
          isNodeOf G n ∧ n ∉ (levels.take i).flatten ∧
          ∀ d ∈ depsOf G n, d ∈ (levels.take i).flatten)) ∧
    (∀ e, buildInstallLevels G = .error e → e = ResolveErr.dependencyGraphHasACycle) ∧
    ((∃ e, buildInstallLevels G = .error e) ↔
      ∃ S : List String, S ≠ [] ∧ (∀ n ∈ S, isNodeOf G n) ∧
        ∀ n ∈ S, ∃ d ∈ depsOf G n, d ∈ S) := by
  rcases hbdi : buildDependencyIndex G with ⟨ind, rev⟩
  have hBdi := buildDependencyIndex_spec G hnd
  rw [hbdi] at hBdi
  have hbnd : (akeys ind).Nodup := hBdi.1
  have hbmem : ∀ n, n ∈ akeys ind ↔ isNodeOf G n := hBdi.2.1
  have hbval : ∀ n, n ∈ akeys ind → alookup ind n = some ((depsOf G n).length : Int) :=
    hBdi.2.2.1
  have hbrev : RevOK G rev := hBdi.2.2.2
  have hdepmem : ∀ n d, d ∈ depsOf G n → d ∈ akeys ind :=
    fun n d hd => (hbmem d).mpr (depsOf_isNodeOf G n d hd)
  have hlenq : ∀ n, countIn (depsOf G n) (akeys ind) = (depsOf G n).length :=
    fun n => countIn_eq_length _ _ (fun d hd => hdepmem n d hd)
  have hinv : TopoInv G ind := by
    refine ⟨hbnd, ?_, ?_⟩
    · intro n d hdl
      have hn : n ∈ akeys ind := (mem_akeys_iff ind n).mpr (by rw [hdl]; rfl)
      have hvn := hbval n hn
      rw [hdl] at hvn
      have hd2 := Option.some.inj hvn
      rw [hd2, hlenq n]
    · intro c hc _
      exact (mem_akeys_iff ind c).mp ((hbmem c).mpr (Or.inl hc))
  obtain ⟨r, heq, herr, hok, hiff⟩ :=
    topoFuel_spec G rev hbrev (ind.length + 1) ind hinv (by omega)
  have hbil : buildInstallLevels G = r := by
    simp only [buildInstallLevels, hbdi]
    rw [heq]
    rfl
  refine ⟨?_, ?_, ?_⟩
  · intro levels hl
    obtain ⟨h1, h2, h3, h4⟩ := hok levels (hbil.symm.trans hl)
    refine ⟨h1, ?_, h3, ?_, ?_⟩
    · intro n
      rw [h2 n, hbmem n]
    · intro n
      cases levels with
      | nil =>
        constructor
        · intro h
          simp at h
        · rintro ⟨hnode, _⟩
          exfalso
          have hmem2 := (h2 n).mpr ((hbmem n).mpr hnode)
          simp at hmem2
      | cons l0 rest =>
        have hi0 : 0 < (l0 :: rest).length := by simp
        have h40 := h4 0 hi0 n
        have hget0 : (l0 :: rest).get ⟨0, hi0⟩ = (l0 :: rest).headD [] := rfl
        rw [← hget0, h40]
        constructor
        · rintro ⟨hk, _, hdeps⟩
          refine ⟨(hbmem n).mp hk, ?_⟩
          cases hdp : depsOf G n with
          | nil => rfl
          | cons d0 rest2 =>
            exfalso
            have hd0 : d0 ∈ depsOf G n := by
              rw [hdp]
              exact List.mem_cons_self d0 rest2
            have hd1 := hdeps d0 hd0 (hdepmem n d0 hd0)
            simp at hd1
        · rintro ⟨hnode, hdeps0⟩
          refine ⟨(hbmem n).mpr hnode, by simp, ?_⟩
          intro d hd _
          rw [hdeps0] at hd
          cases hd
    · intro i hi n
      rw [h4 i hi n]
      constructor
      · rintro ⟨hk, hnj, hdeps⟩
        exact ⟨(hbmem n).mp hk, hnj, fun d hd => hdeps d hd (hdepmem n d hd)⟩
      · rintro ⟨hnode, hnj, hdeps⟩
        exact ⟨(hbmem n).mpr hnode, hnj, fun d hd _ => hdeps d hd⟩
  · intro e he
    exact herr e (hbil.symm.trans he)
  · rw [hbil, hiff]
    constructor
    · rintro ⟨S, hS, hSk, hSc⟩
      exact ⟨S, hS, fun n hn => (hbmem n).mp (hSk n hn), hSc⟩
    · rintro ⟨S, hS, hSk, hSc⟩
      exact ⟨S, hS, fun n hn => (hbmem n).mpr (hSk n hn), hSc⟩

/-! ## Resolver graph construction (`src/unnamed/part_018`, C2)

The three successful resolver paths all return a resolved map
(FQDN → collection) together with a dependency graph
(collection key → list of dependency keys):

* the full resolve builds the graph with `buildGraphFromDeps` and then
  `ensureGraphNodes`;
* the full snapshot reuse builds the resolved map with
  `buildResolvedSnapshot` and the graph with `filterGraphSnapshot`;
* the incremental reuse merges preserved and freshly resolved data with
  `mergeResolvedGraphs`, closes the graph with
  `expandGraphFromSnapshot` (a worklist loop, embedded with fuel), and
  accepts only when `validateMergedGraph` holds.

Go maps are association lists; map iteration visits the list in order
and the unique-key hypothesis `(akeys ·).Nodup` mirrors Go map
semantics. -/

/-- Split a character list at the first occurrence of `sep`
(`strings.SplitN(s, sep, 2)` for a one-character separator): `none`
when the separator does not occur. -/
def breakAtCh (sep : Char) : List Char → Option (List Char × List Char)
  | [] => none
  | c :: rest =>
    if c = sep then some ([], rest)
    else (breakAtCh sep rest).map (fun p => (c :: p.1, p.2))

/-- `splitCollectionKey`: split `"ns.name@version"` at the first `"@"`;
both parts must be non-empty. -/
def splitCollectionKey (key : String) : Except ResolveErr (String × String) :=
  match breakAtCh '@' key.data with
  | none => .error (.invalidCollectionKey key)
  | some (a, b) =>
    if a.isEmpty || b.isEmpty then .error (.invalidCollectionKey key)
    else .ok (String.mk a, String.mk b)

/-- `helpers.SplitFQDN`: trim, split on `"."`, require exactly two
non-empty parts. -/
def SplitFQDN (value : String) : Option (String × String) :=
  match goSplit (goTrim value) "." with
  | [a, b] => if goIsEmpty a || goIsEmpty b then none else some (a, b)
  | _ => none

/-- `store.ResolvedEntry`. -/
structure ResolvedEntry where
  version : String
  source : String
deriving DecidableEq

/-- Map one parent's dependency FQDNs to collection keys
(the inner loop of `buildGraphFromDeps`). -/
def depKeysOf (resolved : List (String × Collection)) :
    List String → Except ResolveErr (List String)
  | [] => .ok []
  | d :: rest =>
    match alookup resolved d with
    | none => .error (.missingResolvedDependency d)
    | some dc =>
      match depKeysOf resolved rest with
      | .error e => .error e
      | .ok ks => .ok (dc.key :: ks)

/-- `buildGraphFromDeps` (accumulator form of the Go loop over
`depsByParent`). -/
def buildGraphFromDepsAux (resolved : List (String × Collection))
    (acc : List (String × List String)) :
    List (String × List String) → Except ResolveErr (List (String × List String))
  | [] => .ok acc
  | (p, ds) :: rest =>
    match alookup resolved p with
    | none => .error (.missingResolvedParent p)
    | some pc =>
      match depKeysOf resolved ds with
      | .error e => .error e
      | .ok dkeys => buildGraphFromDepsAux resolved (aset acc pc.key dkeys) rest

/-- `buildGraphFromDeps`. -/
def buildGraphFromDeps (resolved : List (String × Collection))
    (depsByParent : List (String × List String)) :
    Except ResolveErr (List (String × List String)) :=
  buildGraphFromDepsAux resolved [] depsByParent

/-- `ensureGraphNodes`: give every resolved collection at least an
empty adjacency. -/
def ensureGraphNodes (resolved : List (String × Collection))
    (graph : List (String × List String)) : List (String × List String) :=
  resolved.foldl
    (fun g e => if amem g e.2.key then g else aset g e.2.key []) graph

/-- `buildResolvedSnapshot`: rebuild collections from snapshot entries;
empty versions and malformed FQDNs reject the snapshot. -/
def buildResolvedSnapshot (server : String) :
    List (String × ResolvedEntry) → Option (List (String × Collection))
  | [] => some []
  | (f, e) :: rest =>
    if e.version = "" then none
    else
      match SplitFQDN f with
      | none => none
      | some (ns, nm) =>
        match buildResolvedSnapshot server rest with
        | none => none
        | some acc =>
          some ((f, ⟨ns, nm, e.version, if e.source = "" then server else e.source⟩) :: acc)

/-- `filterGraphSnapshot`: keep only snapshot nodes whose key belongs
to a resolved collection, and filter each adjacency the same way. -/
def filterGraphSnapshot (graphSnapshot : List (String × List String))
    (resolved : List (String × Collection)) : List (String × List String) :=
  let validKeys := resolved.map (fun p => p.2.key)
  graphSnapshot.foldl
    (fun acc e =>
      if e.1 ∈ validKeys then aset acc e.1 (e.2.filter (· ∈ validKeys)) else acc)
    []

/-- `sameDeps`: multiset equality of two dependency lists. -/
def sameDeps (a b : List String) : Bool :=
  if a.length ≠ b.length then false
  else
    (b.foldl
      (fun st v =>
        match st with
        | none => none
        | some m =>
          if (alookup m v).getD 0 = 0 then none
          else some (aset m v (((alookup m v).getD 0) - 1)))
      (some (a.foldl (fun m v => aset m v (((alookup m v).getD 0) + 1)) [])
        : Option (List (String × Int)))).isSome

/-- The resolved-map half of `mergeResolvedGraphs`: later entries
overwrite, but a version conflict rejects the merge. -/
def mergeResolved (acc : List (String × Collection)) :
    List (String × Collection) → Option (List (String × Collection))
  | [] => some acc
  | (f, c) :: rest =>
    match alookup acc f with
    | some ex =>
      if ex.version ≠ c.version then none else mergeResolved (aset acc f c) rest
    | none => mergeResolved (aset acc f c) rest

/-- The graph half of `mergeResolvedGraphs`: an existing key keeps its
adjacency and must agree as a multiset. -/
def mergeGraph (acc : List (String × List String)) :
    List (String × List String) → Option (List (String × List String))
  | [] => some acc
  | (k, ds) :: rest =>
    match alookup acc k with
    | some ex => if sameDeps ex ds then mergeGraph acc rest else none
    | none => mergeGraph (aset acc k ds) rest

/-- `mergeResolvedGraphs`. -/
def mergeResolvedGraphs (preservedResolved : List (String × Collection))
    (preservedGraph : List (String × List String))
    (resolvedNew : List (String × Collection))
    (graphNew : List (String × List String)) :
    Option (List (String × Collection) × List (String × List String)) :=
  match mergeResolved preservedResolved resolvedNew with
  | none => none
  | some mr =>
    match mergeGraph preservedGraph graphNew with
    | none => none
    | some mg => some (mr, mg)

/-- `ensureResolvedFromSnapshot`: ensure the merged resolved map has an
entry matching a graph key, pulling it from the snapshot when new. -/
def ensureResolvedFromSnapshot (server : String)
    (mergedResolved : List (String × Collection))
    (resolvedSnap : List (String × ResolvedEntry)) (key : String) :
    Option (List (String × Collection)) :=
  match splitCollectionKey key with
  | .error _ => none
  | .ok (fqdn, version) =>
    match alookup mergedResolved fqdn with
    | some existing => if existing.version = version then some mergedResolved else none
    | none =>
      match alookup resolvedSnap fqdn with
      | none => none
      | some entry =>
        if entry.version ≠ version then none
        else
          match SplitFQDN fqdn with
          | none => none
          | some (ns, nm) =>
            some (aset mergedResolved fqdn
              ⟨ns, nm, version, if entry.source = "" then server else entry.source⟩)

/-- The dependency loop of one `expandGraphFromSnapshot` iteration:
missing dependencies are added from the snapshot graph, enqueued, and
given a resolved entry. -/
def expandDeps (server : String) (resolvedSnap : List (String × ResolvedEntry))
    (graphSnap : List (String × List String)) :
    List String →
    List (String × Collection) × List (String × List String) × List String →
    Option (List (String × Collection) × List (String × List String) × List String)
  | [], st => some st
  | dep :: rest, (mr, mg, q) =>
    if amem mg dep then expandDeps server resolvedSnap graphSnap rest (mr, mg, q)
    else
      match alookup graphSnap dep with
      | none => none
      | some depDeps =>
        match ensureResolvedFromSnapshot server mr resolvedSnap dep with
        | none => none
        | some mr2 =>
          expandDeps server resolvedSnap graphSnap rest
            (mr2, aset mg dep depDeps, q ++ [dep])

/-- The worklist loop of `expandGraphFromSnapshot`, with fuel. -/
def expandFuel (server : String) (resolvedSnap : List (String × ResolvedEntry))
    (graphSnap : List (String × List String)) :
    Nat → List String →
    List (String × Collection) × List (String × List String) →
    Option (List (String × Collection) × List (String × List String))
  | 0, _, _ => none
  | _ + 1, [], st => some st
  | fuel + 1, key :: qrest, (mr, mg) =>
    match expandDeps server resolvedSnap graphSnap ((alookup mg key).getD []) (mr, mg, []) with
    | none => none
    | some (mr2, mg2, newQ) => expandFuel server resolvedSnap graphSnap fuel (qrest ++ newQ) (mr2, mg2)

/-- `expandGraphFromSnapshot`: start from every merged-graph key. -/
def expandGraphFromSnapshot (server : String)
    (resolvedSnap : List (String × ResolvedEntry))
    (graphSnap : List (String × List String)) (fuel : Nat)
    (mergedResolved : List (String × Collection))
    (mergedGraph : List (String × List String)) :
    Option (List (String × Collection) × List (String × List String)) :=
  expandFuel server resolvedSnap graphSnap fuel (akeys mergedGraph)
    (mergedResolved, mergedGraph)

/-- `validateMergedGraph`: every graph key decomposes as
`fqdn@version` with a matching resolved entry. -/
def validateMergedGraph (mergedResolved : List (String × Collection))
    (mergedGraph : List (String × List String)) : Bool :=
  mergedGraph.all (fun e =>
    match splitCollectionKey e.1 with
    | .error _ => false
    | .ok (fqdn, version) =>
      match alookup mergedResolved fqdn with
      | none => false
      | some entry => entry.version = version)

/-- The resolver graph invariant of C2: graph keys decompose to
resolved entries of the same version, adjacency lists stay inside the
graph's key set, and every resolved entry owns a graph node. -/
def GraphInv (R : List (String × Collection)) (G : List (String × List String)) : Prop :=
  (∀ k, k ∈ akeys G → ∃ f v c, splitCollectionKey k = Except.ok (f, v) ∧
      alookup R f = some c ∧ c.version = v) ∧
  (∀ k ds, alookup G k = some ds → ∀ d ∈ ds, d ∈ akeys G) ∧
  (∀ f c, alookup R f = some c → c.key ∈ akeys G)

/-- A canonically keyed resolved entry: the map key is the
collection's `namespace.name`, the FQDN holds no `"@"`, and the
version is non-empty — the shape every resolver-produced map has. -/
def CanonEntry (f : String) (c : Collection) : Prop :=
  f = String.mk (c.ns.data ++ '.' :: c.name.data) ∧
  ¬ '@' ∈ c.ns.data ∧ ¬ '@' ∈ c.name.data ∧ c.version ≠ ""

/-- Join character lists with a separator character (the inverse of
`splitChFuel` for a one-character separator). -/
def charJoin (c : Char) : List (List Char) → List Char
  | [] => []
  | [x] => x
  | x :: y :: rest => x ++ c :: charJoin c (y :: rest)

theorem breakAtCh_append (sep : Char) (a b : List Char) (h : ¬ sep ∈ a) :
    breakAtCh sep (a ++ sep :: b) = some (a, b) := by
  induction a with
  | nil => simp [breakAtCh]
  | cons x xs ih =>
    have hx : ¬ x = sep := fun he => h (he ▸ List.mem_cons_self x xs)
    have hxs : ¬ sep ∈ xs := fun hc => h (List.mem_cons_of_mem x hc)
    simp [breakAtCh, hx, ih hxs]

theorem breakAtCh_eq (sep : Char) : ∀ (l a b : List Char),
    breakAtCh sep l = some (a, b) → l = a ++ sep :: b ∧ ¬ sep ∈ a := by
  intro l
  induction l with
  | nil =>
    intro a b h
    cases h
  | cons x xs ih =>
    intro a b h
    unfold breakAtCh at h
    by_cases hx : x = sep
    · rw [if_pos hx] at h
      have h2 := Option.some.inj h
      have ha : ([] : List Char) = a := congrArg Prod.fst h2
      have hb : xs = b := congrArg Prod.snd h2
      subst ha
      subst hb
      subst hx
      exact ⟨rfl, by simp⟩
    · rw [if_neg hx] at h
      cases hrec : breakAtCh sep xs with
      | none =>
        rw [hrec] at h
        cases h
      | some p =>
        obtain ⟨p1, p2⟩ := p
        rw [hrec] at h
        simp only [Option.map_some'] at h
        have h2 := Option.some.inj h
        have ha : x :: p1 = a := congrArg Prod.fst h2
        have hb : p2 = b := congrArg Prod.snd h2
        subst ha
        subst hb
        obtain ⟨hxs2, hnot⟩ := ih p1 p2 hrec
        refine ⟨by rw [hxs2]; rfl, ?_⟩
        intro hc
        rcases List.mem_cons.mp hc with hc2 | hc2
        · exact hx hc2.symm
        · exact hnot hc2

theorem splitCollectionKey_key (c : Collection) (hns : ¬ '@' ∈ c.ns.data)
    (hnm : ¬ '@' ∈ c.name.data) (hv : c.version ≠ "") :
    splitCollectionKey c.key =
      Except.ok (String.mk (c.ns.data ++ '.' :: c.name.data), c.version) := by
  have hat : ¬ '@' ∈ c.ns.data ++ '.' :: c.name.data := by
    intro hc
    rcases List.mem_append.mp hc with h | h
    · exact hns h
    · rcases List.mem_cons.mp h with h2 | h2
      · cases h2
      · exact hnm h2
  have hdata : (c.key).data = (c.ns.data ++ '.' :: c.name.data) ++ '@' :: c.version.data := by
    show c.ns.data ++ '.' :: c.name.data ++ '@' :: c.version.data = _
    simp [List.cons_append, List.append_assoc]
  have hvd : c.version.data ≠ [] := by
    intro h0
    apply hv
    have h1 : c.version = String.mk c.version.data := rfl
    rw [h1, h0]
  have hne1 : (c.ns.data ++ '.' :: c.name.data).isEmpty = false := by
    cases h : c.ns.data <;> simp [h]
  have hne2 : c.version.data.isEmpty = false := by
    cases h : c.version.data with
    | nil => exact absurd h hvd
    | cons a b => simp [h]
  simp only [splitCollectionKey, hdata, breakAtCh_append _ _ _ hat, hne1, hne2,
    Bool.or_self, Bool.false_or, Bool.or_false, if_false]
  rfl

theorem splitChFuel_ne_nil (sep : List Char) :
    ∀ fuel l acc, splitChFuel sep fuel l acc ≠ [] := by
  intro fuel
  induction fuel with
  | zero =>
    intro l acc
    simp [splitChFuel]
  | succ fuel ih =>
    intro l acc
    cases l with
    | nil => simp [splitChFuel]
    | cons x xs =>
      unfold splitChFuel
      by_cases hx : sep.isPrefixOf (x :: xs)
      · rw [if_pos hx]
        simp
      · rw [if_neg hx]
        exact ih xs (x :: acc)

theorem charJoin_splitChFuel (c : Char) :
    ∀ fuel l acc, l.length < fuel →
    charJoin c (splitChFuel [c] fuel l acc) = acc.reverse ++ l := by
  intro fuel
  induction fuel with
  | zero =>
    intro l acc h
    omega
  | succ fuel ih =>
    intro l acc h
    cases l with
    | nil => simp [splitChFuel, charJoin]
    | cons x xs =>
      unfold splitChFuel
      by_cases hx : [c].isPrefixOf (x :: xs)
      · rw [if_pos hx]
        have hcx : c = x := by
          simpa [List.isPrefixOf] using hx
        have hih := ih xs [] (by simp at h; omega)
        have hne := splitChFuel_ne_nil [c] fuel ((x :: xs).drop [c].length) []
        have hdrop : (x :: xs).drop [c].length = xs := rfl
        rw [hdrop] at hne ⊢
        cases hL : splitChFuel [c] fuel xs [] with
        | nil => exact absurd hL hne
        | cons l1 ls =>
          rw [hL] at hih
          have hjoin : charJoin c (acc.reverse :: l1 :: ls) =
              acc.reverse ++ c :: charJoin c (l1 :: ls) := rfl
          rw [hjoin, hih]
          simp [hcx]
      · rw [if_neg hx]
        have hih := ih xs (x :: acc) (by simp at h ⊢; omega)
        rw [hih]
        simp

theorem goSplit_two (s : String) (a b : String) (c : Char)
    (h : goSplit s (String.mk [c]) = [a, b]) : s.data = a.data ++ c :: b.data := by
  unfold goSplit at h
  have hj := charJoin_splitChFuel c (s.data.length + 1) s.data [] (by omega)
  cases hL : splitChFuel (String.mk [c]).data (s.data.length + 1) s.data [] with
  | nil =>
    rw [hL] at h
    cases h
  | cons l1 ls =>
    have hL2 : splitChFuel [c] (s.data.length + 1) s.data [] = l1 :: ls := hL
    rw [hL2] at hj
    rw [hL] at h
    cases ls with
    | nil => simp at h
    | cons l2 ls2 =>
      cases ls2 with
      | nil =>
        simp only [List.map] at h
        have h1 : String.mk l1 = a := by
          have := congrArg (fun l => l.headD "") h
          simpa using this
        have h2 : String.mk l2 = b := by
          have := congrArg (fun l => (l.drop 1).headD "") h
          simpa using this
        have hjoin : charJoin c [l1, l2] = l1 ++ c :: l2 := rfl
        rw [hjoin] at hj
        simp only [List.reverse_nil, List.nil_append] at hj
        rw [← hj, ← h1, ← h2]
      | cons l3 ls3 =>
        simp at h

theorem SplitFQDN_eq (f ns nm : String) (htrim : goTrim f = f)
    (h : SplitFQDN f = some (ns, nm)) :
    f.data = ns.data ++ '.' :: nm.data ∧ ns ≠ "" ∧ nm ≠ "" := by
  unfold SplitFQDN at h
  rw [htrim] at h
  cases hsp : goSplit f "." with
  | nil =>
    rw [hsp] at h
    exact Option.noConfusion h
  | cons a tl =>
    cases tl with
    | nil =>
      rw [hsp] at h
      exact Option.noConfusion h
    | cons b tl2 =>
      cases tl2 with
      | cons c2 tl3 =>
        rw [hsp] at h
        exact Option.noConfusion h
      | nil =>
        rw [hsp] at h
        have h3 : (if (goIsEmpty a || goIsEmpty b) = true then none
            else some (a, b)) = some (ns, nm) := h
        by_cases he : goIsEmpty a || goIsEmpty b
        · rw [if_pos he] at h3
          exact Option.noConfusion h3
        · rw [if_neg he] at h3
          have h2 := Option.some.inj h3
          have ha : a = ns := congrArg Prod.fst h2
          have hb : b = nm := congrArg Prod.snd h2
          subst ha
          subst hb
          have hsplit := goSplit_two f a b '.' hsp
          refine ⟨hsplit, ?_, ?_⟩
          · intro h0
            subst h0
            simp [goIsEmpty] at he
          · intro h0
            subst h0
            simp [goIsEmpty] at he

theorem depKeysOf_spec (resolved : List (String × Collection)) :
    ∀ (ds ks : List String), depKeysOf resolved ds = .ok ks →
    ∀ k ∈ ks, ∃ d dc, alookup resolved d = some dc ∧ k = dc.key := by
  intro ds
  induction ds with
  | nil =>
    intro ks h k hk
    have h2 : ([] : List String) = ks := Except.ok.inj h
    subst h2
    cases hk
  | cons d rest ih =>
    intro ks h k hk
    unfold depKeysOf at h
    cases hdl : alookup resolved d with
    | none =>
      rw [hdl] at h
      cases h
    | some dc =>
      rw [hdl] at h
      cases hrec : depKeysOf resolved rest with
      | error e =>
        rw [hrec] at h
        cases h
      | ok ks2 =>
        rw [hrec] at h
        have h2 : dc.key :: ks2 = ks := Except.ok.inj h
        subst h2
        rcases List.mem_cons.mp hk with hc | hc
        · exact ⟨d, dc, hdl, hc⟩
        · exact ih ks2 hrec k hc

theorem buildGraphFromDepsAux_spec (resolved : List (String × Collection)) :
    ∀ (dbp : List (String × List String)) (acc g : List (String × List String)),
    buildGraphFromDepsAux resolved acc dbp = .ok g →
    (∀ k, k ∈ akeys g →
      k ∈ akeys acc ∨ ∃ p pc, alookup resolved p = some pc ∧ k = pc.key) ∧
    (∀ k ds, alookup g k = some ds →
      alookup acc k = some ds ∨
      ∀ d ∈ ds, ∃ d0 dc, alookup resolved d0 = some dc ∧ d = dc.key) := by
  intro dbp
  induction dbp with
  | nil =>
    intro acc g h
    have h2 : acc = g := Except.ok.inj h
    subst h2
    exact ⟨fun k hk => Or.inl hk, fun k ds hl => Or.inl hl⟩
  | cons e rest ih =>
    intro acc g h
    obtain ⟨p, ds⟩ := e
    unfold buildGraphFromDepsAux at h
    cases hpl : alookup resolved p with
    | none =>
      rw [hpl] at h
      cases h
    | some pc =>
      rw [hpl] at h
      cases hdk : depKeysOf resolved ds with
      | error e2 =>
        rw [hdk] at h
        cases h
      | ok dkeys =>
        rw [hdk] at h
        obtain ⟨ihk, ihv⟩ := ih (aset acc pc.key dkeys) g h
        constructor
        · intro k hk
          rcases ihk k hk with hc | hc
          · by_cases hq : (alookup acc pc.key).isSome
            · rw [akeys_aset_of_mem acc pc.key dkeys hq] at hc
              exact Or.inl hc
            · have hnone : alookup acc pc.key = none := by
                cases hx : alookup acc pc.key with
                | none => rfl
                | some v => rw [hx] at hq; exact absurd rfl hq
              rw [akeys_aset_of_not_mem acc pc.key dkeys hnone] at hc
              rcases List.mem_append.mp hc with hc2 | hc2
              · exact Or.inl hc2
              · exact Or.inr ⟨p, pc, hpl, List.mem_singleton.mp hc2⟩
          · exact Or.inr hc
        · intro k ds2 hl
          rcases ihv k ds2 hl with hc | hc
          · rw [alookup_aset] at hc
            by_cases hq : pc.key = k
            · rw [if_pos hq] at hc
              have hds : dkeys = ds2 := Option.some.inj hc
              subst hds
              exact Or.inr (fun d hd => depKeysOf_spec resolved ds dkeys hdk d hd)
            · rw [if_neg hq] at hc
              exact Or.inl hc
          · exact Or.inr hc

theorem ensureGraphNodes_spec :
    ∀ (rs : List (String × Collection)) (g : List (String × List String)),
    (∀ k v, alookup g k = some v → alookup (ensureGraphNodes rs g) k = some v) ∧
    (∀ e ∈ rs, e.2.key ∈ akeys (ensureGraphNodes rs g)) ∧
    (∀ k, k ∈ akeys (ensureGraphNodes rs g) → k ∈ akeys g ∨ ∃ e ∈ rs, k = e.2.key) ∧
    (∀ k ds, alookup (ensureGraphNodes rs g) k = some ds →
      alookup g k = some ds ∨ ds = []) := by
  intro rs
  induction rs with
  | nil =>
    intro g
    refine ⟨fun k v h => h, ?_, fun k hk => Or.inl hk, fun k ds h => Or.inl h⟩
    intro e he
    cases he
  | cons e rest ih =>
    intro g
    have hstep : ensureGraphNodes (e :: rest) g =
        ensureGraphNodes rest (if amem g e.2.key then g else aset g e.2.key []) := rfl
    obtain ⟨ih1, ih2, ih3, ih4⟩ :=
      ih (if amem g e.2.key then g else aset g e.2.key [])
    have hpres : ∀ k v, alookup g k = some v →
        alookup (if amem g e.2.key then g else aset g e.2.key []) k = some v := by
      intro k v hv
      by_cases hq : amem g e.2.key
      · rw [if_pos hq]
        exact hv
      · rw [if_neg hq]
        rw [alookup_aset]
        have hne : ¬ e.2.key = k := by
          intro he2
          rw [he2] at hq
          exact hq (by rw [amem, hv]; rfl)
        rw [if_neg hne]
        exact hv
    have hmem : e.2.key ∈ akeys (if amem g e.2.key then g else aset g e.2.key []) := by
      by_cases hq : amem g e.2.key
      · rw [if_pos hq]
        exact (mem_akeys_iff g e.2.key).mpr hq
      · rw [if_neg hq]
        rw [mem_akeys_iff, alookup_aset, if_pos rfl]
        rfl
    rw [hstep]
    refine ⟨?_, ?_, ?_, ?_⟩
    · intro k v hv
      exact ih1 k v (hpres k v hv)
    · intro e2 he2
      rcases List.mem_cons.mp he2 with hc | hc
      · subst hc
        obtain ⟨v, hv⟩ := Option.isSome_iff_exists.mp
          ((mem_akeys_iff _ e2.2.key).mp hmem)
        exact (mem_akeys_iff _ e2.2.key).mpr (by rw [ih1 e2.2.key v hv]; rfl)
      · exact ih2 e2 hc
    · intro k hk
      rcases ih3 k hk with hc | hc
      · by_cases hq : amem g e.2.key
        · rw [if_pos hq] at hc
          exact Or.inl hc
        · rw [if_neg hq] at hc
          have hnone : alookup g e.2.key = none := by
            cases hx : alookup g e.2.key with
            | none => rfl
            | some v => rw [amem, hx] at hq; exact absurd rfl hq
          rw [akeys_aset_of_not_mem g e.2.key [] hnone] at hc
          rcases List.mem_append.mp hc with hc2 | hc2
          · exact Or.inl hc2
          · exact Or.inr ⟨e, List.mem_cons_self e rest, (List.mem_singleton.mp hc2)⟩
      · obtain ⟨e2, he2, hke⟩ := hc
        exact Or.inr ⟨e2, List.mem_cons_of_mem e he2, hke⟩
    · intro k ds hl
      rcases ih4 k ds hl with hc | hc
      · by_cases hq : amem g e.2.key
        · rw [if_pos hq] at hc
          exact Or.inl hc
        · rw [if_neg hq] at hc
          rw [alookup_aset] at hc
          by_cases he2 : e.2.key = k
          · rw [if_pos he2] at hc
            exact Or.inr (Option.some.inj hc).symm
          · rw [if_neg he2] at hc
            exact Or.inl hc
      · exact Or.inr hc

/-- The full-resolve path: `buildGraphFromDeps` followed by
`ensureGraphNodes` establishes the resolver graph invariant. -/
theorem buildGraph_inv (resolved : List (String × Collection))
    (depsByParent : List (String × List String)) (g0 : List (String × List String))
    (hnd : (akeys resolved).Nodup)
    (hcanon : ∀ p ∈ resolved, CanonEntry p.1 p.2)
    (hok : buildGraphFromDeps resolved depsByParent = .ok g0) :
    GraphInv resolved (ensureGraphNodes resolved g0) := by
  obtain ⟨hkeys0, hvals0⟩ :=
    buildGraphFromDepsAux_spec resolved depsByParent [] g0 hok
  obtain ⟨hE1, hE2, hE3, hE4⟩ := ensureGraphNodes_spec resolved g0
  refine ⟨?_, ?_, ?_⟩
  · intro k hk
    have hsrc : ∃ p pc, alookup resolved p = some pc ∧ k = pc.key := by
      rcases hE3 k hk with h | ⟨e, he, hke⟩
      · rcases hkeys0 k h with h2 | h2
        · simp [akeys] at h2
        · exact h2
      · exact ⟨e.1, e.2, alookup_of_mem_nodup resolved e.1 e.2 he hnd, hke⟩
    obtain ⟨p, pc, hpl, hkeq⟩ := hsrc
    have hpc_mem := mem_of_alookup resolved p pc hpl
    obtain ⟨hfeq, hns, hnm, hv⟩ := hcanon (p, pc) hpc_mem
    subst hkeq
    refine ⟨String.mk (pc.ns.data ++ '.' :: pc.name.data), pc.version, pc,
      splitCollectionKey_key pc hns hnm hv, ?_, rfl⟩
    rw [← hfeq]
    exact hpl
  · intro k ds hlk d hd
    rcases hE4 k ds hlk with h | h
    · rcases hvals0 k ds h with h2 | h2
      · simp [alookup] at h2
      · obtain ⟨d0, dc, hdl, hdeq⟩ := h2 d hd
        subst hdeq
        exact hE2 (d0, dc) (mem_of_alookup resolved d0 dc hdl)
    · subst h
      cases hd
  · intro f c hlc
    exact hE2 (f, c) (mem_of_alookup resolved f c hlc)

theorem mem_akeys_aset_of_mem {α : Type} (m : List (String × α)) (k k2 : String) (v : α)
    (h : k ∈ akeys m) : k ∈ akeys (aset m k2 v) := by
  by_cases hq : (alookup m k2).isSome
  · rw [akeys_aset_of_mem m k2 v hq]
    exact h
  · have hnone : alookup m k2 = none := by
      cases hx : alookup m k2 with
      | none => rfl
      | some w => rw [hx] at hq; exact absurd rfl hq
    rw [akeys_aset_of_not_mem m k2 v hnone]
    exact List.mem_append.mpr (Or.inl h)

theorem buildResolvedSnapshot_spec (server : String) :
    ∀ (snap : List (String × ResolvedEntry)) (R : List (String × Collection)),
    buildResolvedSnapshot server snap = some R →
    akeys R = akeys snap ∧
    ∀ p ∈ R, ∃ e, (p.1, e) ∈ snap ∧ SplitFQDN p.1 = some (p.2.ns, p.2.name) ∧
      p.2.version = e.version ∧ p.2.version ≠ "" := by
  intro snap
  induction snap with
  | nil =>
    intro R h
    have h2 : ([] : List (String × Collection)) = R := Option.some.inj h
    subst h2
    exact ⟨rfl, fun p hp => absurd hp (List.not_mem_nil p)⟩
  | cons fe rest ih =>
    intro R h
    obtain ⟨f, e⟩ := fe
    unfold buildResolvedSnapshot at h
    by_cases hv : e.version = ""
    · rw [if_pos hv] at h
      cases h
    · rw [if_neg hv] at h
      cases hsf : SplitFQDN f with
      | none =>
        rw [hsf] at h
        cases h
      | some p2 =>
        obtain ⟨ns, nm⟩ := p2
        rw [hsf] at h
        cases hrec : buildResolvedSnapshot server rest with
        | none =>
          rw [hrec] at h
          cases h
        | some acc =>
          rw [hrec] at h
          have h2 : (f, (⟨ns, nm, e.version,
              if e.source = "" then server else e.source⟩ : Collection)) :: acc = R :=
            Option.some.inj h
          subst h2
          obtain ⟨ihk, ihm⟩ := ih acc hrec
          constructor
          · rw [akeys_cons, akeys_cons, ihk]
          · intro p hp
            rcases List.mem_cons.mp hp with hc | hc
            · subst hc
              exact ⟨e, List.mem_cons_self _ _, hsf, rfl, hv⟩
            · obtain ⟨e2, he2, hsf2, hv2, hv3⟩ := ihm p hc
              exact ⟨e2, List.mem_cons_of_mem _ he2, hsf2, hv2, hv3⟩

theorem buildResolvedSnapshot_canon (server : String)
    (snap : List (String × ResolvedEntry)) (R : List (String × Collection))
    (hsnap : ∀ p ∈ snap, goTrim p.1 = p.1 ∧ ¬ '@' ∈ p.1.data)
    (hok : buildResolvedSnapshot server snap = some R) :
    ∀ p ∈ R, CanonEntry p.1 p.2 := by
  intro p hp
  obtain ⟨_, hmem⟩ := buildResolvedSnapshot_spec server snap R hok
  obtain ⟨e, hin, hsf, hev, hvne⟩ := hmem p hp
  obtain ⟨htrim, hat⟩ := hsnap (p.1, e) hin
  obtain ⟨hdata, hns0, hnm0⟩ := SplitFQDN_eq p.1 p.2.ns p.2.name htrim hsf
  refine ⟨?_, ?_, ?_, hvne⟩
  · have heta : p.1 = String.mk p.1.data := rfl
    rw [heta, hdata]
  · intro hc
    exact hat (by rw [hdata]; exact List.mem_append.mpr (Or.inl hc))
  · intro hc
    exact hat (by
      rw [hdata]
      exact List.mem_append.mpr (Or.inr (List.mem_cons_of_mem _ hc)))

theorem filterGraphSnapshot_aux (vk : List String) :
    ∀ (gs acc : List (String × List String)),
    (∀ k, k ∈ akeys (gs.foldl
        (fun acc2 e => if e.1 ∈ vk then aset acc2 e.1 (e.2.filter (· ∈ vk)) else acc2)
        acc) →
      k ∈ akeys acc ∨ (k ∈ vk ∧ k ∈ akeys gs)) ∧
    (∀ k, k ∈ akeys acc → k ∈ akeys (gs.foldl
        (fun acc2 e => if e.1 ∈ vk then aset acc2 e.1 (e.2.filter (· ∈ vk)) else acc2)
        acc)) ∧
    (∀ k, k ∈ akeys gs → k ∈ vk → k ∈ akeys (gs.foldl
        (fun acc2 e => if e.1 ∈ vk then aset acc2 e.1 (e.2.filter (· ∈ vk)) else acc2)
        acc)) ∧
    (∀ k out, alookup (gs.foldl
        (fun acc2 e => if e.1 ∈ vk then aset acc2 e.1 (e.2.filter (· ∈ vk)) else acc2)
        acc) k = some out →
      alookup acc k = some out ∨ ∀ d ∈ out, d ∈ vk) := by
  intro gs
  induction gs with
  | nil =>
    intro acc
    exact ⟨fun k hk => Or.inl hk, fun k hk => hk, fun k hk => absurd hk (by simp [akeys]),
      fun k out h => Or.inl h⟩
  | cons e0 rest ih =>
    intro acc
    obtain ⟨k0, ds0⟩ := e0
    simp only [List.foldl_cons]
    obtain ⟨ih1, ih2, ih3, ih4⟩ :=
      ih (if k0 ∈ vk then aset acc k0 (ds0.filter (· ∈ vk)) else acc)
    refine ⟨?_, ?_, ?_, ?_⟩
    · intro k hk
      rcases ih1 k hk with hc | ⟨hcv, hcg⟩
      · by_cases hq : k0 ∈ vk
        · rw [if_pos hq] at hc
          by_cases hm : (alookup acc k0).isSome
          · rw [akeys_aset_of_mem acc k0 _ hm] at hc
            exact Or.inl hc
          · have hnone : alookup acc k0 = none := by
              cases hx : alookup acc k0 with
              | none => rfl
              | some w => rw [hx] at hm; exact absurd rfl hm
            rw [akeys_aset_of_not_mem acc k0 _ hnone] at hc
            rcases List.mem_append.mp hc with hc2 | hc2
            · exact Or.inl hc2
            · have hkk : k = k0 := List.mem_singleton.mp hc2
              subst hkk
              exact Or.inr ⟨hq, by rw [akeys_cons]; exact List.mem_cons_self _ _⟩
        · rw [if_neg hq] at hc
          exact Or.inl hc
      · exact Or.inr ⟨hcv, by rw [akeys_cons]; exact List.mem_cons_of_mem _ hcg⟩
    · intro k hk
      apply ih2
      by_cases hq : k0 ∈ vk
      · rw [if_pos hq]
        exact mem_akeys_aset_of_mem acc k k0 _ hk
      · rw [if_neg hq]
        exact hk
    · intro k hk hkv
      rw [akeys_cons] at hk
      rcases List.mem_cons.mp hk with hc | hc
      · subst hc
        apply ih2
        rw [if_pos hkv]
        by_cases hm : (alookup acc k).isSome
        · rw [akeys_aset_of_mem acc k _ hm]
          exact (mem_akeys_iff acc k).mpr hm
        · have hnone : alookup acc k = none := by
            cases hx : alookup acc k with
            | none => rfl
            | some w => rw [hx] at hm; exact absurd rfl hm
          rw [akeys_aset_of_not_mem acc k _ hnone]
          exact List.mem_append.mpr (Or.inr (List.mem_singleton.mpr rfl))
      · exact ih3 k hc hkv
    · intro k out h
      rcases ih4 k out h with hc | hc
      · by_cases hq : k0 ∈ vk
        · rw [if_pos hq] at hc
          rw [alookup_aset] at hc
          by_cases hkk : k0 = k
          · rw [if_pos hkk] at hc
            have : ds0.filter (· ∈ vk) = out := Option.some.inj hc
            subst this
            refine Or.inr ?_
            intro d hd
            have := List.of_mem_filter hd
            simpa using this
          · rw [if_neg hkk] at hc
            exact Or.inl hc
        · rw [if_neg hq] at hc
          exact Or.inl hc
      · exact Or.inr hc

/-- The full-snapshot-reuse path: `buildResolvedSnapshot` followed by
`filterGraphSnapshot` establishes the resolver graph invariant when
the snapshot FQDNs are canonical and the snapshot graph covers every
resolved collection's key. -/
theorem snapshotReuse_inv (server : String) (snap : List (String × ResolvedEntry))
    (graphSnap : List (String × List String)) (R : List (String × Collection))
    (hnds : (akeys snap).Nodup)
    (hsnap : ∀ p ∈ snap, goTrim p.1 = p.1 ∧ ¬ '@' ∈ p.1.data)
    (hok : buildResolvedSnapshot server snap = some R)
    (hcover : ∀ p ∈ R, p.2.key ∈ akeys graphSnap) :
    GraphInv R (filterGraphSnapshot graphSnap R) := by
  have hkeysR : akeys R = akeys snap := (buildResolvedSnapshot_spec server snap R hok).1
  have hndR : (akeys R).Nodup := by
    rw [hkeysR]
    exact hnds
  have hcanonR := buildResolvedSnapshot_canon server snap R hsnap hok
  obtain ⟨hF1, hF2, hF3, hF4⟩ := filterGraphSnapshot_aux (R.map (fun p => p.2.key)) graphSnap []
  have hfilter : filterGraphSnapshot graphSnap R = graphSnap.foldl
      (fun acc2 e => if e.1 ∈ R.map (fun p => p.2.key)
        then aset acc2 e.1 (e.2.filter (· ∈ R.map (fun p => p.2.key))) else acc2)
      [] := rfl
  refine ⟨?_, ?_, ?_⟩
  · intro k hk
    rw [hfilter] at hk
    rcases hF1 k hk with hc | ⟨hcv, _⟩
    · simp [akeys] at hc
    · obtain ⟨p, hp, hkeq⟩ := List.mem_map.mp hcv
      obtain ⟨hfeq, hns, hnm, hv⟩ := hcanonR p hp
      subst hkeq
      refine ⟨String.mk (p.2.ns.data ++ '.' :: p.2.name.data), p.2.version, p.2,
        splitCollectionKey_key p.2 hns hnm hv, ?_, rfl⟩
      rw [← hfeq]
      exact alookup_of_mem_nodup R p.1 p.2 (by
        cases p
        exact hp) hndR
  · intro k ds hlk d hd
    rw [hfilter] at hlk
    rcases hF4 k ds hlk with hc | hc
    · simp [alookup] at hc
    · have hdv := hc d hd
      obtain ⟨p, hp, hkeq⟩ := List.mem_map.mp hdv
      rw [hfilter]
      exact hF3 d (hkeq ▸ hcover p hp) hdv
  · intro f c hlc
    have hmem := mem_of_alookup R f c hlc
    have hkv : c.key ∈ R.map (fun p => p.2.key) :=
      List.mem_map.mpr ⟨(f, c), hmem, rfl⟩
    rw [hfilter]
    exact hF3 c.key (hcover (f, c) hmem) hkv

theorem splitCollectionKey_eq (key f v : String)
    (h : splitCollectionKey key = .ok (f, v)) :
    key.data = f.data ++ '@' :: v.data := by
  unfold splitCollectionKey at h
  cases hb : breakAtCh '@' key.data with
  | none =>
    rw [hb] at h
    cases h
  | some p =>
    obtain ⟨a, b⟩ := p
    rw [hb] at h
    have h2 : (if a.isEmpty || b.isEmpty
        then (Except.error (ResolveErr.invalidCollectionKey key) : Except ResolveErr (String × String))
        else .ok (String.mk a, String.mk b)) = .ok (f, v) := h
    by_cases he : a.isEmpty || b.isEmpty
    · rw [if_pos he] at h2
      cases h2
    · rw [if_neg he] at h2
      have h3 := Except.ok.inj h2
      have ha : String.mk a = f := congrArg Prod.fst h3
      have hb2 : String.mk b = v := congrArg Prod.snd h3
      obtain ⟨hkey, _⟩ := breakAtCh_eq '@' key.data a b hb
      rw [hkey, ← ha, ← hb2]

theorem ensureResolvedFromSnapshot_spec (server : String)
    (resolvedSnap : List (String × ResolvedEntry))
    (hsnap : ∀ p ∈ resolvedSnap, goTrim p.1 = p.1)
    (mr : List (String × Collection)) (key : String) (mr2 : List (String × Collection))
    (h : ensureResolvedFromSnapshot server mr resolvedSnap key = some mr2) :
    (∀ f c, alookup mr f = some c → alookup mr2 f = some c) ∧
    (∀ f c, alookup mr2 f = some c → alookup mr f = some c ∨ c.key = key) := by
  unfold ensureResolvedFromSnapshot at h
  cases hsk : splitCollectionKey key with
  | error e =>
    rw [hsk] at h
    cases h
  | ok p =>
    obtain ⟨fqdn, version⟩ := p
    rw [hsk] at h
    have h4 : (match alookup mr fqdn with
        | some existing => if existing.version = version then some mr else none
        | none =>
          match alookup resolvedSnap fqdn with
          | none => none
          | some entry =>
            if entry.version ≠ version then none
            else
              match SplitFQDN fqdn with
              | none => none
              | some (ns, nm) =>
                some (aset mr fqdn ⟨ns, nm, version,
                  if entry.source = "" then server else entry.source⟩)) = some mr2 := h
    clear h
    cases hex : alookup mr fqdn with
    | some existing =>
      rw [hex] at h4
      have h5 : (if existing.version = version then some mr else none) = some mr2 := h4
      by_cases hv : existing.version = version
      · rw [if_pos hv] at h5
        have h2 : mr = mr2 := Option.some.inj h5
        subst h2
        exact ⟨fun f c hc => hc, fun f c hc => Or.inl hc⟩
      · rw [if_neg hv] at h5
        cases h5
    | none =>
      rw [hex] at h4
      have h5 : (match alookup resolvedSnap fqdn with
          | none => none
          | some entry =>
            if entry.version ≠ version then none
            else
              match SplitFQDN fqdn with
              | none => none
              | some (ns, nm) =>
                some (aset mr fqdn ⟨ns, nm, version,
                  if entry.source = "" then server else entry.source⟩)) = some mr2 := h4
      clear h4
      cases hse : alookup resolvedSnap fqdn with
      | none =>
        rw [hse] at h5
        cases h5
      | some entry =>
        rw [hse] at h5
        have h6 : (if entry.version ≠ version then none
            else
              match SplitFQDN fqdn with
              | none => none
              | some (ns, nm) =>
                some (aset mr fqdn ⟨ns, nm, version,
                  if entry.source = "" then server else entry.source⟩)) = some mr2 := h5
        clear h5
        by_cases hv : entry.version ≠ version
        · rw [if_pos hv] at h6
          cases h6
        · rw [if_neg hv] at h6
          cases hsf : SplitFQDN fqdn with
          | none =>
            rw [hsf] at h6
            cases h6
          | some p2 =>
            obtain ⟨ns, nm⟩ := p2
            rw [hsf] at h6
            have h7 : some (aset mr fqdn ⟨ns, nm, version,
                if entry.source = "" then server else entry.source⟩) = some mr2 := h6
            have h2 : aset mr fqdn
                ⟨ns, nm, version, if entry.source = "" then server else entry.source⟩ = mr2 :=
              Option.some.inj h7
            subst h2
            constructor
            · intro f c hc
              rw [alookup_aset]
              have hne : ¬ fqdn = f := by
                intro he
                rw [he] at hex
                rw [hex] at hc
                cases hc
              rw [if_neg hne]
              exact hc
            · intro f c hc
              rw [alookup_aset] at hc
              by_cases he : fqdn = f
              · rw [if_pos he] at hc
                have hceq := Option.some.inj hc
                refine Or.inr ?_
                subst hceq
                have htrim := hsnap (fqdn, entry) (mem_of_alookup resolvedSnap fqdn entry hse)
                obtain ⟨hdata, _, _⟩ := SplitFQDN_eq fqdn ns nm htrim hsf
                have hkeyd := splitCollectionKey_eq key fqdn version hsk
                have heta : key = String.mk key.data := rfl
                rw [heta, hkeyd, hdata]
                simp [Collection.key, List.cons_append, List.append_assoc]
              · rw [if_neg he] at hc
                exact Or.inl hc

theorem expandDeps_spec (server : String) (resolvedSnap : List (String × ResolvedEntry))
    (graphSnap : List (String × List String))
    (hsnap : ∀ p ∈ resolvedSnap, goTrim p.1 = p.1) :
    ∀ (ds : List String) (mr : List (String × Collection))
      (mg : List (String × List String)) (q : List String)
      (mrA : List (String × Collection)) (mgA : List (String × List String))
      (qA : List String),
    expandDeps server resolvedSnap graphSnap ds (mr, mg, q) = some (mrA, mgA, qA) →
    (∀ k v, alookup mg k = some v → alookup mgA k = some v) ∧
    (∀ f c, alookup mr f = some c → alookup mrA f = some c) ∧
    (∀ d ∈ ds, d ∈ akeys mgA) ∧
    (∀ k, k ∈ akeys mgA → k ∈ akeys mg ∨ k ∈ qA) ∧
    (∀ x ∈ q, x ∈ qA) ∧
    (∀ f c, alookup mrA f = some c → alookup mr f = some c ∨ c.key ∈ akeys mgA) := by
  intro ds
  induction ds with
  | nil =>
    intro mr mg q mrA mgA qA h
    have h2 := Option.some.inj h
    have hmr : mr = mrA := congrArg (fun t => t.1) h2
    have hmg : mg = mgA := congrArg (fun t => t.2.1) h2
    have hq : q = qA := congrArg (fun t => t.2.2) h2
    subst hmr
    subst hmg
    subst hq
    exact ⟨fun k v hv => hv, fun f c hc => hc, fun d hd => absurd hd (List.not_mem_nil d),
      fun k hk => Or.inl hk, fun x hx => hx, fun f c hc => Or.inl hc⟩
  | cons dep rest ih =>
    intro mr mg q mrA mgA qA h
    unfold expandDeps at h
    by_cases hin : amem mg dep
    · rw [if_pos hin] at h
      obtain ⟨ih1, ih2, ih3, ih4, ih5, ih6⟩ := ih mr mg q mrA mgA qA h
      refine ⟨ih1, ih2, ?_, ih4, ih5, ih6⟩
      intro d hd
      rcases List.mem_cons.mp hd with hc | hc
      · subst hc
        obtain ⟨v, hv⟩ := Option.isSome_iff_exists.mp hin
        exact (mem_akeys_iff _ _).mpr (by rw [ih1 d v hv]; rfl)
      · exact ih3 d hc
    · rw [if_neg hin] at h
      have hdepnone : alookup mg dep = none := by
        cases hx : alookup mg dep with
        | none => rfl
        | some v => rw [amem, hx] at hin; exact absurd rfl hin
      cases hgl : alookup graphSnap dep with
      | none =>
        rw [hgl] at h
        cases h
      | some depDeps =>
        rw [hgl] at h
        cases hen : ensureResolvedFromSnapshot server mr resolvedSnap dep with
        | none =>
          rw [hen] at h
          cases h
        | some mr2 =>
          rw [hen] at h
          obtain ⟨e1, e2⟩ :=
            ensureResolvedFromSnapshot_spec server resolvedSnap hsnap mr dep mr2 hen
          obtain ⟨ih1, ih2, ih3, ih4, ih5, ih6⟩ :=
            ih mr2 (aset mg dep depDeps) (q ++ [dep]) mrA mgA qA h
          have hmemA : dep ∈ akeys mgA := by
            have hl : alookup (aset mg dep depDeps) dep = some depDeps := by
              rw [alookup_aset, if_pos rfl]
            exact (mem_akeys_iff _ _).mpr (by rw [ih1 dep depDeps hl]; rfl)
          refine ⟨?_, ?_, ?_, ?_, ?_, ?_⟩
          · intro k v hv
            apply ih1
            rw [alookup_aset]
            have hne : ¬ dep = k := by
              intro he
              rw [he] at hdepnone
              rw [hdepnone] at hv
              cases hv
            rw [if_neg hne]
            exact hv
          · intro f c hc
            exact ih2 f c (e1 f c hc)
          · intro d hd
            rcases List.mem_cons.mp hd with hc | hc
            · subst hc
              exact hmemA
            · exact ih3 d hc
          · intro k hk
            rcases ih4 k hk with hc | hc
            · rw [akeys_aset_of_not_mem mg dep depDeps hdepnone] at hc
              rcases List.mem_append.mp hc with hc2 | hc2
              · exact Or.inl hc2
              · have hkd : k = dep := List.mem_singleton.mp hc2
                subst hkd
                exact Or.inr
                  (ih5 k (List.mem_append.mpr (Or.inr (List.mem_singleton.mpr rfl))))
            · exact Or.inr hc
          · intro x hx
            exact ih5 x (List.mem_append.mpr (Or.inl hx))
          · intro f c hc
            rcases ih6 f c hc with hc2 | hc2
            · rcases e2 f c hc2 with hc3 | hc3
              · exact Or.inl hc3
              · refine Or.inr ?_
                rw [hc3]
                exact hmemA
            · exact Or.inr hc2

theorem expandFuel_spec (server : String) (resolvedSnap : List (String × ResolvedEntry))
    (graphSnap : List (String × List String))
    (hsnap : ∀ p ∈ resolvedSnap, goTrim p.1 = p.1) :
    ∀ (fuel : Nat) (queue : List String) (mr : List (String × Collection))
      (mg : List (String × List String)) (mr2 : List (String × Collection))
      (mg2 : List (String × List String)),
    expandFuel server resolvedSnap graphSnap fuel queue (mr, mg) = some (mr2, mg2) →
    (∀ f c, alookup mr f = some c → c.key ∈ akeys mg) →
    (∀ k, k ∈ akeys mg → (∀ d ∈ (alookup mg k).getD [], d ∈ akeys mg) ∨ k ∈ queue) →
    (∀ f c, alookup mr2 f = some c → c.key ∈ akeys mg2) ∧
    (∀ k ds, alookup mg2 k = some ds → ∀ d ∈ ds, d ∈ akeys mg2) := by
  intro fuel
  induction fuel with
  | zero =>
    intro queue mr mg mr2 mg2 h
    cases h
  | succ fuel ih =>
    intro queue mr mg mr2 mg2 h hInvC hInvB
    cases queue with
    | nil =>
      have h2 := Option.some.inj h
      have hmr : mr = mr2 := congrArg Prod.fst h2
      have hmg : mg = mg2 := congrArg Prod.snd h2
      subst hmr
      subst hmg
      refine ⟨hInvC, ?_⟩
      intro k ds hl d hd
      have hk : k ∈ akeys mg := (mem_akeys_iff mg k).mpr (by rw [hl]; rfl)
      rcases hInvB k hk with hcomp | hq
      · rw [hl] at hcomp
        exact hcomp d hd
      · cases hq
    | cons key qrest =>
      unfold expandFuel at h
      cases hed : expandDeps server resolvedSnap graphSnap
          ((alookup mg key).getD []) (mr, mg, []) with
      | none =>
        rw [hed] at h
        cases h
      | some t =>
        obtain ⟨mrA, mgA, newQ⟩ := t
        rw [hed] at h
        obtain ⟨d1, d2, d3, d4, d5, d6⟩ :=
          expandDeps_spec server resolvedSnap graphSnap hsnap
            ((alookup mg key).getD []) mr mg [] mrA mgA newQ hed
        have hmono : ∀ k2, k2 ∈ akeys mg → k2 ∈ akeys mgA := by
          intro k2 hk2
          obtain ⟨v, hv⟩ := Option.isSome_iff_exists.mp ((mem_akeys_iff mg k2).mp hk2)
          exact (mem_akeys_iff _ _).mpr (by rw [d1 k2 v hv]; rfl)
        have hInvC2 : ∀ f c, alookup mrA f = some c → c.key ∈ akeys mgA := by
          intro f c hc
          rcases d6 f c hc with hc2 | hc2
          · exact hmono _ (hInvC f c hc2)
          · exact hc2
        have hInvB2 : ∀ k2, k2 ∈ akeys mgA →
            (∀ d ∈ (alookup mgA k2).getD [], d ∈ akeys mgA) ∨ k2 ∈ qrest ++ newQ := by
          intro k2 hk2
          rcases d4 k2 hk2 with hc | hc
          · rcases hInvB k2 hc with hcomp | hq
            · refine Or.inl ?_
              obtain ⟨v, hv⟩ := Option.isSome_iff_exists.mp ((mem_akeys_iff mg k2).mp hc)
              rw [d1 k2 v hv]
              rw [hv] at hcomp
              intro d hd
              exact hmono d (hcomp d hd)
            · rcases List.mem_cons.mp hq with hq2 | hq2
              · subst hq2
                refine Or.inl ?_
                obtain ⟨v, hv⟩ := Option.isSome_iff_exists.mp ((mem_akeys_iff mg k2).mp hc)
                rw [d1 k2 v hv]
                intro d hd
                apply d3
                rw [hv]
                exact hd
              · exact Or.inr (List.mem_append.mpr (Or.inl hq2))
          · exact Or.inr (List.mem_append.mpr (Or.inr hc))
        exact ih (qrest ++ newQ) mrA mgA mr2 mg2 h hInvC2 hInvB2

theorem mergeResolved_spec :
    ∀ (news : List (String × Collection)) (acc m : List (String × Collection)),
    mergeResolved acc news = some m →
    ∀ f c, alookup m f = some c → alookup acc f = some c ∨ (f, c) ∈ news := by
  intro news
  induction news with
  | nil =>
    intro acc m h f c hc
    have h2 : acc = m := Option.some.inj h
    subst h2
    exact Or.inl hc
  | cons e rest ih =>
    intro acc m h f c hc
    obtain ⟨f0, c0⟩ := e
    unfold mergeResolved at h
    have hnext : mergeResolved (aset acc f0 c0) rest = some m := by
      cases hex : alookup acc f0 with
      | some ex =>
        rw [hex] at h
        have h4 : (if ex.version ≠ c0.version then none
            else mergeResolved (aset acc f0 c0) rest) = some m := h
        by_cases hv : ex.version ≠ c0.version
        · rw [if_pos hv] at h4
          cases h4
        · rw [if_neg hv] at h4
          exact h4
      | none =>
        rw [hex] at h
        exact h
    rcases ih (aset acc f0 c0) m hnext f c hc with hc2 | hc2
    · rw [alookup_aset] at hc2
      by_cases he : f0 = f
      · rw [if_pos he] at hc2
        have : c0 = c := Option.some.inj hc2
        subst this
        subst he
        exact Or.inr (List.mem_cons_self _ _)
      · rw [if_neg he] at hc2
        exact Or.inl hc2
    · exact Or.inr (List.mem_cons_of_mem _ hc2)

theorem mergeGraph_spec :
    ∀ (news : List (String × List String)) (acc m : List (String × List String)),
    mergeGraph acc news = some m →
    (∀ k, k ∈ akeys acc → k ∈ akeys m) ∧ (∀ e ∈ news, e.1 ∈ akeys m) := by
  intro news
  induction news with
  | nil =>
    intro acc m h
    have h2 : acc = m := Option.some.inj h
    subst h2
    exact ⟨fun k hk => hk, fun e he => absurd he (List.not_mem_nil e)⟩
  | cons e0 rest ih =>
    intro acc m h
    obtain ⟨k0, ds0⟩ := e0
    unfold mergeGraph at h
    cases hex : alookup acc k0 with
    | some ex =>
      rw [hex] at h
      have h4 : (if sameDeps ex ds0 then mergeGraph acc rest else none) = some m := h
      by_cases hs : sameDeps ex ds0
      · rw [if_pos hs] at h4
        obtain ⟨ih1, ih2⟩ := ih acc m h4
        refine ⟨ih1, ?_⟩
        intro e he
        rcases List.mem_cons.mp he with hc | hc
        · subst hc
          exact ih1 k0 ((mem_akeys_iff acc k0).mpr (by rw [hex]; rfl))
        · exact ih2 e hc
      · rw [if_neg hs] at h4
        cases h4
    | none =>
      rw [hex] at h
      obtain ⟨ih1, ih2⟩ := ih (aset acc k0 ds0) m h
      refine ⟨?_, ?_⟩
      · intro k hk
        exact ih1 k (mem_akeys_aset_of_mem acc k k0 ds0 hk)
      · intro e he
        rcases List.mem_cons.mp he with hc | hc
        · subst hc
          apply ih1
          rw [mem_akeys_iff, alookup_aset, if_pos rfl]
          rfl
        · exact ih2 e hc

theorem validateMergedGraph_spec (mr : List (String × Collection))
    (mg : List (String × List String)) (h : validateMergedGraph mr mg = true) :
    ∀ k, k ∈ akeys mg → ∃ f v c, splitCollectionKey k = Except.ok (f, v) ∧
      alookup mr f = some c ∧ c.version = v := by
  intro k hk
  obtain ⟨e, he, hke⟩ := List.mem_map.mp hk
  have hall := List.all_eq_true.mp h e he
  cases hsk : splitCollectionKey e.1 with
  | error e2 =>
    rw [validateMergedGraph] at h
    simp only [hsk] at hall
    cases hall
  | ok p =>
    obtain ⟨f, v⟩ := p
    simp only [hsk] at hall
    cases hlk : alookup mr f with
    | none =>
      simp only [hlk] at hall
      cases hall
    | some c =>
      simp only [hlk] at hall
      have hv : c.version = v := by
        have := of_decide_eq_true hall
        exact this
      subst hke
      exact ⟨f, v, c, hsk, hlk, hv⟩

/-- The incremental path: merging preserved and freshly resolved data,
expanding from the snapshot, and passing `validateMergedGraph`
establishes the resolver graph invariant. -/
theorem incrementalReuse_inv (server : String)
    (resolvedSnap : List (String × ResolvedEntry))
    (graphSnap : List (String × List String))
    (pr : List (String × Collection)) (pg : List (String × List String))
    (rn : List (String × Collection)) (gn : List (String × List String))
    (mr0 : List (String × Collection)) (mg0 : List (String × List String))
    (mr : List (String × Collection)) (mg : List (String × List String)) (fuel : Nat)
    (hsnap : ∀ p ∈ resolvedSnap, goTrim p.1 = p.1)
    (hpr : ∀ f c, alookup pr f = some c → c.key ∈ akeys pg)
    (hrn : ∀ p ∈ rn, p.2.key ∈ akeys gn)
    (hmerge : mergeResolvedGraphs pr pg rn gn = some (mr0, mg0))
    (hexpand : expandGraphFromSnapshot server resolvedSnap graphSnap fuel mr0 mg0 =
      some (mr, mg))
    (hvalid : validateMergedGraph mr mg = true) :
    GraphInv mr mg := by
  have hmr0 : mergeResolved pr rn = some mr0 ∧ mergeGraph pg gn = some mg0 := by
    unfold mergeResolvedGraphs at hmerge
    cases h1 : mergeResolved pr rn with
    | none =>
      rw [h1] at hmerge
      cases hmerge
    | some a =>
      rw [h1] at hmerge
      cases h2 : mergeGraph pg gn with
      | none =>
        rw [h2] at hmerge
        cases hmerge
      | some b =>
        rw [h2] at hmerge
        have h3 := Option.some.inj hmerge
        have ha : a = mr0 := congrArg Prod.fst h3
        have hb : b = mg0 := congrArg Prod.snd h3
        subst ha
        subst hb
        exact ⟨rfl, rfl⟩
  obtain ⟨hmres, hmgr⟩ := hmr0
  obtain ⟨hg1, hg2⟩ := mergeGraph_spec gn pg mg0 hmgr
  have hInvC0 : ∀ f c, alookup mr0 f = some c → c.key ∈ akeys mg0 := by
    intro f c hc
    rcases mergeResolved_spec rn pr mr0 hmres f c hc with hc2 | hc2
    · exact hg1 c.key (hpr f c hc2)
    · have hkg := hrn (f, c) hc2
      obtain ⟨e, he, hke⟩ := List.mem_map.mp hkg
      rw [← hke]
      exact hg2 e he
  obtain ⟨hC, hB⟩ := expandFuel_spec server resolvedSnap graphSnap hsnap fuel
    (akeys mg0) mr0 mg0 mr mg hexpand hInvC0 (fun k hk => Or.inr hk)
  exact ⟨validateMergedGraph_spec mr mg hvalid, hB, hC⟩

instance canonEntryDecidable (f : String) (c : Collection) :
    Decidable (CanonEntry f c) := by
  unfold CanonEntry
  infer_instance

/-- **C2.** On every successful resolver run the returned resolved map
`R` and graph `G` satisfy the resolver graph invariant: every graph key
`"ns.name@v"` splits into an FQDN with a resolved entry of version `v`,
every dependency key in any adjacency list is itself a graph key, and
every resolved entry has a (possibly empty) adjacency.  The three
conjuncts cover the three paths — full resolve
(`buildGraphFromDeps` + `ensureGraphNodes`), full snapshot reuse
(`buildResolvedSnapshot` + `filterGraphSnapshot`), and incremental
reuse (`mergeResolvedGraphs` + `expandGraphFromSnapshot` +
`validateMergedGraph`) — under the well-formedness the program's own
records guarantee: resolved maps are keyed by the collection's
canonical `namespace.name` (no `"@"`, non-empty version), snapshot
FQDNs are trimmed, and persisted graphs cover their resolved
entries. -/
theorem resolverPaths_graphInv :
    (∀ (resolved : List (String × Collection)) (depsByParent g0 : List (String × List String)),
      (akeys resolved).Nodup →
      (∀ p ∈ resolved, CanonEntry p.1 p.2) →
      buildGraphFromDeps resolved depsByParent = .ok g0 →
      GraphInv resolved (ensureGraphNodes resolved g0)) ∧
    (∀ (server : String) (snap : List (String × ResolvedEntry))
       (graphSnap : List (String × List String)) (R : List (String × Collection)),
      (akeys snap).Nodup →
      (∀ p ∈ snap, goTrim p.1 = p.1 ∧ ¬ '@' ∈ p.1.data) →
      buildResolvedSnapshot server snap = some R →
      (∀ p ∈ R, p.2.key ∈ akeys graphSnap) →
      GraphInv R (filterGraphSnapshot graphSnap R)) ∧
    (∀ (server : String) (resolvedSnap : List (String × ResolvedEntry))
       (graphSnap pg gn : List (String × List String))
       (pr rn mr0 mr : List (String × Collection))
       (mg0 mg : List (String × List String)) (fuel : Nat),
      (∀ p ∈ resolvedSnap, goTrim p.1 = p.1) →
      (∀ f c, alookup pr f = some c → c.key ∈ akeys pg) →
      (∀ p ∈ rn, p.2.key ∈ akeys gn) →
      mergeResolvedGraphs pr pg rn gn = some (mr0, mg0) →
      expandGraphFromSnapshot server resolvedSnap graphSnap fuel mr0 mg0 = some (mr, mg) →
      validateMergedGraph mr mg = true →
      GraphInv mr mg) :=
  ⟨fun resolved dbp g0 h1 h2 h3 => buildGraph_inv resolved dbp g0 h1 h2 h3,
   fun server snap gs R h1 h2 h3 h4 => snapshotReuse_inv server snap gs R h1 h2 h3 h4,
   fun server rs gs pg gn pr rn mr0 mr mg0 mg fuel h1 h2 h3 h4 h5 h6 =>
     incrementalReuse_inv server rs gs pr pg rn gn mr0 mg0 mr mg fuel h1 h2 h3 h4 h5 h6⟩

/-! ## Concrete instances of the claim theorems -/

/-- The parsed form of the constraint list `[">=1.0.0"]`. -/
def c1pcs : List SvConstraint := (parseConstraintList [">=1.0.0"]).getD []

/-- **C1, instantiated**: the error characterization at a concrete
version list and constraint. -/
theorem selectVersion_spec_witness :
    parseConstraintList [">=1.0.0"] = some c1pcs ∧
    (selectVersion ["2.0.0", "1.0.0", "oops"] [">=1.0.0"] =
        .error .noSemverCandidates ↔
      ∀ v ∈ ["2.0.0", "1.0.0", "oops"], semverNewVersion v = none) :=
  ⟨rfl, (selectVersion_spec ["2.0.0", "1.0.0", "oops"] [">=1.0.0"] c1pcs rfl).2.1⟩

/-- A two-node acyclic demo graph for the C3 instance. -/
def c3G : List (String × List String) := [("a.b@1", ["c.d@1"]), ("c.d@1", [])]

/-- **C3, instantiated**: on the demo graph, any failure could only be
the cycle error. -/
theorem buildInstallLevels_spec_witness :
    (akeys c3G).Nodup ∧
    (∀ e, buildInstallLevels c3G = .error e →
      e = ResolveErr.dependencyGraphHasACycle) :=
  ⟨by decide, (buildInstallLevels_spec c3G (by decide)).2.1⟩

/-- **C4, instantiated**: two differing bare literals conflict. -/
theorem exactVersionFromConstraints_spec_witness :
    exactVersionFromConstraints ["1.2.3", "1.2.4"] =
      .error (.conflictingExactVersions "1.2.3" "1.2.4") :=
  (exactVersionFromConstraints_spec [">= 1.0.0"] (by decide) "1.2.3" "1.2.4"
    (by decide) (by decide) (by decide) (by decide)
    (by decide) (by decide) (by decide) (by decide) (by decide)).2.2

/-- **C5, instantiated**: a fresh decodable entry is served from the
cache with no request and no store change. -/
theorem fetchJSONWithCachePolicy_spec_witness :
    FetchJSONWithCachePolicy c5Dec 0 c5Net (fun u => u) "u"
        (some [("u", c5Entry)]) c5Policy =
      (.ok 7, some [("u", c5Entry)], []) :=
  (fetchJSONWithCachePolicy_spec c5Dec 0 c5Net (fun u => u) "u" [("u", c5Entry)]
    c5Policy c5Entry rfl rfl rfl (by decide)).1 7 (Or.inr (by decide)) rfl

/-- Concrete installer environment for the C8 instance: a declared
hash that differs from the streamed one. -/
def c8Env : InstallEnv :=
  { downloadPath := "/dl", noCache := false, statExists := fun _ => false,
    installed := [], artifactHas := false, metaLoad := none, downloadOK := true,
    streamSHA := "OTHER", tmpPath := "/tmp/t", commitPath := "/c", fetchPath := "/f",
    fetchMeta := [], fetchOK := true, extractOK := true,
    fileHash := fun _ => .ok "F" }

/-- Collection for the C8 instance. -/
def c8Col : Collection := ⟨"ns", "nm", "1.0.0", "s"⟩

/-- Version metadata for the C8 instance. -/
def c8Meta : VersionMeta := ⟨"http://x", "DEADBEEF"⟩

/-- **C8, instantiated**: the SHA comparison itself reports the
mismatch. -/
theorem sha256Mismatch_spec_witness :
    verifyDownloadSHA c8Meta c8Env.streamSHA =
      .error (.sha256Mismatch (goTrim c8Meta.artifactSha256) c8Env.streamSHA) :=
  (sha256Mismatch_spec c8Env c8Col c8Meta (by decide) (by decide) (by decide)
    rfl rfl rfl).1

/-- Concrete installer environment for the C9 instance. -/
def c9Env : InstallEnv :=
  { downloadPath := "/dl9", noCache := false, statExists := fun _ => false,
    installed := [], artifactHas := false, metaLoad := none, downloadOK := false,
    streamSHA := "S", tmpPath := "/tmp/t9", commitPath := "/c9", fetchPath := "/f9",
    fetchMeta := [], fetchOK := true, extractOK := true,
    fileHash := fun _ => .ok "F" }

/-- Collection for the C9 instance. -/
def c9Col : Collection := ⟨"a", "b", "1", "s"⟩

/-- **C9, instantiated**: the no-work characterization of
`installCollection` at a concrete environment. -/
theorem canSkipInstall_spec_witness :
    installCollection c9Env c9Col none = (.ok (), noInstallEffects) ↔
    canSkipInstall c9Env.downloadPath c9Col
      (installPathOf c9Env.downloadPath c9Col) c9Env.installed c9Env.statExists = true :=
  (canSkipInstall_spec "/dl9" c9Col "x" [] (fun _ => false) (by decide) c9Env none).2

/-- File hasher for the C10 instance: always a fixed non-empty hash. -/
def c10fh : String → Except InstallErr String := fun _ => .ok "FF"

/-- Version metadata for the C10 instance: no declared hash. -/
def c10m : VersionMeta := ⟨"u", ""⟩

/-- **C10, instantiated**: a non-empty streaming hash is used as-is. -/
theorem resolveArtifactSHA_spec_witness :
    resolveArtifactSHA c10fh "p" (some c10m) (some []) "abc" = .ok (goTrim "abc") :=
  (resolveArtifactSHA_spec c10fh "p" c10m [] "abc"
    (fun q s h => by
      injection h with h2
      rw [← h2]
      decide)).2.1 (by decide)

end GoGalaxy
